import Mathlib

/-!
# Breez record store (`db.go`)

A shallow embedding of `db.go`: the bolt key/value engine is modelled as sorted
association lists (buckets keyed by byte strings, iterated in `bytes.Compare`
order), a transaction is a function on the store state, and every public
function of `db.go` is a Lean function on that state.

Conventions.
* A Go `[]byte` and a Go `string` are both `Bytes`; a `nil` result of `Get`
  is `none`, a stored empty value is `some []`.
* A Go `uint64` is `Uint64 = Fin (2^64)`, so arithmetic wraps as in Go.
* A Go `error` result is `Option DbError` (`none` is `nil`); a run-time panic
  is reported through the two `DbError` constructors ending in `Panic`.
* `db.Update` commits the state produced by its callback when the callback
  returns `nil` and keeps the old state otherwise; variables captured by the
  callback keep what the callback wrote to them either way.
* `Bucket.Put` fails as in bolt: on an empty key, a key longer than
  `MaxKeySize`, a value longer than `MaxValueSize`, a key holding a nested
  bucket.
* `encoding/json` is a parameter (`JsonCodec`); what a property needs of it is
  a hypothesis of that property.
* I/O failures of the engine and the size of the store file are outside the
  model.
-/

namespace Breez

/-! ## Bytes and integers -/

abbrev Byte := Fin 256

abbrev Bytes := List Byte

abbrev Uint64 := Fin 18446744073709551616

/-- The order of `bytes.Compare(a, b) < 0`, which bolt uses to order keys. -/
def bytesLess : Bytes → Bytes → Bool
  | [], [] => false
  | [], _ :: _ => true
  | _ :: _, [] => false
  | a :: as, b :: bs =>
    if a.val < b.val then true
    else if b.val < a.val then false
    else bytesLess as bs

/-- Go conversion `byte(n)`: the low 8 bits. -/
def byteOf (n : Nat) : Byte := ⟨n % 256, Nat.mod_lt n (by decide)⟩

/-- The value of a 64-bit unsigned expression: the low 64 bits. -/
def uint64Of (n : Nat) : Uint64 := ⟨n % 18446744073709551616, Nat.mod_lt n (by decide)⟩

/-- Go `itob`: the 8-byte big-endian encoding (`binary.BigEndian.PutUint64`,
byte `i` is `byte(v >> (56 - 8*i))`). -/
def itob (v : Uint64) : Bytes :=
  [byteOf (v.val / 2 ^ 56), byteOf (v.val / 2 ^ 48), byteOf (v.val / 2 ^ 40),
   byteOf (v.val / 2 ^ 32), byteOf (v.val / 2 ^ 24), byteOf (v.val / 2 ^ 16),
   byteOf (v.val / 2 ^ 8), byteOf v.val]

/-- Go `btoi` (`binary.BigEndian.Uint64`): decodes the first 8 bytes; on a
slice shorter than 8 bytes the Go code panics, here `none`. -/
def btoi (bytes : Bytes) : Option Uint64 :=
  if bytes.length < 8 then none
  else some (uint64Of ((bytes.take 8).foldl (fun acc x => acc * 256 + x.val) 0))

/-- The number a byte string denotes, read big-endian. -/
def beVal (bs : Bytes) : Nat := bs.foldl (fun acc x => acc * 256 + x.val) 0

/-- Go conversion `int64(x)` of a `uint64`: two's complement reinterpretation. -/
def int64OfUint64 (x : Uint64) : Int :=
  if x.val < 2 ^ 63 then (x.val : Int) else (x.val : Int) - 2 ^ 64

/-! ## Errors -/

/-- The errors of `db.go`: bolt's errors, the error of `encoding/json`, and the
two run-time panics the code can raise (method call on a `nil` bucket, `btoi`
on a short slice). -/
inductive DbError
  | ErrBucketNameRequired
  | ErrKeyRequired
  | ErrKeyTooLarge
  | ErrValueTooLarge
  | ErrIncompatibleValue
  | jsonError
  | nilBucketPanic
  | indexRangePanic
  deriving DecidableEq, Repr

deriving instance DecidableEq for Except

/-- bolt `MaxKeySize`. -/
def MaxKeySize : Nat := 32768

/-- bolt `MaxValueSize`, `(1 << 31) - 2`. -/
def MaxValueSize : Nat := 2147483646

/-! ## Sorted association lists -/

/-- Lookup of a key. -/
def kvGet {α : Type} (k : Bytes) : List (Bytes × α) → Option α
  | [] => none
  | (k', v) :: rest => if k' = k then some v else kvGet k rest

/-- Insert or overwrite, keeping the keys in `bytesLess` order. -/
def kvPut {α : Type} (k : Bytes) (v : α) : List (Bytes × α) → List (Bytes × α)
  | [] => [(k, v)]
  | (k', v') :: rest =>
    if k' = k then (k, v) :: rest
    else if bytesLess k k' then (k, v) :: (k', v') :: rest
    else (k', v') :: kvPut k v rest

/-- Remove a key (no change when it is absent). -/
def kvDel {α : Type} (k : Bytes) : List (Bytes × α) → List (Bytes × α)
  | [] => []
  | (k', v') :: rest => if k' = k then rest else (k', v') :: kvDel k rest

/-! ## Buckets -/

/-- What a bucket stores under a key: a value, or a nested bucket. -/
inductive Entry (β : Type)
  | value (v : Bytes)
  | bucket (b : β)
  deriving DecidableEq, Repr

/-- A bolt bucket whose nested buckets have type `β`: its entries in key order
and its sequence counter. -/
structure BucketOf (β : Type) where
  entries : List (Bytes × Entry β)
  sequence : Uint64
  deriving DecidableEq, Repr

/-- The type of nested buckets of a bucket that has none. -/
inductive NoBucket
  deriving DecidableEq, Repr

/-- A bucket nested in a top-level bucket (`paymentsSyncInfo`). -/
abbrev SubBucket := BucketOf NoBucket

/-- A top-level bucket. -/
abbrev Bucket := BucketOf SubBucket

/-- The store: bolt's root bucket, whose entries are the top-level buckets.
It is also the state a transaction works on. -/
abbrev DB := BucketOf Bucket

/-- A bucket with no entries. -/
def emptyBucket {β : Type} : BucketOf β := ⟨[], 0⟩

namespace BucketOf

variable {β : Type}

/-- bolt `Bucket.Get`: `nil` when the key is absent or holds a nested bucket. -/
def Get (b : BucketOf β) (key : Bytes) : Option Bytes :=
  match kvGet key b.entries with
  | some (Entry.value v) => some v
  | _ => none

/-- bolt `Bucket.Bucket` (and `Tx.Bucket` on the root): `nil` when the name is
absent or holds a value. -/
def Bucket (b : BucketOf β) (name : Bytes) : Option β :=
  match kvGet name b.entries with
  | some (Entry.bucket nb) => some nb
  | _ => none

/-- bolt `Bucket.Put`. -/
def Put (b : BucketOf β) (key value : Bytes) : Except DbError (BucketOf β) :=
  if key.length = 0 then Except.error DbError.ErrKeyRequired
  else if key.length > MaxKeySize then Except.error DbError.ErrKeyTooLarge
  else if value.length > MaxValueSize then Except.error DbError.ErrValueTooLarge
  else
    match kvGet key b.entries with
    | some (Entry.bucket _) => Except.error DbError.ErrIncompatibleValue
    | _ => Except.ok ⟨kvPut key (Entry.value value) b.entries, b.sequence⟩

/-- bolt `Bucket.Delete`: a no-op on an absent key. -/
def Delete (b : BucketOf β) (key : Bytes) : Except DbError (BucketOf β) :=
  match kvGet key b.entries with
  | none => Except.ok b
  | some (Entry.bucket _) => Except.error DbError.ErrIncompatibleValue
  | some (Entry.value _) => Except.ok ⟨kvDel key b.entries, b.sequence⟩

/-- bolt `Bucket.NextSequence`: increments the `uint64` counter and returns it. -/
def NextSequence (b : BucketOf β) : Uint64 × BucketOf β :=
  (b.sequence + 1, ⟨b.entries, b.sequence + 1⟩)

/-- bolt `CreateBucketIfNotExists`; `fresh` is the empty nested bucket. The
result is the nested bucket and the parent holding it. -/
def CreateBucketIfNotExists (b : BucketOf β) (name : Bytes) (fresh : β) :
    Except DbError (β × BucketOf β) :=
  if name.length = 0 then Except.error DbError.ErrBucketNameRequired
  else
    match kvGet name b.entries with
    | some (Entry.bucket nb) => Except.ok (nb, b)
    | some (Entry.value _) => Except.error DbError.ErrIncompatibleValue
    | none => Except.ok (fresh, ⟨kvPut name (Entry.bucket fresh) b.entries, b.sequence⟩)

/-- Writes made through a nested-bucket pointer are writes to the parent: the
nested bucket held under `name` becomes `nb`. -/
def setBucket (b : BucketOf β) (name : Bytes) (nb : β) : BucketOf β :=
  ⟨kvPut name (Entry.bucket nb) b.entries, b.sequence⟩

/-- What a cursor shows, first to last: each key with its value, `nil` for a
nested bucket. -/
def cursor (b : BucketOf β) : List (Bytes × Option Bytes) :=
  b.entries.map fun e =>
    match e.2 with
    | Entry.value v => (e.1, some v)
    | Entry.bucket _ => (e.1, none)

end BucketOf

/-- A `nil` bucket pointer is dereferenced by the next method call. -/
def deref {α : Type} : Option α → Except DbError α
  | some b => Except.ok b
  | none => Except.error DbError.nilBucketPanic

/-- bolt `db.Update`: `fn` returns what it left in its captured variables and
either an error or the transaction state; the state is committed only when
there is no error. The commit itself is taken to go through: what can make
bolt's commit fail after `fn` returned `nil` (an I/O error, or its panic when
it has to write a key and value of more than 2^31 - 1 bytes together) is
outside the model, so what a write achieves is stated for calls that return
no error. -/
def dbUpdate {σ : Type} (db : DB) (fn : DB → σ × Except DbError DB) :
    σ × Option DbError × DB :=
  match fn db with
  | (c, Except.ok tx) => (c, none, tx)
  | (c, Except.error e) => (c, some e, db)

/-- bolt `db.View`: a read-only transaction. -/
def dbView {σ : Type} (db : DB) (fn : DB → σ × Except DbError Unit) : σ × Option DbError :=
  match fn db with
  | (c, Except.ok _) => (c, none)
  | (c, Except.error e) => (c, some e)

/-! ## Names of buckets and keys -/

/-- The bytes of `"paymentRequests"`. -/
def incmoingPayReqBucket : Bytes :=
  [112, 97, 121, 109, 101, 110, 116, 82, 101, 113, 117, 101, 115, 116, 115]

/-- The bytes of `"swap_addresses"`. -/
def addressesBucket : Bytes :=
  [115, 119, 97, 112, 95, 97, 100, 100, 114, 101, 115, 115, 101, 115]

/-- The bytes of `"payments"`. -/
def paymentsBucket : Bytes := [112, 97, 121, 109, 101, 110, 116, 115]

/-- The bytes of `"paymentsSyncInfo"`. -/
def paymentsSyncInfoBucket : Bytes :=
  [112, 97, 121, 109, 101, 110, 116, 115, 83, 121, 110, 99, 73, 110, 102, 111]

/-- The bytes of `"account"`. -/
def accountBucket : Bytes := [97, 99, 99, 111, 117, 110, 116]

/-- The bytes of `"account"`, the key of the account record. -/
def accountKey : Bytes := [97, 99, 99, 111, 117, 110, 116]

/-- The bytes of `"lastSentPaymentTime"`. -/
def lastSentPaymentTimeKey : Bytes :=
  [108, 97, 115, 116, 83, 101, 110, 116, 80, 97, 121, 109, 101, 110, 116, 84, 105, 109, 101]

/-- The bytes of `"lastSettledIndex"`. -/
def lastSettledIndexKey : Bytes :=
  [108, 97, 115, 116, 83, 101, 116, 116, 108, 101, 100, 73, 110, 100, 101, 120]

/-! ## Opening the store -/

/-- The update transaction of `openDB`. -/
def openDBTx (tx : DB) : Except DbError DB := do
  let (_, tx) ← tx.CreateBucketIfNotExists incmoingPayReqBucket emptyBucket
  let (paymenetBucket, tx) ← tx.CreateBucketIfNotExists paymentsBucket emptyBucket
  let (_, paymenetBucket) ←
    paymenetBucket.CreateBucketIfNotExists paymentsSyncInfoBucket emptyBucket
  let tx := tx.setBucket paymentsBucket paymenetBucket
  let (_, tx) ← tx.CreateBucketIfNotExists accountBucket emptyBucket
  let (_, tx) ← tx.CreateBucketIfNotExists addressesBucket emptyBucket
  pure tx

/-- Go `openDB`, on the content `db` of the file at `dbPath`. -/
def openDB (db : DB) : Option DbError × DB :=
  (dbUpdate db fun tx => ((), openDBTx tx)).2

/-- The content of a store file that does not exist yet. -/
def emptyDB : DB := emptyBucket

/-- A freshly opened empty store. -/
def freshDB : DB := (openDB emptyDB).2

/-! ## Payment ledger -/

/-- The watermark read in `addAccountPayment`: 0 when absent, else `btoi`. -/
def readWatermark (syncInfoBucket : SubBucket) (key : Bytes) : Except DbError Uint64 :=
  match syncInfoBucket.Get key with
  | some buf =>
    match btoi buf with
    | some v => Except.ok v
    | none => Except.error DbError.indexRangePanic
  | none => Except.ok 0

/-- The update transaction of `addAccountPayment`. -/
def addAccountPaymentTx (accPayment : Bytes) (receivedIndex sentTime : Uint64) (tx : DB) :
    Except DbError DB := do
  let b ← deref (tx.Bucket paymentsBucket)
  let (id, b) := b.NextSequence
  let b ← b.Put (itob id) accPayment
  let syncInfoBucket ← deref (b.Bucket paymentsSyncInfoBucket)
  let lastPaymentTime ← readWatermark syncInfoBucket lastSentPaymentTimeKey
  let syncInfoBucket ←
    if lastPaymentTime < sentTime then syncInfoBucket.Put lastSentPaymentTimeKey (itob sentTime)
    else pure syncInfoBucket
  let lastInvoiceSettledIndex ← readWatermark syncInfoBucket lastSettledIndexKey
  let syncInfoBucket ←
    if lastInvoiceSettledIndex < receivedIndex then
      syncInfoBucket.Put lastSettledIndexKey (itob receivedIndex)
    else pure syncInfoBucket
  pure (tx.setBucket paymentsBucket (b.setBucket paymentsSyncInfoBucket syncInfoBucket))

/-- Go `addAccountPayment`: the error returned and the store afterwards. -/
def addAccountPayment (db : DB) (accPayment : Bytes) (receivedIndex sentTime : Uint64) :
    Option DbError × DB :=
  (dbUpdate db fun tx => ((), addAccountPaymentTx accPayment receivedIndex sentTime tx)).2

/-- The cursor loop of `fetchAllAccountPayments`: entries with a `nil` value
(nested buckets) are skipped, every other value is appended. -/
def collectPayments : List (Bytes × Option Bytes) → List Bytes
  | [] => []
  | (_, none) :: rest => collectPayments rest
  | (_, some v) :: rest => v :: collectPayments rest

/-- Go `fetchAllAccountPayments`. -/
def fetchAllAccountPayments (db : DB) : List Bytes × Option DbError :=
  dbView db fun tx =>
    match deref (tx.Bucket paymentsBucket) with
    | Except.error e => ([], Except.error e)
    | Except.ok b => (collectPayments b.cursor, Except.ok ())

/-- Go `fetchPaymentsSyncInfo`; the Go function has no error result, so the
only other outcome is a panic. -/
def fetchPaymentsSyncInfo (db : DB) : Except DbError (Int × Uint64) := do
  let b ← deref (db.Bucket paymentsBucket)
  let syncInfoBucket ← deref (b.Bucket paymentsSyncInfoBucket)
  let lastPaymentTime ←
    match syncInfoBucket.Get lastSentPaymentTimeKey with
    | some buf =>
      match btoi buf with
      | some v => Except.ok (int64OfUint64 v)
      | none => Except.error DbError.indexRangePanic
    | none => Except.ok 0
  let lastInvoiceSettledIndex ← readWatermark syncInfoBucket lastSettledIndexKey
  pure (lastPaymentTime, lastInvoiceSettledIndex)

/-! ## Generic accessors, account, payment requests -/

/-- Go `saveItem`. -/
def saveItem (db : DB) (bucket key value : Bytes) : Option DbError × DB :=
  (dbUpdate db fun tx =>
    ((), do
      let b ← deref (tx.Bucket bucket)
      let b ← b.Put key value
      pure (tx.setBucket bucket b))).2

/-- Go `fetchItem`: the value (`none` is `nil`) and the error. -/
def fetchItem (db : DB) (bucket key : Bytes) : Option Bytes × Option DbError :=
  dbView db fun tx =>
    match deref (tx.Bucket bucket) with
    | Except.error e => (none, Except.error e)
    | Except.ok b => (b.Get key, Except.ok ())

/-- Go `saveAccount`. -/
def saveAccount (db : DB) (account : Bytes) : Option DbError × DB :=
  saveItem db accountBucket accountKey account

/-- Go `fetchAccount`. -/
def fetchAccount (db : DB) : Option Bytes × Option DbError :=
  fetchItem db accountBucket accountKey

/-- Go `savePaymentRequest`; `[]byte(payReqHash)` is the string's bytes. -/
def savePaymentRequest (db : DB) (payReqHash payReq : Bytes) : Option DbError × DB :=
  saveItem db incmoingPayReqBucket payReqHash payReq

/-- Go `fetchPaymentRequest`. -/
def fetchPaymentRequest (db : DB) (payReqHash : Bytes) : Option Bytes × Option DbError :=
  fetchItem db incmoingPayReqBucket payReqHash

/-! ## Swap addresses -/

/-- Modelled from the spec: the type `swapAddressInfo` is declared outside
`db.go`; the spec gives it the fields `Address` (string) and `PaymentHash`
(byte string) "plus implementation-defined additional fields", kept here as
one uninterpreted field `Rest`. -/
structure swapAddressInfo where
  Address : Bytes
  PaymentHash : Bytes
  Rest : Bytes
  deriving DecidableEq, Repr

/-- The two functions of `encoding/json` that `db.go` calls, on
`swapAddressInfo`: `json.Marshal` and `json.Unmarshal` into a zero record
(`none` is a non-nil error). They are parameters of the model. -/
structure JsonCodec where
  Marshal : swapAddressInfo → Option Bytes
  Unmarshal : Bytes → Option swapAddressInfo

/-- Modelled from the spec: `serializeSwapAddressInfo` is defined outside
`db.go`; the spec says `saveSwapAddress` "serializes `record` to JSON". -/
def serializeSwapAddressInfo (J : JsonCodec) (s : swapAddressInfo) : Except DbError Bytes :=
  match J.Marshal s with
  | some bytes => Except.ok bytes
  | none => Except.error DbError.jsonError

/-- Modelled from the spec: `deserializeSwapAddressInfo` is defined outside
`db.go`; the spec says the scan "deserializes each value" of the JSON-encoded
records. -/
def deserializeSwapAddressInfo (J : JsonCodec) (addressBytes : Bytes) :
    Except DbError swapAddressInfo :=
  match J.Unmarshal addressBytes with
  | some address => Except.ok address
  | none => Except.error DbError.jsonError

/-- A Go `[]byte` that may be `nil`, read as bytes (`nil` has length 0). -/
def bytesOf (v : Option Bytes) : Bytes := v.getD []

/-- bolt `Bucket.ForEach` over the entries `items` the scan visits, in key
order: `fn` is called on each key and value with the state `s` of everything
the callback can write to, and the first non-nil error stops the scan and is
the result. `removeSwapAddressByPaymentHash` deletes from the bucket inside
the callback, which bolt's documentation leaves undefined; the model follows
bolt's implementation, where the cursor of the scan reads the pages as they
were when the transaction began (a delete only changes the in-memory node), so
the scan still visits every entry the bucket had when it started. -/
def ForEach {σ : Type} (fn : Bytes → Option Bytes → σ → σ × Option DbError) :
    List (Bytes × Option Bytes) → σ → σ × Option DbError
  | [], s => (s, none)
  | (k, v) :: rest, s =>
    match fn k v s with
    | (s', none) => ForEach fn rest s'
    | (s', some e) => (s', some e)

/-- The callback of `fetchSwapAddresses`; the state is the slice `addresses`. -/
def fetchSwapAddressesFn (J : JsonCodec) (filterFunc : swapAddressInfo → Bool)
    (_k : Bytes) (v : Option Bytes) (addresses : List swapAddressInfo) :
    List swapAddressInfo × Option DbError :=
  match J.Unmarshal (bytesOf v) with
  | none => (addresses, some DbError.jsonError)
  | some address =>
    if filterFunc address then (addresses ++ [address], none) else (addresses, none)

/-- Go `fetchSwapAddresses`. The result of `b.ForEach` is dropped and the
transaction function returns `nil`. -/
def fetchSwapAddresses (J : JsonCodec) (db : DB) (filterFunc : swapAddressInfo → Bool) :
    List swapAddressInfo × Option DbError :=
  dbView db fun tx =>
    match deref (tx.Bucket addressesBucket) with
    | Except.error e => ([], Except.error e)
    | Except.ok b => ((ForEach (fetchSwapAddressesFn J filterFunc) b.cursor []).1, Except.ok ())

/-- Go `fetchAllSwapAddresses`. -/
def fetchAllSwapAddresses (J : JsonCodec) (db : DB) : List swapAddressInfo × Option DbError :=
  fetchSwapAddresses J db fun _ => true

/-- Go `saveSwapAddressInfo`. -/
def saveSwapAddressInfo (J : JsonCodec) (db : DB) (address : swapAddressInfo) :
    Option DbError × DB :=
  match serializeSwapAddressInfo J address with
  | Except.error err => (some err, db)
  | Except.ok bytes => saveItem db addressesBucket address.Address bytes

/-- Go `removeSwapAddress`. -/
def removeSwapAddress (db : DB) (address : Bytes) : Option DbError × DB :=
  (dbUpdate db fun tx =>
    ((), do
      let b ← deref (tx.Bucket addressesBucket)
      let b ← b.Delete address
      pure (tx.setBucket addressesBucket b))).2

/-- The callback of `removeSwapAddressByPaymentHash`; the state is the captured
variable `found` and the bucket `b` the callback deletes from. -/
def removeByPaymentHashFn (J : JsonCodec) (pHash : Bytes) (k : Bytes) (v : Option Bytes)
    (s : Bool × Bucket) : (Bool × Bucket) × Option DbError :=
  match deserializeSwapAddressInfo J (bytesOf v) with
  | Except.error err => (s, some err)
  | Except.ok address =>
    if address.PaymentHash = pHash then
      match s.2.Delete k with
      | Except.ok b => ((true, b), none)
      | Except.error err => ((true, s.2), some err)
    else (s, none)

/-- Go `removeSwapAddressByPaymentHash`: `found`, the error, the store. -/
def removeSwapAddressByPaymentHash (J : JsonCodec) (db : DB) (pHash : Bytes) :
    Bool × Option DbError × DB :=
  dbUpdate db fun tx =>
    match deref (tx.Bucket addressesBucket) with
    | Except.error e => (false, Except.error e)
    | Except.ok b =>
      match ForEach (removeByPaymentHashFn J pHash) b.cursor (false, b) with
      | (s, none) => (s.1, Except.ok (tx.setBucket addressesBucket s.2))
      | (s, some e) => (s.1, Except.error e)

/-- Go `updateSwapAddressInfo`. The Go callback `updateFund` mutates the
record in place and may write to variables it captured: it is a function of
the record and of those variables `env`. The result is `env` afterwards, the
error, and the store. -/
def updateSwapAddressInfo {σ : Type} (J : JsonCodec) (db : DB) (address : Bytes)
    (updateFund : swapAddressInfo → σ → swapAddressInfo × σ) (env : σ) :
    σ × Option DbError × DB :=
  dbUpdate db fun tx =>
    match deref (tx.Bucket addressesBucket) with
    | Except.error e => (env, Except.error e)
    | Except.ok b =>
      match J.Unmarshal (bytesOf (b.Get address)) with
      | none => (env, Except.error DbError.jsonError)
      | some decodedAddressInfo =>
        match updateFund decodedAddressInfo env with
        | (decodedAddressInfo, env) =>
          match J.Marshal decodedAddressInfo with
          | none => (env, Except.error DbError.jsonError)
          | some addressInfoBytes =>
            match b.Put address addressInfoBytes with
            | Except.error e => (env, Except.error e)
            | Except.ok b => (env, Except.ok (tx.setBucket addressesBucket b))

/-! ## Histories of calls -/

/-- One call of `addAccountPayment`. -/
structure PaymentCall where
  accPayment : Bytes
  receivedIndex : Uint64
  sentTime : Uint64
  deriving DecidableEq, Repr

/-- The calls in `calls` made one after the other on `db`: the store at the
end and the error each call returned. -/
def addAccountPayments (db : DB) : List PaymentCall → DB × List (Option DbError)
  | [] => (db, [])
  | c :: rest =>
    let r := addAccountPayment db c.accPayment c.receivedIndex c.sentTime
    let rs := addAccountPayments r.2 rest
    (rs.1, r.1 :: rs.2)

/-- The payments of the calls that returned no error, in call order. -/
def successfulPayments : List PaymentCall → List (Option DbError) → List Bytes
  | c :: calls, none :: errs => c.accPayment :: successfulPayments calls errs
  | _ :: calls, some _ :: errs => successfulPayments calls errs
  | _, _ => []

/-- The calls that returned no error, in call order. -/
def successfulCalls : List PaymentCall → List (Option DbError) → List PaymentCall
  | c :: calls, none :: errs => c :: successfulCalls calls errs
  | _ :: calls, some _ :: errs => successfulCalls calls errs
  | _, _ => []

/-- A state-changing call of the public interface of `db.go`. `reopen` is
`closeDB` then `openDB` on the same file; `reset` is `closeDB`, `deleteDB`,
then `openDB`. -/
inductive Op
  | addAccountPayment (accPayment : Bytes) (receivedIndex sentTime : Uint64)
  | saveAccount (account : Bytes)
  | savePaymentRequest (payReqHash payReq : Bytes)
  | saveSwapAddressInfo (address : swapAddressInfo)
  | removeSwapAddress (address : Bytes)
  | removeSwapAddressByPaymentHash (pHash : Bytes)
  | updateSwapAddressInfo (address : Bytes) (updateFund : swapAddressInfo → swapAddressInfo)
  | reopen
  | reset

/-- The store after one call. -/
def step (J : JsonCodec) (db : DB) : Op → DB
  | Op.addAccountPayment p idx t => (addAccountPayment db p idx t).2
  | Op.saveAccount x => (saveAccount db x).2
  | Op.savePaymentRequest h r => (savePaymentRequest db h r).2
  | Op.saveSwapAddressInfo r => (saveSwapAddressInfo J db r).2
  | Op.removeSwapAddress a => (removeSwapAddress db a).2
  | Op.removeSwapAddressByPaymentHash h => (removeSwapAddressByPaymentHash J db h).2.2
  | Op.updateSwapAddressInfo a f =>
    (updateSwapAddressInfo J db a (fun r (u : Unit) => (f r, u)) ()).2.2
  | Op.reopen => (openDB db).2
  | Op.reset => freshDB

/-- The store after a list of calls. -/
def run (J : JsonCodec) (db : DB) : List Op → DB
  | [] => db
  | op :: ops => run J (step J db op) ops

/-- The stores the public interface can produce from a freshly opened empty
store. -/
def Reachable (J : JsonCodec) (db : DB) : Prop := ∃ ops, run J freshDB ops = db

/-! ## Definitions used to state the properties -/

/-- Keys strictly increasing in `bytesLess` order (so no key occurs twice). -/
def KeysSorted {α : Type} (l : List (Bytes × α)) : Prop :=
  l.Pairwise fun a b => bytesLess a.1 b.1 = true

/-- The bucket after a successful `Put`. -/
def putValue {β : Type} (b : BucketOf β) (key value : Bytes) : BucketOf β :=
  ⟨kvPut key (Entry.value value) b.entries, b.sequence⟩

/-- One watermark block of `addAccountPayment` (lines 80-89, and 91-99 with the
other key and candidate): read the stored value, overwrite it when the
candidate is strictly greater. -/
def bumpWatermark (syncInfoBucket : SubBucket) (key : Bytes) (cand : Uint64) :
    Except DbError SubBucket := do
  let last ← readWatermark syncInfoBucket key
  if last < cand then syncInfoBucket.Put key (itob cand) else pure syncInfoBucket

/-- The `paymentsSyncInfo` bucket after the two watermark blocks of
`addAccountPayment`, when the stored watermarks are `wt` and `wi`. -/
def syncAfter (sb : SubBucket) (wt wi idx t : Uint64) : SubBucket :=
  let sb1 := if wt < t then putValue sb lastSentPaymentTimeKey (itob t) else sb
  if wi < idx then putValue sb1 lastSettledIndexKey (itob idx) else sb1

/-- The values among the entries, in order: what `collectPayments` keeps. -/
def recordsOf {β : Type} (l : List (Bytes × Entry β)) : List Bytes :=
  l.filterMap fun e =>
    match e.2 with
    | Entry.value v => some v
    | Entry.bucket _ => none

/-- The state of the payments ledger after `n` successful calls of
`addAccountPayment` with payments `ps` on a fresh store. -/
def LedgerInv (db : DB) (n : Nat) (ps : List Bytes) : Prop :=
  ∃ (b : Bucket) (sb : SubBucket) (wt wi : Uint64),
    db.Bucket paymentsBucket = some b ∧ b.Bucket paymentsSyncInfoBucket = some sb ∧
    readWatermark sb lastSentPaymentTimeKey = Except.ok wt ∧
    readWatermark sb lastSettledIndexKey = Except.ok wi ∧
    b.sequence.val = n ∧ KeysSorted b.entries ∧
    (∀ k v, (k, Entry.value v) ∈ b.entries → ∃ i : Uint64, i.val ≤ n ∧ k = itob i) ∧
    (∀ k nb, (k, Entry.bucket nb) ∈ b.entries → k.length ≠ 8) ∧
    recordsOf b.entries = ps

/-- The largest `sentTime` of the calls, 0 when there is none. -/
def maxSentTime : List PaymentCall → Uint64
  | [] => 0
  | c :: rest => if maxSentTime rest < c.sentTime then c.sentTime else maxSentTime rest

/-- The largest `receivedIndex` of the calls, 0 when there is none. -/
def maxReceivedIndex : List PaymentCall → Uint64
  | [] => 0
  | c :: rest =>
    if maxReceivedIndex rest < c.receivedIndex then c.receivedIndex else maxReceivedIndex rest

/-- The payments bucket and its nested `paymentsSyncInfo` bucket exist, no
nested bucket sits under an 8-byte key, and the stored watermarks decode to
`wt` (`lastSentPaymentTime`) and `wi` (`lastSettledIndex`), absent read as 0. -/
def SyncInv (db : DB) (wt wi : Uint64) : Prop :=
  ∃ (b : Bucket) (sb : SubBucket),
    db.Bucket paymentsBucket = some b ∧ b.Bucket paymentsSyncInfoBucket = some sb ∧
    (∀ k nb, (k, Entry.bucket nb) ∈ b.entries → k.length ≠ 8) ∧
    readWatermark sb lastSentPaymentTimeKey = Except.ok wt ∧
    readWatermark sb lastSettledIndexKey = Except.ok wi

/-- What every store produced by `db.go` satisfies: the buckets `openDB`
creates exist and the two watermarks can be read. -/
def StoreInv (db : DB) : Prop :=
  (∃ wt wi, SyncInv db wt wi) ∧
  (∃ b, db.Bucket incmoingPayReqBucket = some b) ∧
  (∃ b, db.Bucket accountBucket = some b) ∧
  (∃ b, db.Bucket addressesBucket = some b)

/-- The entry stored under `key` in the `paymentsSyncInfo` bucket, `none` when
absent. -/
def storedWatermark (db : DB) (key : Bytes) : Option Bytes :=
  match db.Bucket paymentsBucket with
  | none => none
  | some b =>
    match b.Bucket paymentsSyncInfoBucket with
    | none => none
    | some sb => sb.Get key

/-- The watermark stored under `key`, an absent entry counted as 0. -/
def watermarkOf (db : DB) (key : Bytes) : Uint64 :=
  match storedWatermark db key with
  | none => 0
  | some buf => (btoi buf).getD 0

/-- The entries of the account bucket (none when the bucket is missing). -/
def accountEntries (db : DB) : List (Bytes × Entry SubBucket) :=
  match db.Bucket accountBucket with
  | none => []
  | some b => b.entries

/-- The account bucket of a store produced by `db.go`: it exists, its keys are
in order, it holds no nested bucket and no key other than `"account"`. -/
def AccountInv (db : DB) : Prop :=
  ∃ b, db.Bucket accountBucket = some b ∧ KeysSorted b.entries ∧
    (∀ e ∈ b.entries, e.1 = accountKey) ∧ (∀ k nb, (k, Entry.bucket nb) ∉ b.entries)

/-- The payment-request bucket of a store produced by `db.go`: it exists and
holds no nested bucket. -/
def PayReqInv (db : DB) : Prop :=
  ∃ b, db.Bucket incmoingPayReqBucket = some b ∧ ∀ k nb, (k, Entry.bucket nb) ∉ b.entries

/-- The calls in `ops` that are `savePaymentRequest` with hash `h`. -/
def savesHash (h : Bytes) : Op → Bool
  | Op.savePaymentRequest h' _ => h' = h
  | _ => false

/-- One field in the encoding of `plainCodec`: every byte preceded by 1, then 0. -/
def encodeField : Bytes → Bytes
  | [] => [0]
  | x :: rest => 1 :: x :: encodeField rest

/-- Reads one field written by `encodeField`: the field and the bytes after it. -/
def decodeField : Bytes → Option (Bytes × Bytes)
  | [] => none
  | [t] => if t = 0 then some ([], []) else none
  | t :: x :: rest =>
    if t = 0 then some ([], x :: rest)
    else
      match decodeField rest with
      | some (f, tail) => some (x :: f, tail)
      | none => none

/-- A concrete codec to instantiate the properties with (`encoding/json` itself
is a parameter of the model): the three fields one after the other. It
decodes what it encodes and rejects the empty input. -/
def plainCodec : JsonCodec where
  Marshal r := some (encodeField r.Address ++ (encodeField r.PaymentHash ++ encodeField r.Rest))
  Unmarshal bytes :=
    match decodeField bytes with
    | none => none
    | some (a, t1) =>
      match decodeField t1 with
      | none => none
      | some (h, t2) =>
        match decodeField t2 with
        | some (x, []) => some ⟨a, h, x⟩
        | _ => none

/-- The record `fetchSwapAddresses` decodes from an entry (a nested bucket is
seen as a `nil` value). -/
def decodeEntry (J : JsonCodec) (e : Bytes × Entry SubBucket) : Option swapAddressInfo :=
  match e.2 with
  | Entry.value v => J.Unmarshal v
  | Entry.bucket _ => J.Unmarshal []

/-- Whether the record of an entry has payment hash `pHash`. -/
def hasPaymentHash (J : JsonCodec) (pHash : Bytes) (e : Bytes × Entry SubBucket) : Bool :=
  match decodeEntry J e with
  | some r => r.PaymentHash = pHash
  | none => false

/-- A well-formed swap-address registry: keys in order (so unique), no nested
bucket, and every value decodes to a record whose `Address` is the key. -/
def RegistryWF (J : JsonCodec) (b : Bucket) : Prop :=
  KeysSorted b.entries ∧ (∀ k nb, (k, Entry.bucket nb) ∉ b.entries) ∧
    ∀ k v, (k, Entry.value v) ∈ b.entries → ∃ r, J.Unmarshal v = some r ∧ r.Address = k

/-- The entries of the swap-address bucket (none when the bucket is missing). -/
def registryEntries (db : DB) : List (Bytes × Entry SubBucket) :=
  match db.Bucket addressesBucket with
  | none => []
  | some b => b.entries

/-- The swap-address bucket exists and is a well-formed registry. -/
def RegistryInv (J : JsonCodec) (db : DB) : Prop :=
  ∃ b, db.Bucket addressesBucket = some b ∧ RegistryWF J b

/-- A store whose registry holds, under `"a"`, a value that `plainCodec`
cannot decode. -/
def undecodableDB : DB :=
  freshDB.setBucket addressesBucket ⟨[([97], Entry.value [120])], 0⟩

/-- A store whose registry holds the records `"a"` and `"b"`, both with
payment hash `[1]`, and the record `"c"` with payment hash `[2]`. -/
def duplicateHashDB : DB :=
  (saveSwapAddressInfo plainCodec
    (saveSwapAddressInfo plainCodec
      (saveSwapAddressInfo plainCodec freshDB ⟨[97], [1], []⟩).2 ⟨[98], [1], []⟩).2
    ⟨[99], [2], []⟩).2

/-- A store whose registry holds the record `"a"` with payment hash `[1]`
(encoded by `plainCodec`) and, after it in key order, under `"b"` a value that
`plainCodec` cannot decode. -/
def partlyUndecodableDB : DB :=
  freshDB.setBucket addressesBucket
    ⟨[([97], Entry.value [1, 97, 0, 1, 1, 0, 0]), ([98], Entry.value [120])], 0⟩

/-- What the spec says `fetchSwapAddresses(p)` returns on a registry whose
values all deserialize: the record decoded from each entry, in key order, kept
when `p` holds. -/
def specFetchSwapAddresses (J : JsonCodec) (entries : List (Bytes × Entry SubBucket))
    (p : swapAddressInfo → Bool) : List swapAddressInfo :=
  (entries.filterMap (decodeEntry J)).filter p

/-- Every value held in the `paymentsSyncInfo` bucket is exactly 8 bytes long. -/
def WatermarksSized (db : DB) : Prop :=
  ∀ key v, storedWatermark db key = some v → v.length = 8

/-- The entries that are not nested buckets, each key with its value, in key
order. -/
def valuesOf {β : Type} (l : List (Bytes × Entry β)) : List (Bytes × Bytes) :=
  l.filterMap fun e =>
    match e.2 with
    | Entry.value v => some (e.1, v)
    | Entry.bucket _ => none

/-- The non-nested entries of the payments bucket (none when the bucket is
missing). -/
def paymentEntries (db : DB) : List (Bytes × Bytes) :=
  match db.Bucket paymentsBucket with
  | none => []
  | some b => valuesOf b.entries

/-- The value stored under `key` in the payments bucket. -/
def paymentAt (db : DB) (key : Bytes) : Option Bytes :=
  match db.Bucket paymentsBucket with
  | none => none
  | some b => b.Get key

/-- The payments `ps` under the keys `itob (n + 1)`, `itob (n + 2)`, and so on. -/
def keyed : Nat → List Bytes → List (Bytes × Bytes)
  | _, [] => []
  | n, p :: ps => (itob (uint64Of (n + 1)), p) :: keyed (n + 1) ps

/-- The payments ledger after successful calls with payments `ps` on a fresh
store: the ledger invariant with the counter at `ps.length`, and the records
under the keys `itob 1`, `itob 2`, and so on, in call order. -/
def GaplessInv (db : DB) (ps : List Bytes) : Prop :=
  LedgerInv db ps.length ps ∧ paymentEntries db = keyed 0 ps

/-- The bucket `b` once `CreateBucketIfNotExists name` has run on it: as it
was when the nested bucket was there, else with `fresh` under `name`. -/
def ensureBucket {β : Type} (b : BucketOf β) (name : Bytes) (fresh : β) : BucketOf β :=
  match b.Bucket name with
  | some _ => b
  | none => b.setBucket name fresh

/-- The store the transaction of `openDB` builds from `db` when no step fails:
each `CreateBucketIfNotExists` in turn, the payments bucket written back with
its nested bucket. -/
def openedStore (db : DB) : DB :=
  ensureBucket (ensureBucket
    ((ensureBucket (ensureBucket db incmoingPayReqBucket emptyBucket) paymentsBucket
        emptyBucket).setBucket paymentsBucket
      (ensureBucket ((db.Bucket paymentsBucket).getD emptyBucket) paymentsSyncInfoBucket
        emptyBucket))
    accountBucket emptyBucket) addressesBucket emptyBucket

/-- A store file as bolt keeps it, that `openDB` can open: the root has its
keys in order and holds only buckets, and the payments bucket, when it is
there, holds no plain value under the name `paymentsSyncInfo`. Any of the
buckets may be missing. -/
def OpenableStore (db : DB) : Prop :=
  KeysSorted db.entries ∧ (∀ k v, (k, Entry.value v) ∉ db.entries) ∧
    ∀ b, db.Bucket paymentsBucket = some b → b.Get paymentsSyncInfoBucket = none

/-- A store file with a payments bucket holding one record and no nested
bucket, an account bucket, and nothing else. -/
def legacyDB : DB :=
  ⟨[(accountBucket, Entry.bucket ⟨[(accountKey, Entry.value [7])], 0⟩),
    (paymentsBucket, Entry.bucket ⟨[(itob 1, Entry.value [1, 2])], 1⟩)], 0⟩

/-- The codec writes the record `r` in a form it reads back as a record with
the same `Address`. -/
def WritesAddress (J : JsonCodec) (r : swapAddressInfo) : Prop :=
  ∀ bytes, J.Marshal r = some bytes → ∃ r', J.Unmarshal bytes = some r' ∧ r'.Address = r.Address

/-- The record `updateSwapAddressInfo(address, updateFund)` decodes from the
store `db` and hands to `updateFund`. -/
def recordAt (J : JsonCodec) (db : DB) (address : Bytes) : Option swapAddressInfo :=
  match db.Bucket addressesBucket with
  | none => none
  | some b => J.Unmarshal (bytesOf (b.Get address))

/-- What the call `op` on the store `db` has to respect: the record given to
`saveSwapAddressInfo` is read back with its `Address`; the mutate function of
`updateSwapAddressInfo` leaves the `Address` of the record it is handed as it
was and returns a record that is read back with its `Address`. No condition on
the other calls. -/
def AddressKept (J : JsonCodec) (db : DB) : Op → Prop
  | Op.saveSwapAddressInfo r => WritesAddress J r
  | Op.updateSwapAddressInfo address updateFund =>
    ∀ r, recordAt J db address = some r →
      (updateFund r).Address = r.Address ∧ WritesAddress J (updateFund r)
  | _ => True

/-- Every call of the history `ops`, made from the store `db` on, respects
`AddressKept` on the store it is made on. -/
def AddressKeptRun (J : JsonCodec) : DB → List Op → Prop
  | _, [] => True
  | db, op :: ops => AddressKept J db op ∧ AddressKeptRun J (step J db op) ops

/-- Every plain value of the payments bucket sits under an 8-byte key. -/
def PaymentKeysSized (db : DB) : Prop :=
  ∀ b, db.Bucket paymentsBucket = some b → ∀ k v, (k, Entry.value v) ∈ b.entries → k.length = 8

/-- What one call does to the root of the store `db`: nothing, a reset, or one
bucket written back. -/
def RootStep (db x : DB) : Prop :=
  x = db ∨ x = freshDB ∨ ∃ name b', x = db.setBucket name b'

/-! # Properties

## Byte order and integer encoding -/


theorem bytesLess_irrefl (a : Bytes) : bytesLess a a = false := by
  induction a with
  | nil => rfl
  | cons x xs ih => simp [bytesLess, ih]

theorem bytesLess_trans : ∀ (a b c : Bytes), bytesLess a b = true → bytesLess b c = true →
    bytesLess a c = true
  | [], [], _, h, _ => by simp [bytesLess] at h
  | [], _ :: _, [], _, h => by simp [bytesLess] at h
  | [], _ :: _, _ :: _, _, _ => by simp [bytesLess]
  | _ :: _, [], _, h, _ => by simp [bytesLess] at h
  | _ :: _, _ :: _, [], _, h => by simp [bytesLess] at h
  | x :: xs, y :: ys, z :: zs, h1, h2 => by
    simp only [bytesLess] at h1 h2 ⊢
    have ih := bytesLess_trans xs ys zs
    split_ifs at h1 h2 ⊢ <;> first | rfl | omega | (exact ih h1 h2)

theorem bytesLess_total : ∀ (a b : Bytes), a ≠ b → bytesLess a b = false → bytesLess b a = true
  | [], [], h, _ => absurd rfl h
  | [], _ :: _, _, h => by simp [bytesLess] at h
  | _ :: _, [], _, _ => by simp [bytesLess]
  | x :: xs, y :: ys, hne, h => by
    simp only [bytesLess] at h ⊢
    have ih := bytesLess_total xs ys
    split_ifs at h ⊢ <;> first | rfl | omega | skip
    have hxy : x = y := Fin.ext (by omega)
    subst hxy
    exact ih (fun e => hne (by rw [e])) h

theorem bytesLess_asymm (a b : Bytes) (h : bytesLess a b = true) : bytesLess b a = false := by
  cases hb : bytesLess b a with
  | false => rfl
  | true =>
    have := bytesLess_trans a b a h hb
    rw [bytesLess_irrefl] at this
    exact absurd this (by decide)

theorem bytesLess_ne (a b : Bytes) (h : bytesLess a b = true) : a ≠ b := by
  intro e
  rw [e, bytesLess_irrefl] at h
  exact absurd h (by decide)

theorem itob_length (v : Uint64) : (itob v).length = 8 := rfl

theorem bytesLess_cons (a b : Byte) (as bs : Bytes) :
    bytesLess (a :: as) (b :: bs) =
      if a.val < b.val then true else if b.val < a.val then false else bytesLess as bs := rfl

theorem byteOf_val (n : Nat) : (byteOf n).val = n % 256 := rfl


theorem foldl_be (bs : Bytes) (acc : Nat) :
    bs.foldl (fun acc x => acc * 256 + x.val) acc = acc * 256 ^ bs.length + beVal bs := by
  induction bs generalizing acc with
  | nil => simp [beVal]
  | cons x xs ih =>
    simp only [List.foldl_cons, beVal, List.length_cons]
    rw [ih, ih (0 * 256 + x.val)]
    ring

theorem beVal_cons (x : Byte) (xs : Bytes) : beVal (x :: xs) = x.val * 256 ^ xs.length + beVal xs := by
  simp only [beVal, List.foldl_cons]
  rw [foldl_be]
  simp [beVal]

theorem beVal_lt (bs : Bytes) : beVal bs < 256 ^ bs.length := by
  induction bs with
  | nil => simp [beVal]
  | cons x xs ih =>
    rw [beVal_cons, List.length_cons, pow_succ]
    have hx := x.isLt
    nlinarith

theorem bytesLess_iff_beVal : ∀ (as bs : Bytes), as.length = bs.length →
    (bytesLess as bs = true ↔ beVal as < beVal bs)
  | [], [], _ => by simp [bytesLess, beVal]
  | [], _ :: _, h => by simp at h
  | _ :: _, [], h => by simp at h
  | x :: xs, y :: ys, h => by
    have hl : xs.length = ys.length := by simpa using h
    have ih := bytesLess_iff_beVal xs ys hl
    have hx := beVal_lt xs
    have hy := beVal_lt ys
    rw [bytesLess_cons, beVal_cons, beVal_cons, hl]
    rw [hl] at hx
    generalize 256 ^ ys.length = m at hx hy
    by_cases h1 : x.val < y.val
    · simp only [h1, if_true, true_iff]
      nlinarith
    · by_cases h2 : y.val < x.val
      · simp only [h1, h2, if_true, if_false, false_iff]
        simp only [Bool.false_eq_true, false_iff, not_lt]
        nlinarith
      · have e : x.val = y.val := by omega
        rw [e, if_neg (lt_irrefl _), if_neg (lt_irrefl _), ih]
        exact (Nat.add_lt_add_iff_left).symm

theorem beVal_itob (v : Uint64) : beVal (itob v) = v.val := by
  have hv := v.isLt
  simp only [beVal, itob, List.foldl, byteOf_val]
  omega

theorem itob_lt_iff (v w : Uint64) : bytesLess (itob v) (itob w) = true ↔ v.val < w.val := by
  rw [bytesLess_iff_beVal (itob v) (itob w) rfl, beVal_itob, beVal_itob]

theorem btoi_itob (v : Uint64) : btoi (itob v) = some v := by
  have hv := v.isLt
  simp only [btoi, itob, List.length_cons, List.length_nil, List.take, List.foldl, byteOf_val]
  norm_num
  apply Fin.ext
  simp only [uint64Of]
  omega

theorem itob_injective (v w : Uint64) (h : itob v = itob w) : v = w := by
  have := btoi_itob v
  rw [h, btoi_itob] at this
  exact (Option.some.inj this).symm

/-! ## Sorted association lists -/

section kv
variable {α : Type}

theorem kvGet_kvPut_same (k : Bytes) (v : α) (l : List (Bytes × α)) :
    kvGet k (kvPut k v l) = some v := by
  induction l with
  | nil => simp [kvPut, kvGet]
  | cons e rest ih =>
    obtain ⟨k', v'⟩ := e
    simp only [kvPut]
    split_ifs with h1 h2
    · simp [kvGet]
    · simp [kvGet]
    · simp [kvGet, h1, ih]

theorem kvGet_kvPut_ne (k k' : Bytes) (v : α) (l : List (Bytes × α)) (h : k' ≠ k) :
    kvGet k' (kvPut k v l) = kvGet k' l := by
  induction l with
  | nil => simp [kvPut, kvGet, Ne.symm h]
  | cons e rest ih =>
    obtain ⟨k₁, v₁⟩ := e
    simp only [kvPut]
    split_ifs with h1 h2
    · subst h1
      simp [kvGet, Ne.symm h]
    · simp [kvGet, Ne.symm h]
    · simp [kvGet, ih]

theorem mem_of_kvGet (k : Bytes) (v : α) (l : List (Bytes × α)) (h : kvGet k l = some v) :
    (k, v) ∈ l := by
  induction l with
  | nil => simp [kvGet] at h
  | cons e rest ih =>
    obtain ⟨k₁, v₁⟩ := e
    simp only [kvGet] at h
    split_ifs at h with h1
    · subst h1
      simp only [Option.some.injEq] at h
      subst h
      exact List.mem_cons_self _ _
    · exact List.mem_cons_of_mem _ (ih h)

theorem kvGet_of_mem (k : Bytes) (v : α) (l : List (Bytes × α)) (hs : KeysSorted l)
    (h : (k, v) ∈ l) : kvGet k l = some v := by
  induction l with
  | nil => simp at h
  | cons e rest ih =>
    obtain ⟨k₁, v₁⟩ := e
    rw [KeysSorted, List.pairwise_cons] at hs
    simp only [kvGet]
    rcases List.mem_cons.mp h with h | h
    · simp only [Prod.mk.injEq] at h
      simp [h.1, h.2]
    · have hlt := hs.1 _ h
      have hne : k₁ ≠ k := bytesLess_ne _ _ hlt
      simp only [hne, if_false]
      exact ih hs.2 h

theorem kvGet_none_iff (k : Bytes) (l : List (Bytes × α)) :
    kvGet k l = none ↔ ∀ e ∈ l, e.1 ≠ k := by
  induction l with
  | nil => simp [kvGet]
  | cons e rest ih =>
    obtain ⟨k₁, v₁⟩ := e
    simp only [kvGet, List.mem_cons, forall_eq_or_imp]
    split_ifs with h1
    · simp [h1]
    · simp [h1, ih]

theorem mem_kvPut (k : Bytes) (v : α) (l : List (Bytes × α)) (e : Bytes × α)
    (h : e ∈ kvPut k v l) : e = (k, v) ∨ e ∈ l := by
  induction l with
  | nil =>
    simp only [kvPut, List.mem_singleton] at h
    exact Or.inl h
  | cons e₁ rest ih =>
    obtain ⟨k₁, v₁⟩ := e₁
    simp only [kvPut] at h
    split_ifs at h with h1 h2
    · rcases List.mem_cons.mp h with h | h
      · exact Or.inl h
      · exact Or.inr (List.mem_cons_of_mem _ h)
    · rcases List.mem_cons.mp h with h | h
      · exact Or.inl h
      · exact Or.inr h
    · rcases List.mem_cons.mp h with h | h
      · exact Or.inr (h ▸ List.mem_cons_self _ _)
      · rcases ih h with h | h
        · exact Or.inl h
        · exact Or.inr (List.mem_cons_of_mem _ h)

theorem keysSorted_kvPut (k : Bytes) (v : α) (l : List (Bytes × α)) (hs : KeysSorted l) :
    KeysSorted (kvPut k v l) := by
  induction l with
  | nil => simp [kvPut, KeysSorted]
  | cons e₁ rest ih =>
    obtain ⟨k₁, v₁⟩ := e₁
    have hs' := hs
    rw [KeysSorted, List.pairwise_cons] at hs
    simp only [kvPut]
    split_ifs with h1 h2
    · subst h1
      rw [KeysSorted, List.pairwise_cons]
      exact hs
    · rw [KeysSorted, List.pairwise_cons]
      refine ⟨?_, hs'⟩
      intro e he
      rcases List.mem_cons.mp he with he | he
      · rw [he]; exact h2
      · exact bytesLess_trans _ _ _ h2 (hs.1 e he)
    · rw [KeysSorted, List.pairwise_cons]
      refine ⟨?_, ih hs.2⟩
      intro e he
      rcases mem_kvPut k v rest e he with he | he
      · rw [he]
        exact bytesLess_total k k₁ (Ne.symm h1) (by simpa using h2)
      · exact hs.1 e he

theorem kvGet_kvDel_same (k : Bytes) (l : List (Bytes × α)) (hs : KeysSorted l) :
    kvGet k (kvDel k l) = none := by
  induction l with
  | nil => simp [kvDel, kvGet]
  | cons e₁ rest ih =>
    obtain ⟨k₁, v₁⟩ := e₁
    rw [KeysSorted, List.pairwise_cons] at hs
    simp only [kvDel]
    split_ifs with h1
    · subst h1
      rw [kvGet_none_iff]
      intro e he
      exact (bytesLess_ne _ _ (hs.1 e he)).symm
    · simp [kvGet, h1, ih hs.2]

theorem kvGet_kvDel_ne (k k' : Bytes) (l : List (Bytes × α)) (h : k' ≠ k) :
    kvGet k' (kvDel k l) = kvGet k' l := by
  induction l with
  | nil => simp [kvDel, kvGet]
  | cons e₁ rest ih =>
    obtain ⟨k₁, v₁⟩ := e₁
    simp only [kvDel]
    split_ifs with h1
    · subst h1
      simp [kvGet, Ne.symm h]
    · simp [kvGet, ih]

theorem mem_kvDel (k : Bytes) (l : List (Bytes × α)) (e : Bytes × α) (h : e ∈ kvDel k l) :
    e ∈ l := by
  induction l with
  | nil => simp [kvDel] at h
  | cons e₁ rest ih =>
    obtain ⟨k₁, v₁⟩ := e₁
    simp only [kvDel] at h
    split_ifs at h with h1
    · exact List.mem_cons_of_mem _ h
    · rcases List.mem_cons.mp h with h | h
      · exact h ▸ List.mem_cons_self _ _
      · exact List.mem_cons_of_mem _ (ih h)

theorem keysSorted_kvDel (k : Bytes) (l : List (Bytes × α)) (hs : KeysSorted l) :
    KeysSorted (kvDel k l) := by
  induction l with
  | nil => simp [kvDel, KeysSorted]
  | cons e₁ rest ih =>
    obtain ⟨k₁, v₁⟩ := e₁
    rw [KeysSorted, List.pairwise_cons] at hs
    simp only [kvDel]
    split_ifs with h1
    · exact hs.2
    · rw [KeysSorted, List.pairwise_cons]
      exact ⟨fun e he => hs.1 e (mem_kvDel k rest e he), ih hs.2⟩

end kv

/-! ## Buckets and the payment transaction -/

theorem addAccountPaymentTx_eq (p : Bytes) (idx t : Uint64) (tx : DB) :
    addAccountPaymentTx p idx t tx = (do
      let b ← deref (tx.Bucket paymentsBucket)
      let b ← (b.NextSequence).2.Put (itob (b.NextSequence).1) p
      let sb ← deref (b.Bucket paymentsSyncInfoBucket)
      let sb ← bumpWatermark sb lastSentPaymentTimeKey t
      let sb ← bumpWatermark sb lastSettledIndexKey idx
      pure (tx.setBucket paymentsBucket (b.setBucket paymentsSyncInfoBucket sb))) := by
  simp only [addAccountPaymentTx, bumpWatermark, bind_assoc]
  refine bind_congr fun b => bind_congr fun b1 => bind_congr fun sb => bind_congr fun w => ?_
  split_ifs
  · simp only [pure_bind]
    refine bind_congr fun y => bind_congr fun w2 => ?_
    split_ifs <;> simp
  · simp only [pure_bind]
    refine bind_congr fun w2 => ?_
    split_ifs <;> simp

theorem ok_bind {ε α γ : Type} (a : α) (f : α → Except ε γ) : (Except.ok a >>= f) = f a := rfl

theorem error_bind {ε α γ : Type} (e : ε) (f : α → Except ε γ) :
    ((Except.error e : Except ε α) >>= f) = Except.error e := rfl

section bucket
variable {β : Type}

theorem Bucket_setBucket_same (b : BucketOf β) (name : Bytes) (nb : β) :
    (b.setBucket name nb).Bucket name = some nb := by
  simp [BucketOf.setBucket, BucketOf.Bucket, kvGet_kvPut_same]

theorem Bucket_setBucket_ne (b : BucketOf β) (name name' : Bytes) (nb : β) (h : name' ≠ name) :
    (b.setBucket name nb).Bucket name' = b.Bucket name' := by
  simp [BucketOf.setBucket, BucketOf.Bucket, kvGet_kvPut_ne _ _ _ _ h]

theorem Get_setBucket_ne (b : BucketOf β) (name key : Bytes) (nb : β) (h : key ≠ name) :
    (b.setBucket name nb).Get key = b.Get key := by
  simp [BucketOf.setBucket, BucketOf.Get, kvGet_kvPut_ne _ _ _ _ h]

theorem Put_eq_ok (b : BucketOf β) (key value : Bytes) (h1 : key ≠ []) (h2 : key.length ≤ MaxKeySize)
    (h3 : value.length ≤ MaxValueSize) (h4 : b.Bucket key = none) :
    b.Put key value = Except.ok ⟨kvPut key (Entry.value value) b.entries, b.sequence⟩ := by
  have h1' : key.length ≠ 0 := by simpa using h1
  simp only [BucketOf.Put, h1', if_false, not_lt.mpr h2, gt_iff_lt, not_lt.mpr h3]
  simp only [BucketOf.Bucket] at h4
  split <;> simp_all

theorem Bucket_none_sub (sb : SubBucket) (key : Bytes) : sb.Bucket key = none := by
  simp only [BucketOf.Bucket]
  split
  · rename_i nb _
    exact nomatch nb
  · rfl


theorem Put_eq_putValue (b : BucketOf β) (key value : Bytes) (h1 : key ≠ [])
    (h2 : key.length ≤ MaxKeySize) (h3 : value.length ≤ MaxValueSize) (h4 : b.Bucket key = none) :
    b.Put key value = Except.ok (putValue b key value) := Put_eq_ok b key value h1 h2 h3 h4

theorem Get_putValue_same (b : BucketOf β) (key value : Bytes) :
    (putValue b key value).Get key = some value := by
  simp [putValue, BucketOf.Get, kvGet_kvPut_same]

theorem Get_putValue_ne (b : BucketOf β) (key key' value : Bytes) (h : key' ≠ key) :
    (putValue b key value).Get key' = b.Get key' := by
  simp [putValue, BucketOf.Get, kvGet_kvPut_ne _ _ _ _ h]

theorem Bucket_putValue_ne (b : BucketOf β) (key key' value : Bytes) (h : key' ≠ key) :
    (putValue b key value).Bucket key' = b.Bucket key' := by
  simp [putValue, BucketOf.Bucket, kvGet_kvPut_ne _ _ _ _ h]

end bucket

theorem readWatermark_putValue_same (sb : SubBucket) (key : Bytes) (v : Uint64) :
    readWatermark (putValue sb key (itob v)) key = Except.ok v := by
  simp [readWatermark, Get_putValue_same, btoi_itob]

theorem readWatermark_putValue_ne (sb : SubBucket) (key key' value : Bytes) (h : key' ≠ key) :
    readWatermark (putValue sb key value) key' = readWatermark sb key' := by
  simp [readWatermark, Get_putValue_ne _ _ _ _ h]

theorem bumpWatermark_eq (sb : SubBucket) (key : Bytes) (w cand : Uint64)
    (hk1 : key ≠ []) (hk2 : key.length ≤ MaxKeySize) (hw : readWatermark sb key = Except.ok w) :
    bumpWatermark sb key cand =
      Except.ok (if w < cand then putValue sb key (itob cand) else sb) := by
  simp only [bumpWatermark, hw]
  show (if w < cand then sb.Put key (itob cand) else pure sb) = _
  split_ifs
  · exact Put_eq_putValue sb key _ hk1 hk2 (by simp [itob_length, MaxValueSize]) (Bucket_none_sub sb key)
  · rfl

theorem addAccountPaymentTx_ok (tx : DB) (b : Bucket) (sb : SubBucket) (wt wi : Uint64)
    (p : Bytes) (idx t : Uint64)
    (hb : tx.Bucket paymentsBucket = some b)
    (hsb : b.Bucket paymentsSyncInfoBucket = some sb)
    (hk : ∀ k : Bytes, k.length = 8 → b.Bucket k = none)
    (hwt : readWatermark sb lastSentPaymentTimeKey = Except.ok wt)
    (hwi : readWatermark sb lastSettledIndexKey = Except.ok wi)
    (hp : p.length ≤ MaxValueSize) :
    addAccountPaymentTx p idx t tx = Except.ok
      (tx.setBucket paymentsBucket
        ((putValue (b.NextSequence).2 (itob (b.sequence + 1)) p).setBucket paymentsSyncInfoBucket
          (syncAfter sb wt wi idx t))) := by
  rw [addAccountPaymentTx_eq, hb]
  have hput : (b.NextSequence).2.Put (itob (b.NextSequence).1) p =
      Except.ok (putValue (b.NextSequence).2 (itob (b.sequence + 1)) p) :=
    Put_eq_putValue _ _ _ (by simp [itob]) (by simp [itob_length, MaxKeySize]) hp
      (hk _ (itob_length _))
  have hsb' : (putValue (b.NextSequence).2 (itob (b.sequence + 1)) p).Bucket
      paymentsSyncInfoBucket = some sb := by
    rw [Bucket_putValue_ne]
    · exact hsb
    · intro e
      have := congrArg List.length e
      simp [itob_length, paymentsSyncInfoBucket] at this
  have h1 := bumpWatermark_eq sb lastSentPaymentTimeKey wt t (by decide) (by decide) hwt
  have hwi' : readWatermark (if wt < t then putValue sb lastSentPaymentTimeKey (itob t) else sb)
      lastSettledIndexKey = Except.ok wi := by
    split_ifs
    · rw [readWatermark_putValue_ne _ _ _ _ (by decide)]
      exact hwi
    · exact hwi
  have h2 := bumpWatermark_eq _ lastSettledIndexKey wi idx (by decide) (by decide) hwi'
  simp only [deref, ok_bind, hput, hsb', h1, h2]
  rfl

/-! ## The payment ledger -/

section
variable {β : Type}

theorem collectPayments_cursor (b : BucketOf β) : collectPayments b.cursor = recordsOf b.entries := by
  obtain ⟨l, s⟩ := b
  simp only [BucketOf.cursor, recordsOf]
  induction l with
  | nil => rfl
  | cons e rest ih =>
    obtain ⟨k, e⟩ := e
    cases e with
    | value v => simp [collectPayments, ih]
    | bucket nb => simp [collectPayments, ih]

theorem recordsOf_cons_value (k v : Bytes) (l : List (Bytes × Entry β)) :
    recordsOf ((k, Entry.value v) :: l) = v :: recordsOf l := by
  simp [recordsOf]

theorem recordsOf_cons_bucket (k : Bytes) (nb : β) (l : List (Bytes × Entry β)) :
    recordsOf ((k, Entry.bucket nb) :: l) = recordsOf l := by
  simp [recordsOf]

theorem recordsOf_eq_nil (l : List (Bytes × Entry β))
    (h : ∀ k v, (k, Entry.value v) ∉ l) : recordsOf l = [] := by
  induction l with
  | nil => rfl
  | cons e rest ih =>
    obtain ⟨k, e⟩ := e
    cases e with
    | value v => exact absurd (List.mem_cons_self _ _) (h k v)
    | bucket nb =>
      rw [recordsOf_cons_bucket]
      exact ih fun k v hm => h k v (List.mem_cons_of_mem _ hm)

theorem recordsOf_kvPut_bucket (name : Bytes) (nb : β) (l : List (Bytes × Entry β))
    (h : ∀ v, (name, Entry.value v) ∉ l) :
    recordsOf (kvPut name (Entry.bucket nb) l) = recordsOf l := by
  induction l with
  | nil => rfl
  | cons e rest ih =>
    obtain ⟨k, e⟩ := e
    simp only [kvPut]
    split_ifs with h1 h2
    · subst h1
      cases e with
      | value v => exact absurd (List.mem_cons_self _ _) (h v)
      | bucket nb' => simp [recordsOf_cons_bucket]
    · rw [recordsOf_cons_bucket]
    · have := ih fun v hm => h v (List.mem_cons_of_mem _ hm)
      cases e with
      | value v => simp [recordsOf_cons_value, this]
      | bucket nb' => simp [recordsOf_cons_bucket, this]

theorem recordsOf_kvPut_last (key p : Bytes) (l : List (Bytes × Entry β)) (hs : KeysSorted l)
    (hlt : ∀ k v, (k, Entry.value v) ∈ l → bytesLess k key = true)
    (hne : ∀ e ∈ l, e.1 ≠ key) :
    recordsOf (kvPut key (Entry.value p) l) = recordsOf l ++ [p] := by
  induction l with
  | nil => rfl
  | cons e rest ih =>
    obtain ⟨k, e⟩ := e
    have hs' := hs
    rw [KeysSorted, List.pairwise_cons] at hs
    simp only [kvPut]
    split_ifs with h1 h2
    · exact absurd h1 (hne _ (List.mem_cons_self _ _))
    · have hnil : recordsOf ((k, e) :: rest) = [] := by
        apply recordsOf_eq_nil
        intro k' v' hm
        have h3 := hlt k' v' hm
        have h4 : bytesLess key k' = true := by
          rcases List.mem_cons.mp hm with hm | hm
          · simp only [Prod.mk.injEq] at hm
            rw [hm.1]; exact h2
          · exact bytesLess_trans _ _ _ h2 (hs.1 _ hm)
        rw [bytesLess_asymm _ _ h4] at h3
        exact absurd h3 (by decide)
      rw [recordsOf_cons_value, hnil]
      rfl
    · have := ih hs.2 (fun k' v' hm => hlt k' v' (List.mem_cons_of_mem _ hm))
        (fun e he => hne e (List.mem_cons_of_mem _ he))
      cases e with
      | value v => simp [recordsOf_cons_value, this]
      | bucket nb' => simp [recordsOf_cons_bucket, this]

end

theorem Bucket_eq_none_of (b : Bucket) (k : Bytes)
    (h : ∀ k nb, (k, Entry.bucket nb) ∈ b.entries → k.length ≠ 8) (hk : k.length = 8) :
    b.Bucket k = none := by
  simp only [BucketOf.Bucket]
  split
  · rename_i nb hg
    exact absurd hk (h k nb (mem_of_kvGet _ _ _ hg))
  · rfl

theorem readWatermark_syncAfter_time (sb : SubBucket) (wt wi idx t : Uint64)
    (hwt : readWatermark sb lastSentPaymentTimeKey = Except.ok wt) :
    readWatermark (syncAfter sb wt wi idx t) lastSentPaymentTimeKey =
      Except.ok (if wt < t then t else wt) := by
  have hne : lastSentPaymentTimeKey ≠ lastSettledIndexKey := by decide
  simp only [syncAfter]
  split_ifs <;>
    simp only [readWatermark_putValue_ne _ _ _ _ hne, readWatermark_putValue_same, hwt]

theorem readWatermark_syncAfter_index (sb : SubBucket) (wt wi idx t : Uint64)
    (hwi : readWatermark sb lastSettledIndexKey = Except.ok wi) :
    readWatermark (syncAfter sb wt wi idx t) lastSettledIndexKey =
      Except.ok (if wi < idx then idx else wi) := by
  have hne : lastSettledIndexKey ≠ lastSentPaymentTimeKey := by decide
  simp only [syncAfter]
  split_ifs <;>
    simp only [readWatermark_putValue_ne _ _ _ _ hne, readWatermark_putValue_same, hwi]

theorem addAccountPayment_of_tx_ok (db tx : DB) (p : Bytes) (idx t : Uint64)
    (h : addAccountPaymentTx p idx t db = Except.ok tx) :
    addAccountPayment db p idx t = (none, tx) := by
  simp [addAccountPayment, dbUpdate, h]

theorem addAccountPayment_of_tx_error (db : DB) (e : DbError) (p : Bytes) (idx t : Uint64)
    (h : addAccountPaymentTx p idx t db = Except.error e) :
    addAccountPayment db p idx t = (some e, db) := by
  simp [addAccountPayment, dbUpdate, h]

theorem addAccountPaymentTx_too_large (tx : DB) (b : Bucket) (p : Bytes) (idx t : Uint64)
    (hb : tx.Bucket paymentsBucket = some b) (hp : MaxValueSize < p.length) :
    addAccountPaymentTx p idx t tx = Except.error DbError.ErrValueTooLarge := by
  rw [addAccountPaymentTx_eq, hb]
  simp only [deref, ok_bind]
  have : (b.NextSequence).2.Put (itob (b.NextSequence).1) p =
      Except.error DbError.ErrValueTooLarge := by
    simp [BucketOf.Put, itob_length, MaxKeySize, hp]
  rw [this]
  rfl

theorem ledgerInv_step (db : DB) (n : Nat) (ps : List Bytes) (p : Bytes) (idx t : Uint64)
    (h : LedgerInv db n ps) (hn : n + 1 < 18446744073709551616) (hp : p.length ≤ MaxValueSize) :
    (addAccountPayment db p idx t).1 = none ∧
      LedgerInv (addAccountPayment db p idx t).2 (n + 1) (ps ++ [p]) := by
  obtain ⟨b, sb, wt, wi, hb, hsb, hwt, hwi, hseq, hsort, hval, hbk, hrec⟩ := h
  have hk : ∀ k : Bytes, k.length = 8 → b.Bucket k = none :=
    fun k hk => Bucket_eq_none_of b k hbk hk
  have htx := addAccountPaymentTx_ok db b sb wt wi p idx t hb hsb hk hwt hwi hp
  rw [addAccountPayment_of_tx_ok _ _ _ _ _ htx]
  refine ⟨rfl, ?_⟩
  have hseq1 : (b.sequence + 1).val = n + 1 := by
    rw [Fin.val_add, hseq]
    exact Nat.mod_eq_of_lt hn
  have hkeyne : paymentsSyncInfoBucket ≠ itob (b.sequence + 1) := by
    intro e
    have := congrArg List.length e
    simp [itob_length, paymentsSyncInfoBucket] at this
  refine ⟨_, syncAfter sb wt wi idx t, _, _, Bucket_setBucket_same _ _ _,
    Bucket_setBucket_same _ _ _, readWatermark_syncAfter_time sb wt wi idx t hwt,
    readWatermark_syncAfter_index sb wt wi idx t hwi, hseq1, ?_, ?_, ?_, ?_⟩
  · exact keysSorted_kvPut _ _ _ (keysSorted_kvPut _ _ _ hsort)
  · intro k v hm
    rcases mem_kvPut _ _ _ _ hm with hm | hm
    · simp at hm
    · rcases mem_kvPut _ _ _ _ hm with hm | hm
      · simp only [Prod.mk.injEq] at hm
        exact ⟨b.sequence + 1, by omega, hm.1⟩
      · obtain ⟨i, hi, hki⟩ := hval k v hm
        exact ⟨i, by omega, hki⟩
  · intro k nb hm
    rcases mem_kvPut _ _ _ _ hm with hm | hm
    · simp only [Prod.mk.injEq] at hm
      rw [hm.1]
      decide
    · rcases mem_kvPut _ _ _ _ hm with hm | hm
      · simp at hm
      · exact hbk k nb hm
  · show recordsOf (kvPut paymentsSyncInfoBucket _ (kvPut (itob (b.sequence + 1)) _ b.entries)) = _
    rw [recordsOf_kvPut_bucket, recordsOf_kvPut_last _ _ _ hsort, hrec]
    · intro k v hm
      obtain ⟨i, hi, hki⟩ := hval k v hm
      rw [hki, itob_lt_iff]
      omega
    · intro e he heq
      obtain ⟨k, e⟩ := e
      simp only at heq
      subst heq
      cases e with
      | value v =>
        obtain ⟨i, hi, hki⟩ := hval _ v he
        have := itob_injective _ _ hki
        rw [← this] at hi
        omega
      | bucket nb => exact hbk _ nb he (itob_length _)
    · intro v hm
      rcases mem_kvPut _ _ _ _ hm with hm | hm
      · simp only [Prod.mk.injEq] at hm
        exact hkeyne hm.1
      · obtain ⟨i, hi, hki⟩ := hval _ v hm
        have := congrArg List.length hki
        simp [itob_length, paymentsSyncInfoBucket] at this

theorem ledgerInv_fail (db : DB) (n : Nat) (ps : List Bytes) (p : Bytes) (idx t : Uint64)
    (h : LedgerInv db n ps) (hp : MaxValueSize < p.length) :
    addAccountPayment db p idx t = (some DbError.ErrValueTooLarge, db) := by
  obtain ⟨b, sb, wt, wi, hb, _⟩ := h
  exact addAccountPayment_of_tx_error _ _ _ _ _ (addAccountPaymentTx_too_large db b p idx t hb hp)

theorem ledgerInv_fresh : LedgerInv freshDB 0 [] :=
  ⟨⟨[(paymentsSyncInfoBucket, Entry.bucket emptyBucket)], 0⟩, emptyBucket, 0, 0,
    by decide, by decide, by decide, by decide, rfl, by simp [KeysSorted],
    by simp, by simp [paymentsSyncInfoBucket], by simp [recordsOf]⟩

theorem fetchAllAccountPayments_of_ledgerInv (db : DB) (n : Nat) (ps : List Bytes)
    (h : LedgerInv db n ps) : fetchAllAccountPayments db = (ps, none) := by
  obtain ⟨b, sb, wt, wi, hb, hsb, hwt, hwi, hseq, hsort, hval, hbk, hrec⟩ := h
  simp [fetchAllAccountPayments, dbView, hb, deref, collectPayments_cursor, hrec]

theorem addAccountPayments_length (calls : List PaymentCall) :
    ∀ db : DB, (addAccountPayments db calls).2.length = calls.length := by
  induction calls with
  | nil => exact fun _ => rfl
  | cons c rest ih =>
    intro db
    simp only [addAccountPayments, List.length_cons, ih]

theorem ledgerInv_run (calls : List PaymentCall) :
    ∀ (db : DB) (n : Nat) (ps : List Bytes), LedgerInv db n ps →
      n + calls.length < 18446744073709551616 →
      ∃ m, LedgerInv (addAccountPayments db calls).1 m
        (ps ++ successfulPayments calls (addAccountPayments db calls).2) := by
  induction calls with
  | nil =>
    intro db n ps h _
    exact ⟨n, by simpa [addAccountPayments, successfulPayments] using h⟩
  | cons c rest ih =>
    intro db n ps h hn
    simp only [List.length_cons] at hn
    by_cases hp : c.accPayment.length ≤ MaxValueSize
    · obtain ⟨he, hinv⟩ := ledgerInv_step db n ps c.accPayment c.receivedIndex c.sentTime h
        (by omega) hp
      obtain ⟨m, h2⟩ := ih _ (n + 1) _ hinv (by omega)
      refine ⟨m, ?_⟩
      simp only [addAccountPayments, he, successfulPayments]
      simpa using h2
    · have hf := ledgerInv_fail db n ps c.accPayment c.receivedIndex c.sentTime h (by omega)
      have hinv : LedgerInv (addAccountPayment db c.accPayment c.receivedIndex c.sentTime).2
          n ps := by rw [hf]; exact h
      obtain ⟨m, h2⟩ := ih _ n _ hinv (by omega)
      simp only [hf] at h2
      refine ⟨m, ?_⟩
      simp only [addAccountPayments, hf, successfulPayments]
      exact h2

theorem successfulPayments_length (calls : List PaymentCall) :
    ∀ errs : List (Option DbError), errs.length = calls.length →
      (successfulPayments calls errs).length = errs.count none := by
  induction calls with
  | nil =>
    intro errs h
    cases errs with
    | nil => rfl
    | cons e es => simp at h
  | cons c rest ih =>
    intro errs h
    cases errs with
    | nil => simp at h
    | cons e es =>
      have := ih es (by simpa using h)
      cases e with
      | none => simp [successfulPayments, this]
      | some e => simp [successfulPayments, this]

/-- C1. After any sequence of `addAccountPayment` calls on a freshly opened
empty store (fewer than 2^64 of them: bolt numbers the records with a `uint64`
counter), `fetchAllAccountPayments` returns, with no error, exactly the
payments of the calls that returned no error, in call order, and its length is
the number of those calls. Empty payments are returned like any other, and
the nested `paymentsSyncInfo` bucket contributes nothing. -/
theorem fetchAllAccountPayments_addAccountPayments (calls : List PaymentCall)
    (h : calls.length < 18446744073709551616) :
    fetchAllAccountPayments (addAccountPayments freshDB calls).1 =
        (successfulPayments calls (addAccountPayments freshDB calls).2, none) ∧
      (fetchAllAccountPayments (addAccountPayments freshDB calls).1).1.length =
        (addAccountPayments freshDB calls).2.count none := by
  obtain ⟨m, h2⟩ := ledgerInv_run calls freshDB 0 [] ledgerInv_fresh (by omega)
  have h3 := fetchAllAccountPayments_of_ledgerInv _ _ _ h2
  simp only [List.nil_append] at h3
  refine ⟨h3, ?_⟩
  rw [h3]
  exact successfulPayments_length calls _ (addAccountPayments_length calls freshDB)

/-- C1 at two calls, the second with an empty payment: the result is
`[[1, 2], []]`. -/
theorem fetchAllAccountPayments_addAccountPayments_witness :
    ([⟨[1, 2], 5, 100⟩, ⟨[], 3, 50⟩] : List PaymentCall).length < 18446744073709551616 ∧
    (fetchAllAccountPayments
        (addAccountPayments freshDB [⟨[1, 2], 5, 100⟩, ⟨[], 3, 50⟩]).1 =
        (successfulPayments [⟨[1, 2], 5, 100⟩, ⟨[], 3, 50⟩]
          (addAccountPayments freshDB [⟨[1, 2], 5, 100⟩, ⟨[], 3, 50⟩]).2, none) ∧
      (fetchAllAccountPayments
        (addAccountPayments freshDB [⟨[1, 2], 5, 100⟩, ⟨[], 3, 50⟩]).1).1.length =
        (addAccountPayments freshDB [⟨[1, 2], 5, 100⟩, ⟨[], 3, 50⟩]).2.count none) ∧
    fetchAllAccountPayments (addAccountPayments freshDB [⟨[1, 2], 5, 100⟩, ⟨[], 3, 50⟩]).1 =
      ([[1, 2], []], none) :=
  ⟨by decide, fetchAllAccountPayments_addAccountPayments _ (by decide), by decide⟩

/-! ## Sync watermarks -/

theorem syncInv_fresh : SyncInv freshDB 0 0 :=
  ⟨⟨[(paymentsSyncInfoBucket, Entry.bucket emptyBucket)], 0⟩, emptyBucket,
    by decide, by decide, by simp [paymentsSyncInfoBucket], by decide, by decide⟩

theorem syncInv_step (db : DB) (wt wi : Uint64) (p : Bytes) (idx t : Uint64)
    (h : SyncInv db wt wi) (hp : p.length ≤ MaxValueSize) :
    (addAccountPayment db p idx t).1 = none ∧
      SyncInv (addAccountPayment db p idx t).2 (if wt < t then t else wt)
        (if wi < idx then idx else wi) := by
  obtain ⟨b, sb, hb, hsb, hbk, hwt, hwi⟩ := h
  have hk : ∀ k : Bytes, k.length = 8 → b.Bucket k = none :=
    fun k hk => Bucket_eq_none_of b k hbk hk
  have htx := addAccountPaymentTx_ok db b sb wt wi p idx t hb hsb hk hwt hwi hp
  rw [addAccountPayment_of_tx_ok _ _ _ _ _ htx]
  refine ⟨rfl, _, syncAfter sb wt wi idx t, Bucket_setBucket_same _ _ _,
    Bucket_setBucket_same _ _ _, ?_, readWatermark_syncAfter_time sb wt wi idx t hwt,
    readWatermark_syncAfter_index sb wt wi idx t hwi⟩
  intro k nb hm
  rcases mem_kvPut _ _ _ _ hm with hm | hm
  · simp only [Prod.mk.injEq] at hm
    rw [hm.1]
    decide
  · rcases mem_kvPut _ _ _ _ hm with hm | hm
    · simp at hm
    · exact hbk k nb hm

theorem syncInv_fail (db : DB) (wt wi : Uint64) (p : Bytes) (idx t : Uint64)
    (h : SyncInv db wt wi) (hp : MaxValueSize < p.length) :
    addAccountPayment db p idx t = (some DbError.ErrValueTooLarge, db) := by
  obtain ⟨b, sb, hb, _⟩ := h
  exact addAccountPayment_of_tx_error _ _ _ _ _ (addAccountPaymentTx_too_large db b p idx t hb hp)

theorem fetchPaymentsSyncInfo_of_syncInv (db : DB) (wt wi : Uint64) (h : SyncInv db wt wi) :
    fetchPaymentsSyncInfo db = Except.ok (int64OfUint64 wt, wi) := by
  obtain ⟨b, sb, hb, hsb, hbk, hwt, hwi⟩ := h
  simp only [fetchPaymentsSyncInfo, hb, hsb, deref, ok_bind, hwi]
  simp only [readWatermark] at hwt
  cases hg : sb.Get lastSentPaymentTimeKey with
  | none =>
    rw [hg] at hwt
    simp only [Except.ok.injEq] at hwt
    subst hwt
    rfl
  | some buf =>
    rw [hg] at hwt
    simp only at hwt ⊢
    cases hbt : btoi buf with
    | none => rw [hbt] at hwt; simp at hwt
    | some v =>
      rw [hbt] at hwt
      simp only [Except.ok.injEq] at hwt
      subst hwt
      rfl

theorem max_merge (w a r : Uint64) :
    (if (if w < a then a else w) < r then r else (if w < a then a else w)) =
      (if w < (if r < a then a else r) then (if r < a then a else r) else w) := by
  simp only [Fin.lt_def]
  split_ifs <;> first | rfl | (apply Fin.ext; omega)

theorem syncInv_run (calls : List PaymentCall) :
    ∀ (db : DB) (wt wi : Uint64), SyncInv db wt wi →
      SyncInv (addAccountPayments db calls).1
        (if wt < maxSentTime (successfulCalls calls (addAccountPayments db calls).2)
          then maxSentTime (successfulCalls calls (addAccountPayments db calls).2) else wt)
        (if wi < maxReceivedIndex (successfulCalls calls (addAccountPayments db calls).2)
          then maxReceivedIndex (successfulCalls calls (addAccountPayments db calls).2)
          else wi) := by
  induction calls with
  | nil =>
    intro db wt wi h
    have h0 : ∀ w : Uint64, ¬ w < 0 := fun w => by simp [Fin.lt_def]
    simpa [addAccountPayments, successfulCalls, maxSentTime, maxReceivedIndex, h0] using h
  | cons c rest ih =>
    intro db wt wi h
    by_cases hp : c.accPayment.length ≤ MaxValueSize
    · obtain ⟨he, hinv⟩ := syncInv_step db wt wi c.accPayment c.receivedIndex c.sentTime h hp
      have h2 := ih _ _ _ hinv
      simp only [addAccountPayments, he, successfulCalls, maxSentTime, maxReceivedIndex]
      rw [← max_merge, ← max_merge]
      exact h2
    · have hf := syncInv_fail db wt wi c.accPayment c.receivedIndex c.sentTime h (by omega)
      have hinv : SyncInv (addAccountPayment db c.accPayment c.receivedIndex c.sentTime).2
          wt wi := by rw [hf]; exact h
      have h2 := ih _ _ _ hinv
      simp only [hf] at h2
      simp only [addAccountPayments, hf, successfulCalls]
      exact h2

/-- C2, as amended. A freshly opened store reports `(0, 0)`. After any
sequence of `addAccountPayment` calls on it, `fetchPaymentsSyncInfo` returns
`lastSettledIndex` equal to the largest `receivedIndex` and `lastTime` equal
to the `int64` conversion of the largest `sentTime`, both taken over the calls
that returned no error; `lastTime` is numerically that maximum when the
maximum is below 2^63. -/
theorem fetchPaymentsSyncInfo_addAccountPayments (calls : List PaymentCall) :
    fetchPaymentsSyncInfo freshDB = Except.ok (0, 0) ∧
    fetchPaymentsSyncInfo (addAccountPayments freshDB calls).1 =
      Except.ok
        (int64OfUint64 (maxSentTime (successfulCalls calls (addAccountPayments freshDB calls).2)),
          maxReceivedIndex (successfulCalls calls (addAccountPayments freshDB calls).2)) ∧
    ((maxSentTime (successfulCalls calls (addAccountPayments freshDB calls).2)).val < 2 ^ 63 →
      fetchPaymentsSyncInfo (addAccountPayments freshDB calls).1 =
        Except.ok
          (((maxSentTime (successfulCalls calls (addAccountPayments freshDB calls).2)).val : Int),
            maxReceivedIndex (successfulCalls calls (addAccountPayments freshDB calls).2))) := by
  have h2 := syncInv_run calls freshDB 0 0 syncInv_fresh
  have h0 : ∀ w : Uint64, (if (0 : Uint64) < w then w else 0) = w := by
    intro w
    simp only [Fin.lt_def]
    split_ifs with h
    · rfl
    · apply Fin.ext
      simp only [Fin.val_zero, not_lt, Nat.le_zero] at h ⊢
      exact h.symm
  rw [h0, h0] at h2
  have h3 := fetchPaymentsSyncInfo_of_syncInv _ _ _ h2
  refine ⟨by decide, h3, ?_⟩
  intro hlt
  rw [h3, int64OfUint64, if_pos hlt]

/-- C2 fails as stated. One call with `sentTime = 2^63` makes
`fetchPaymentsSyncInfo` return `lastTime = -2^63`, not the maximum `2^63`; and
a call whose payment bolt rejects (longer than `MaxValueSize`) leaves both
watermarks at 0 although it supplied `sentTime = 9` and `receivedIndex = 7`. -/
theorem fetchPaymentsSyncInfo_not_max :
    fetchPaymentsSyncInfo (addAccountPayments freshDB [⟨[], 0, 9223372036854775808⟩]).1 =
      Except.ok (-9223372036854775808, 0) ∧
    fetchPaymentsSyncInfo (addAccountPayments freshDB [⟨[], 0, 9223372036854775808⟩]).1 ≠
      Except.ok (((maxSentTime [⟨[], 0, 9223372036854775808⟩]).val : Int),
        maxReceivedIndex [⟨[], 0, 9223372036854775808⟩]) ∧
    fetchPaymentsSyncInfo
      (addAccountPayments freshDB [⟨List.replicate 2147483647 0, 7, 9⟩]).1 = Except.ok (0, 0) ∧
    fetchPaymentsSyncInfo
      (addAccountPayments freshDB [⟨List.replicate 2147483647 0, 7, 9⟩]).1 ≠
      Except.ok (((maxSentTime [⟨List.replicate 2147483647 0, 7, 9⟩]).val : Int),
        maxReceivedIndex [⟨List.replicate 2147483647 0, 7, 9⟩]) := by
  have hf : addAccountPayment freshDB (List.replicate 2147483647 0) 7 9 =
      (some DbError.ErrValueTooLarge, freshDB) :=
    syncInv_fail freshDB 0 0 _ 7 9 syncInv_fresh (by rw [List.length_replicate]; decide)
  have h0 : fetchPaymentsSyncInfo
      (addAccountPayments freshDB [⟨List.replicate 2147483647 0, 7, 9⟩]).1 = Except.ok (0, 0) := by
    simp only [addAccountPayments, hf]
    decide
  refine ⟨by decide, by decide, h0, ?_⟩
  rw [h0]
  simp only [maxSentTime, maxReceivedIndex]
  decide

/-! ## What each call changes -/

theorem saveItem_eq (db : DB) (bucket key value : Bytes) (b : Bucket)
    (hb : db.Bucket bucket = some b) :
    saveItem db bucket key value =
      match b.Put key value with
      | Except.ok b' => (none, db.setBucket bucket b')
      | Except.error e => (some e, db) := by
  simp only [saveItem, dbUpdate, hb, deref, ok_bind]
  cases b.Put key value with
  | ok b' => rfl
  | error e => rfl

theorem saveItem_nil (db : DB) (bucket key value : Bytes) (hb : db.Bucket bucket = none) :
    saveItem db bucket key value = (some DbError.nilBucketPanic, db) := by
  simp only [saveItem, dbUpdate, hb, deref]
  rfl

theorem fetchItem_eq (db : DB) (bucket key : Bytes) (b : Bucket)
    (hb : db.Bucket bucket = some b) : fetchItem db bucket key = (b.Get key, none) := by
  simp [fetchItem, dbView, hb, deref]

theorem removeSwapAddress_eq (db : DB) (address : Bytes) (b : Bucket)
    (hb : db.Bucket addressesBucket = some b) :
    removeSwapAddress db address =
      match b.Delete address with
      | Except.ok b' => (none, db.setBucket addressesBucket b')
      | Except.error e => (some e, db) := by
  simp only [removeSwapAddress, dbUpdate, hb, deref, ok_bind]
  cases b.Delete address with
  | ok b' => rfl
  | error e => rfl

theorem removeSwapAddressByPaymentHash_eq (J : JsonCodec) (db : DB) (pHash : Bytes) (b : Bucket)
    (hb : db.Bucket addressesBucket = some b) :
    removeSwapAddressByPaymentHash J db pHash =
      match ForEach (removeByPaymentHashFn J pHash) b.cursor (false, b) with
      | (s, none) => (s.1, none, db.setBucket addressesBucket s.2)
      | (s, some e) => (s.1, some e, db) := by
  simp only [removeSwapAddressByPaymentHash, dbUpdate, hb, deref]
  rcases ForEach (removeByPaymentHashFn J pHash) b.cursor (false, b) with ⟨s, _ | e⟩ <;> rfl

theorem updateSwapAddressInfo_eq {σ : Type} (J : JsonCodec) (db : DB) (address : Bytes)
    (updateFund : swapAddressInfo → σ → swapAddressInfo × σ) (env : σ) (b : Bucket)
    (hb : db.Bucket addressesBucket = some b) :
    updateSwapAddressInfo J db address updateFund env =
      match J.Unmarshal (bytesOf (b.Get address)) with
      | none => (env, some DbError.jsonError, db)
      | some r =>
        match J.Marshal (updateFund r env).1 with
        | none => ((updateFund r env).2, some DbError.jsonError, db)
        | some bytes =>
          match b.Put address bytes with
          | Except.error e => ((updateFund r env).2, some e, db)
          | Except.ok b' => ((updateFund r env).2, none, db.setBucket addressesBucket b') := by
  simp only [updateSwapAddressInfo, dbUpdate, hb, deref]
  cases J.Unmarshal (bytesOf (b.Get address)) with
  | none => rfl
  | some r =>
    simp only
    cases J.Marshal (updateFund r env).1 with
    | none => rfl
    | some bytes =>
      simp only
      cases b.Put address bytes with
      | error e => rfl
      | ok b' => rfl

theorem removeSwapAddress_nil (db : DB) (address : Bytes)
    (hb : db.Bucket addressesBucket = none) :
    removeSwapAddress db address = (some DbError.nilBucketPanic, db) := by
  simp only [removeSwapAddress, dbUpdate, hb, deref]
  rfl

theorem removeSwapAddressByPaymentHash_nil (J : JsonCodec) (db : DB) (pHash : Bytes)
    (hb : db.Bucket addressesBucket = none) :
    removeSwapAddressByPaymentHash J db pHash = (false, some DbError.nilBucketPanic, db) := by
  simp only [removeSwapAddressByPaymentHash, dbUpdate, hb, deref]

theorem updateSwapAddressInfo_nil {σ : Type} (J : JsonCodec) (db : DB) (address : Bytes)
    (updateFund : swapAddressInfo → σ → swapAddressInfo × σ) (env : σ)
    (hb : db.Bucket addressesBucket = none) :
    updateSwapAddressInfo J db address updateFund env =
      (env, some DbError.nilBucketPanic, db) := by
  simp only [updateSwapAddressInfo, dbUpdate, hb, deref]

/-! ### Frame: a call leaves the buckets it does not name as they were -/

theorem saveItem_frame (db : DB) (bucket key value name : Bytes) (h : name ≠ bucket) :
    (saveItem db bucket key value).2.Bucket name = db.Bucket name := by
  cases hb : db.Bucket bucket with
  | none => rw [saveItem_nil _ _ _ _ hb]
  | some b =>
    rw [saveItem_eq _ _ _ _ b hb]
    cases b.Put key value with
    | ok b' => exact Bucket_setBucket_ne _ _ _ _ h
    | error e => rfl

theorem saveItem_bucket (db : DB) (bucket key value : Bytes) (b : Bucket)
    (hb : db.Bucket bucket = some b) :
    ∃ b', (saveItem db bucket key value).2.Bucket bucket = some b' := by
  rw [saveItem_eq _ _ _ _ b hb]
  cases b.Put key value with
  | ok b' => exact ⟨b', Bucket_setBucket_same _ _ _⟩
  | error e => exact ⟨b, hb⟩

theorem saveSwapAddressInfo_frame (J : JsonCodec) (db : DB) (r : swapAddressInfo) (name : Bytes)
    (h : name ≠ addressesBucket) :
    (saveSwapAddressInfo J db r).2.Bucket name = db.Bucket name := by
  simp only [saveSwapAddressInfo]
  cases serializeSwapAddressInfo J r with
  | error e => rfl
  | ok bytes => exact saveItem_frame _ _ _ _ _ h

theorem saveSwapAddressInfo_bucket (J : JsonCodec) (db : DB) (r : swapAddressInfo) (b : Bucket)
    (hb : db.Bucket addressesBucket = some b) :
    ∃ b', (saveSwapAddressInfo J db r).2.Bucket addressesBucket = some b' := by
  simp only [saveSwapAddressInfo]
  cases serializeSwapAddressInfo J r with
  | error e => exact ⟨b, hb⟩
  | ok bytes => exact saveItem_bucket _ _ _ _ b hb

theorem removeSwapAddress_frame (db : DB) (address name : Bytes) (h : name ≠ addressesBucket) :
    (removeSwapAddress db address).2.Bucket name = db.Bucket name := by
  cases hb : db.Bucket addressesBucket with
  | none => rw [removeSwapAddress_nil _ _ hb]
  | some b =>
    rw [removeSwapAddress_eq _ _ b hb]
    cases b.Delete address with
    | ok b' => exact Bucket_setBucket_ne _ _ _ _ h
    | error e => rfl

theorem removeSwapAddress_bucket (db : DB) (address : Bytes) (b : Bucket)
    (hb : db.Bucket addressesBucket = some b) :
    ∃ b', (removeSwapAddress db address).2.Bucket addressesBucket = some b' := by
  rw [removeSwapAddress_eq _ _ b hb]
  cases b.Delete address with
  | ok b' => exact ⟨b', Bucket_setBucket_same _ _ _⟩
  | error e => exact ⟨b, hb⟩

theorem removeSwapAddressByPaymentHash_frame (J : JsonCodec) (db : DB) (pHash name : Bytes)
    (h : name ≠ addressesBucket) :
    (removeSwapAddressByPaymentHash J db pHash).2.2.Bucket name = db.Bucket name := by
  cases hb : db.Bucket addressesBucket with
  | none => rw [removeSwapAddressByPaymentHash_nil _ _ _ hb]
  | some b =>
    rw [removeSwapAddressByPaymentHash_eq _ _ _ b hb]
    rcases ForEach (removeByPaymentHashFn J pHash) b.cursor (false, b) with ⟨s, _ | e⟩
    · exact Bucket_setBucket_ne _ _ _ _ h
    · rfl

theorem removeSwapAddressByPaymentHash_bucket (J : JsonCodec) (db : DB) (pHash : Bytes)
    (b : Bucket) (hb : db.Bucket addressesBucket = some b) :
    ∃ b', (removeSwapAddressByPaymentHash J db pHash).2.2.Bucket addressesBucket = some b' := by
  rw [removeSwapAddressByPaymentHash_eq _ _ _ b hb]
  rcases ForEach (removeByPaymentHashFn J pHash) b.cursor (false, b) with ⟨s, _ | e⟩
  · exact ⟨_, Bucket_setBucket_same _ _ _⟩
  · exact ⟨b, hb⟩

theorem updateSwapAddressInfo_frame {σ : Type} (J : JsonCodec) (db : DB) (address : Bytes)
    (updateFund : swapAddressInfo → σ → swapAddressInfo × σ) (env : σ) (name : Bytes)
    (h : name ≠ addressesBucket) :
    (updateSwapAddressInfo J db address updateFund env).2.2.Bucket name = db.Bucket name := by
  cases hb : db.Bucket addressesBucket with
  | none => rw [updateSwapAddressInfo_nil _ _ _ _ _ hb]
  | some b =>
    rw [updateSwapAddressInfo_eq _ _ _ _ _ b hb]
    cases J.Unmarshal (bytesOf (b.Get address)) with
    | none => rfl
    | some r =>
      simp only
      cases J.Marshal (updateFund r env).1 with
      | none => rfl
      | some bytes =>
        simp only
        cases b.Put address bytes with
        | error e => rfl
        | ok b' => exact Bucket_setBucket_ne _ _ _ _ h

theorem updateSwapAddressInfo_bucket {σ : Type} (J : JsonCodec) (db : DB) (address : Bytes)
    (updateFund : swapAddressInfo → σ → swapAddressInfo × σ) (env : σ) (b : Bucket)
    (hb : db.Bucket addressesBucket = some b) :
    ∃ b', (updateSwapAddressInfo J db address updateFund env).2.2.Bucket addressesBucket =
      some b' := by
  rw [updateSwapAddressInfo_eq _ _ _ _ _ b hb]
  cases J.Unmarshal (bytesOf (b.Get address)) with
  | none => exact ⟨b, hb⟩
  | some r =>
    simp only
    cases J.Marshal (updateFund r env).1 with
    | none => exact ⟨b, hb⟩
    | some bytes =>
      simp only
      cases b.Put address bytes with
      | error e => exact ⟨b, hb⟩
      | ok b' => exact ⟨b', Bucket_setBucket_same _ _ _⟩

theorem addAccountPayment_frame (db : DB) (p : Bytes) (idx t : Uint64) (wt wi : Uint64)
    (h : SyncInv db wt wi) (name : Bytes) (hn : name ≠ paymentsBucket) :
    (addAccountPayment db p idx t).2.Bucket name = db.Bucket name := by
  by_cases hp : p.length ≤ MaxValueSize
  · obtain ⟨b, sb, hb, hsb, hbk, hwt, hwi⟩ := h
    have hk : ∀ k : Bytes, k.length = 8 → b.Bucket k = none :=
      fun k hk => Bucket_eq_none_of b k hbk hk
    rw [addAccountPayment_of_tx_ok _ _ _ _ _
      (addAccountPaymentTx_ok db b sb wt wi p idx t hb hsb hk hwt hwi hp)]
    exact Bucket_setBucket_ne _ _ _ _ hn
  · rw [syncInv_fail db wt wi p idx t h (by omega)]

theorem openDBTx_eq (db : DB) (h : StoreInv db) :
    ∃ b, db.Bucket paymentsBucket = some b ∧
      openDBTx db = Except.ok (db.setBucket paymentsBucket b) := by
  obtain ⟨⟨wt, wi, b, sb, hb, hsb, -⟩, ⟨b1, h1⟩, ⟨b2, h2⟩, ⟨b3, h3⟩⟩ := h
  refine ⟨b, hb, ?_⟩
  have c1 : db.CreateBucketIfNotExists incmoingPayReqBucket emptyBucket = Except.ok (b1, db) := by
    simp only [BucketOf.Bucket] at h1
    simp only [BucketOf.CreateBucketIfNotExists]
    split at h1 <;> simp_all [incmoingPayReqBucket]
  have c2 : db.CreateBucketIfNotExists paymentsBucket emptyBucket = Except.ok (b, db) := by
    simp only [BucketOf.Bucket] at hb
    simp only [BucketOf.CreateBucketIfNotExists]
    split at hb <;> simp_all [paymentsBucket]
  have c3 : b.CreateBucketIfNotExists paymentsSyncInfoBucket emptyBucket = Except.ok (sb, b) := by
    simp only [BucketOf.Bucket] at hsb
    simp only [BucketOf.CreateBucketIfNotExists]
    split at hsb <;> simp_all [paymentsSyncInfoBucket]
  have h2' : (db.setBucket paymentsBucket b).Bucket accountBucket = some b2 := by
    rw [Bucket_setBucket_ne _ _ _ _ (by decide)]; exact h2
  have h3' : (db.setBucket paymentsBucket b).Bucket addressesBucket = some b3 := by
    rw [Bucket_setBucket_ne _ _ _ _ (by decide)]; exact h3
  have c4 : (db.setBucket paymentsBucket b).CreateBucketIfNotExists accountBucket emptyBucket =
      Except.ok (b2, db.setBucket paymentsBucket b) := by
    simp only [BucketOf.Bucket] at h2'
    simp only [BucketOf.CreateBucketIfNotExists]
    split at h2' <;> simp_all [accountBucket]
  have c5 : (db.setBucket paymentsBucket b).CreateBucketIfNotExists addressesBucket emptyBucket =
      Except.ok (b3, db.setBucket paymentsBucket b) := by
    simp only [BucketOf.Bucket] at h3'
    simp only [BucketOf.CreateBucketIfNotExists]
    split at h3' <;> simp_all [addressesBucket]
  simp only [openDBTx, c1, c2, c3, ok_bind, c4, c5]
  rfl

theorem openDB_frame (db : DB) (h : StoreInv db) (name : Bytes) :
    (openDB db).2.Bucket name = db.Bucket name := by
  obtain ⟨b, hb, htx⟩ := openDBTx_eq db h
  simp only [openDB, dbUpdate, htx]
  by_cases hn : name = paymentsBucket
  · rw [hn, Bucket_setBucket_same, hb]
  · exact Bucket_setBucket_ne _ _ _ _ hn

theorem syncInv_congr (db db' : DB) (wt wi : Uint64)
    (h : db'.Bucket paymentsBucket = db.Bucket paymentsBucket) (hs : SyncInv db wt wi) :
    SyncInv db' wt wi := by
  obtain ⟨b, sb, hb, rest⟩ := hs
  exact ⟨b, sb, h.trans hb, rest⟩

theorem storeInv_of_frame (db db' : DB) (h : ∀ name, db'.Bucket name = db.Bucket name)
    (hs : StoreInv db) : StoreInv db' := by
  obtain ⟨⟨wt, wi, hsync⟩, ⟨b1, h1⟩, ⟨b2, h2⟩, ⟨b3, h3⟩⟩ := hs
  exact ⟨⟨wt, wi, syncInv_congr _ _ _ _ (h _) hsync⟩, ⟨b1, (h _).trans h1⟩,
    ⟨b2, (h _).trans h2⟩, ⟨b3, (h _).trans h3⟩⟩

theorem storeInv_fresh : StoreInv freshDB :=
  ⟨⟨0, 0, syncInv_fresh⟩, ⟨emptyBucket, by decide⟩, ⟨emptyBucket, by decide⟩,
    ⟨emptyBucket, by decide⟩⟩

theorem storeInv_step (J : JsonCodec) (db : DB) (op : Op) (h : StoreInv db) :
    StoreInv (step J db op) := by
  obtain ⟨⟨wt, wi, hsync⟩, ⟨b1, h1⟩, ⟨b2, h2⟩, ⟨b3, h3⟩⟩ := h
  cases op with
  | addAccountPayment p idx t =>
    have hf := addAccountPayment_frame db p idx t wt wi hsync
    refine ⟨?_, ⟨b1, (hf _ (by decide)).trans h1⟩, ⟨b2, (hf _ (by decide)).trans h2⟩,
      ⟨b3, (hf _ (by decide)).trans h3⟩⟩
    by_cases hp : p.length ≤ MaxValueSize
    · exact ⟨_, _, (syncInv_step db wt wi p idx t hsync hp).2⟩
    · refine ⟨wt, wi, ?_⟩
      show SyncInv (addAccountPayment db p idx t).2 wt wi
      rw [syncInv_fail db wt wi p idx t hsync (by omega)]
      exact hsync
  | saveAccount x =>
    have hf := saveItem_frame db accountBucket accountKey x
    exact ⟨⟨wt, wi, syncInv_congr _ _ _ _ (hf _ (by decide)) hsync⟩,
      ⟨b1, (hf _ (by decide)).trans h1⟩, saveItem_bucket _ _ _ _ b2 h2,
      ⟨b3, (hf _ (by decide)).trans h3⟩⟩
  | savePaymentRequest hh r =>
    have hf := saveItem_frame db incmoingPayReqBucket hh r
    exact ⟨⟨wt, wi, syncInv_congr _ _ _ _ (hf _ (by decide)) hsync⟩,
      saveItem_bucket _ _ _ _ b1 h1, ⟨b2, (hf _ (by decide)).trans h2⟩,
      ⟨b3, (hf _ (by decide)).trans h3⟩⟩
  | saveSwapAddressInfo r =>
    have hf := saveSwapAddressInfo_frame J db r
    exact ⟨⟨wt, wi, syncInv_congr _ _ _ _ (hf _ (by decide)) hsync⟩,
      ⟨b1, (hf _ (by decide)).trans h1⟩, ⟨b2, (hf _ (by decide)).trans h2⟩,
      saveSwapAddressInfo_bucket J _ _ b3 h3⟩
  | removeSwapAddress a =>
    have hf := removeSwapAddress_frame db a
    exact ⟨⟨wt, wi, syncInv_congr _ _ _ _ (hf _ (by decide)) hsync⟩,
      ⟨b1, (hf _ (by decide)).trans h1⟩, ⟨b2, (hf _ (by decide)).trans h2⟩,
      removeSwapAddress_bucket _ _ b3 h3⟩
  | removeSwapAddressByPaymentHash ph =>
    have hf := removeSwapAddressByPaymentHash_frame J db ph
    exact ⟨⟨wt, wi, syncInv_congr _ _ _ _ (hf _ (by decide)) hsync⟩,
      ⟨b1, (hf _ (by decide)).trans h1⟩, ⟨b2, (hf _ (by decide)).trans h2⟩,
      removeSwapAddressByPaymentHash_bucket J _ _ b3 h3⟩
  | updateSwapAddressInfo a f =>
    have hf := updateSwapAddressInfo_frame J db a (fun r (u : Unit) => (f r, u)) ()
    exact ⟨⟨wt, wi, syncInv_congr _ _ _ _ (hf _ (by decide)) hsync⟩,
      ⟨b1, (hf _ (by decide)).trans h1⟩, ⟨b2, (hf _ (by decide)).trans h2⟩,
      updateSwapAddressInfo_bucket J _ _ _ _ b3 h3⟩
  | reopen =>
    exact storeInv_of_frame _ _
      (openDB_frame db ⟨⟨wt, wi, hsync⟩, ⟨b1, h1⟩, ⟨b2, h2⟩, ⟨b3, h3⟩⟩)
      ⟨⟨wt, wi, hsync⟩, ⟨b1, h1⟩, ⟨b2, h2⟩, ⟨b3, h3⟩⟩
  | reset => exact storeInv_fresh

theorem storeInv_run (J : JsonCodec) (ops : List Op) :
    ∀ db, StoreInv db → StoreInv (run J db ops) := by
  induction ops with
  | nil => exact fun db h => h
  | cons op rest ih => exact fun db h => ih _ (storeInv_step J db op h)

theorem storeInv_of_reachable (J : JsonCodec) (db : DB) (h : Reachable J db) : StoreInv db := by
  obtain ⟨ops, rfl⟩ := h
  exact storeInv_run J ops _ storeInv_fresh

/-! ## Watermarks never decrease -/

theorem watermarkOf_of_read (db : DB) (b : Bucket) (sb : SubBucket) (key : Bytes) (w : Uint64)
    (hb : db.Bucket paymentsBucket = some b) (hsb : b.Bucket paymentsSyncInfoBucket = some sb)
    (hw : readWatermark sb key = Except.ok w) : watermarkOf db key = w := by
  simp only [watermarkOf, storedWatermark, hb, hsb]
  simp only [readWatermark] at hw
  cases hg : sb.Get key with
  | none =>
    rw [hg] at hw
    simp only [Except.ok.injEq] at hw
    exact hw
  | some buf =>
    rw [hg] at hw
    simp only at hw ⊢
    cases hbt : btoi buf with
    | none => rw [hbt] at hw; simp at hw
    | some v =>
      rw [hbt] at hw
      simp only [Except.ok.injEq] at hw
      simpa using hw

theorem Get_syncAfter_time (sb : SubBucket) (wt wi idx t : Uint64) (h : ¬ wt < t) :
    (syncAfter sb wt wi idx t).Get lastSentPaymentTimeKey = sb.Get lastSentPaymentTimeKey := by
  simp only [syncAfter, h, if_false]
  split_ifs
  · exact Get_putValue_ne _ _ _ _ (by decide)
  · rfl

theorem Get_syncAfter_index (sb : SubBucket) (wt wi idx t : Uint64) (h : ¬ wi < idx) :
    (syncAfter sb wt wi idx t).Get lastSettledIndexKey = sb.Get lastSettledIndexKey := by
  simp only [syncAfter, h, if_false]
  split_ifs
  · exact Get_putValue_ne _ _ _ _ (by decide)
  · rfl

/-- C3. In every store reachable through `db.go`, a call of
`addAccountPayment` never lowers a stored watermark (an absent one counted as
0), and the entry of a watermark is changed only when the candidate is
strictly greater than the stored value; `addAccountPayment(A, 5, 100)` then
`addAccountPayment(B, 3, 50)` on a fresh store gives
`fetchPaymentsSyncInfo() = (100, 5)`. -/
theorem watermarks_never_decrease (J : JsonCodec) (db : DB) (h : Reachable J db)
    (p : Bytes) (idx t : Uint64) :
    watermarkOf db lastSentPaymentTimeKey ≤
        watermarkOf (addAccountPayment db p idx t).2 lastSentPaymentTimeKey ∧
      watermarkOf db lastSettledIndexKey ≤
        watermarkOf (addAccountPayment db p idx t).2 lastSettledIndexKey ∧
      (storedWatermark (addAccountPayment db p idx t).2 lastSentPaymentTimeKey ≠
          storedWatermark db lastSentPaymentTimeKey →
        watermarkOf db lastSentPaymentTimeKey < t) ∧
      (storedWatermark (addAccountPayment db p idx t).2 lastSettledIndexKey ≠
          storedWatermark db lastSettledIndexKey →
        watermarkOf db lastSettledIndexKey < idx) ∧
      fetchPaymentsSyncInfo
        (addAccountPayment (addAccountPayment freshDB [65] 5 100).2 [66] 3 50).2 =
        Except.ok (100, 5) := by
  obtain ⟨⟨wt, wi, hsync⟩, -⟩ := storeInv_of_reachable J db h
  have hlast : fetchPaymentsSyncInfo
      (addAccountPayment (addAccountPayment freshDB [65] 5 100).2 [66] 3 50).2 =
      Except.ok (100, 5) := by decide
  by_cases hp : p.length ≤ MaxValueSize
  · obtain ⟨b, sb, hb, hsb, hbk, hwt, hwi⟩ := hsync
    have hk : ∀ k : Bytes, k.length = 8 → b.Bucket k = none :=
      fun k hk => Bucket_eq_none_of b k hbk hk
    rw [addAccountPayment_of_tx_ok _ _ _ _ _
      (addAccountPaymentTx_ok db b sb wt wi p idx t hb hsb hk hwt hwi hp)]
    simp only
    have e1 := watermarkOf_of_read db b sb _ wt hb hsb hwt
    have e2 := watermarkOf_of_read db b sb _ wi hb hsb hwi
    have e3 := watermarkOf_of_read _ _ _ _ _
      (Bucket_setBucket_same db paymentsBucket _)
      (Bucket_setBucket_same (putValue (b.NextSequence).2 (itob (b.sequence + 1)) p)
        paymentsSyncInfoBucket (syncAfter sb wt wi idx t))
      (readWatermark_syncAfter_time sb wt wi idx t hwt)
    have e4 := watermarkOf_of_read _ _ _ _ _
      (Bucket_setBucket_same db paymentsBucket _)
      (Bucket_setBucket_same (putValue (b.NextSequence).2 (itob (b.sequence + 1)) p)
        paymentsSyncInfoBucket (syncAfter sb wt wi idx t))
      (readWatermark_syncAfter_index sb wt wi idx t hwi)
    rw [e1, e2, e3, e4]
    refine ⟨?_, ?_, ?_, ?_, hlast⟩
    · split_ifs with hlt
      · exact le_of_lt hlt
      · exact le_refl _
    · split_ifs with hlt
      · exact le_of_lt hlt
      · exact le_refl _
    · intro hne
      by_contra hlt
      apply hne
      simp only [storedWatermark, Bucket_setBucket_same, hb, hsb]
      exact Get_syncAfter_time sb wt wi idx t hlt
    · intro hne
      by_contra hlt
      apply hne
      simp only [storedWatermark, Bucket_setBucket_same, hb, hsb]
      exact Get_syncAfter_index sb wt wi idx t hlt
  · rw [syncInv_fail db wt wi p idx t hsync (by omega)]
    exact ⟨le_refl _, le_refl _, fun hne => absurd rfl hne, fun hne => absurd rfl hne, hlast⟩

/-- C3 at the store reached by one payment, for a second payment with smaller
index and time. -/
theorem watermarks_never_decrease_witness :
    Reachable ⟨fun _ => none, fun _ => none⟩ (addAccountPayment freshDB [65] 5 100).2 ∧
    (watermarkOf (addAccountPayment freshDB [65] 5 100).2 lastSentPaymentTimeKey ≤
        watermarkOf (addAccountPayment (addAccountPayment freshDB [65] 5 100).2 [66] 3 50).2
          lastSentPaymentTimeKey ∧
      watermarkOf (addAccountPayment freshDB [65] 5 100).2 lastSettledIndexKey ≤
        watermarkOf (addAccountPayment (addAccountPayment freshDB [65] 5 100).2 [66] 3 50).2
          lastSettledIndexKey ∧
      (storedWatermark (addAccountPayment (addAccountPayment freshDB [65] 5 100).2 [66] 3 50).2
            lastSentPaymentTimeKey ≠
          storedWatermark (addAccountPayment freshDB [65] 5 100).2 lastSentPaymentTimeKey →
        watermarkOf (addAccountPayment freshDB [65] 5 100).2 lastSentPaymentTimeKey < 50) ∧
      (storedWatermark (addAccountPayment (addAccountPayment freshDB [65] 5 100).2 [66] 3 50).2
            lastSettledIndexKey ≠
          storedWatermark (addAccountPayment freshDB [65] 5 100).2 lastSettledIndexKey →
        watermarkOf (addAccountPayment freshDB [65] 5 100).2 lastSettledIndexKey < 3) ∧
      fetchPaymentsSyncInfo
        (addAccountPayment (addAccountPayment freshDB [65] 5 100).2 [66] 3 50).2 =
        Except.ok (100, 5)) :=
  ⟨⟨[Op.addAccountPayment [65] 5 100], rfl⟩,
    watermarks_never_decrease ⟨fun _ => none, fun _ => none⟩ _
      ⟨[Op.addAccountPayment [65] 5 100], rfl⟩ [66] 3 50⟩

/-! ## The account record -/

theorem Bucket_none_of_flat {β : Type} (b : BucketOf β)
    (h : ∀ k nb, (k, Entry.bucket nb) ∉ b.entries) (k : Bytes) : b.Bucket k = none := by
  simp only [BucketOf.Bucket]
  split
  · rename_i nb hg
    exact absurd (mem_of_kvGet _ _ _ hg) (h k nb)
  · rfl

theorem kvPut_single {α : Type} (k : Bytes) (v : α) (l : List (Bytes × α)) (hs : KeysSorted l)
    (hk : ∀ e ∈ l, e.1 = k) : kvPut k v l = [(k, v)] := by
  cases l with
  | nil => rfl
  | cons e rest =>
    obtain ⟨k₁, v₁⟩ := e
    have h1 : k₁ = k := hk _ (List.mem_cons_self _ _)
    subst h1
    rw [KeysSorted, List.pairwise_cons] at hs
    cases rest with
    | nil => simp [kvPut]
    | cons e₂ rest₂ =>
      have h2 := hs.1 e₂ (List.mem_cons_self _ _)
      have h3 : e₂.1 = k₁ := hk _ (List.mem_cons_of_mem _ (List.mem_cons_self _ _))
      rw [h3, bytesLess_irrefl] at h2
      exact absurd h2 (by decide)

theorem saveAccount_ok (db : DB) (b : Bucket) (x : Bytes) (hb : db.Bucket accountBucket = some b)
    (hflat : ∀ k nb, (k, Entry.bucket nb) ∉ b.entries) (hx : x.length ≤ MaxValueSize) :
    saveAccount db x = (none, db.setBucket accountBucket (putValue b accountKey x)) := by
  rw [saveAccount, saveItem_eq _ _ _ _ b hb,
    Put_eq_putValue b accountKey x (by decide) (by decide) hx (Bucket_none_of_flat b hflat _)]

theorem saveAccount_too_large (db : DB) (b : Bucket) (x : Bytes)
    (hb : db.Bucket accountBucket = some b) (hx : MaxValueSize < x.length) :
    saveAccount db x = (some DbError.ErrValueTooLarge, db) := by
  rw [saveAccount, saveItem_eq _ _ _ _ b hb]
  have : b.Put accountKey x = Except.error DbError.ErrValueTooLarge := by
    simp [BucketOf.Put, accountKey, MaxKeySize, hx]
  rw [this]

theorem accountInv_saveAccount (db : DB) (x : Bytes) (h : AccountInv db) :
    AccountInv (saveAccount db x).2 := by
  obtain ⟨b, hb, hs, hk, hflat⟩ := h
  by_cases hx : x.length ≤ MaxValueSize
  · rw [saveAccount_ok db b x hb hflat hx]
    refine ⟨_, Bucket_setBucket_same _ _ _, keysSorted_kvPut _ _ _ hs, ?_, ?_⟩
    · intro e he
      rcases mem_kvPut _ _ _ _ he with he | he
      · rw [he]
      · exact hk e he
    · intro k nb hm
      rcases mem_kvPut _ _ _ _ hm with hm | hm
      · simp at hm
      · exact hflat k nb hm
  · rw [saveAccount_too_large db b x hb (by omega)]
    exact ⟨b, hb, hs, hk, hflat⟩

theorem accountInv_fresh : AccountInv freshDB :=
  ⟨emptyBucket, by decide, by simp [emptyBucket, KeysSorted], by simp [emptyBucket],
    by simp [emptyBucket]⟩

theorem accountInv_congr (db db' : DB) (h : db'.Bucket accountBucket = db.Bucket accountBucket)
    (hi : AccountInv db) : AccountInv db' := by
  obtain ⟨b, hb, rest⟩ := hi
  exact ⟨b, h.trans hb, rest⟩

theorem accountInv_of_reachable (J : JsonCodec) (db : DB) (h : Reachable J db) :
    AccountInv db := by
  obtain ⟨ops, rfl⟩ := h
  have key : ∀ (ops : List Op) (db : DB), StoreInv db → AccountInv db →
      AccountInv (run J db ops) := by
    intro ops
    induction ops with
    | nil => exact fun db _ h => h
    | cons op rest ih =>
      intro db hs hi
      refine ih _ (storeInv_step J db op hs) ?_
      obtain ⟨wt, wi, hsync⟩ := hs.1
      cases op with
      | addAccountPayment p idx t =>
        exact accountInv_congr _ _
          (addAccountPayment_frame db p idx t wt wi hsync _ (by decide)) hi
      | saveAccount x => exact accountInv_saveAccount db x hi
      | savePaymentRequest hh r =>
        exact accountInv_congr _ _ (saveItem_frame _ _ _ _ _ (by decide)) hi
      | saveSwapAddressInfo r =>
        exact accountInv_congr _ _ (saveSwapAddressInfo_frame J _ _ _ (by decide)) hi
      | removeSwapAddress a =>
        exact accountInv_congr _ _ (removeSwapAddress_frame _ _ _ (by decide)) hi
      | removeSwapAddressByPaymentHash ph =>
        exact accountInv_congr _ _ (removeSwapAddressByPaymentHash_frame J _ _ _ (by decide)) hi
      | updateSwapAddressInfo a f =>
        exact accountInv_congr _ _ (updateSwapAddressInfo_frame J _ _ _ _ _ (by decide)) hi
      | reopen =>
        exact accountInv_congr _ _ (openDB_frame db hs _) hi
      | reset => exact accountInv_fresh
  exact key ops _ storeInv_fresh accountInv_fresh

theorem accountEntries_setBucket (db : DB) (b : Bucket) :
    accountEntries (db.setBucket accountBucket b) = b.entries := by
  simp only [accountEntries, Bucket_setBucket_same]

theorem Put_ok_form {β : Type} (b b' : BucketOf β) (key value : Bytes)
    (h : b.Put key value = Except.ok b') : b' = putValue b key value := by
  simp only [BucketOf.Put] at h
  split_ifs at h
  split at h
  · simp at h
  · simp only [Except.ok.injEq] at h
    exact h.symm

theorem saveAccount_cases (db : DB) (b : Bucket) (x : Bytes)
    (hb : db.Bucket accountBucket = some b) :
    (∃ e, saveAccount db x = (some e, db)) ∨
    saveAccount db x = (none, db.setBucket accountBucket (putValue b accountKey x)) := by
  rw [saveAccount, saveItem_eq _ _ _ _ b hb]
  cases hp : b.Put accountKey x with
  | error e => exact Or.inl ⟨e, rfl⟩
  | ok b' =>
    rw [Put_ok_form b b' _ _ hp]
    exact Or.inr rfl

theorem saveAccount_of_no_error (db : DB) (x : Bytes) (h : AccountInv db)
    (hx : (saveAccount db x).1 = none) :
    fetchAccount (saveAccount db x).2 = (some x, none) ∧
    accountEntries (saveAccount db x).2 = [(accountKey, Entry.value x)] := by
  obtain ⟨b, hb, hs, hk, hflat⟩ := h
  rcases saveAccount_cases db b x hb with ⟨e, he⟩ | he
  · rw [he] at hx
    exact Option.noConfusion hx
  · rw [he]
    refine ⟨?_, ?_⟩
    · rw [fetchAccount, fetchItem_eq _ _ _ _ (Bucket_setBucket_same _ _ _), Get_putValue_same]
    · rw [accountEntries_setBucket]
      exact kvPut_single _ _ _ hs hk

/-- C4, as amended. On every store whose account bucket is as `db.go` leaves
it, for all `x` and `y`: when `saveAccount(x)` returns no error,
`fetchAccount()` then returns exactly `x` with no error and the account bucket
holds the single entry under the key `"account"`; when a further
`saveAccount(y)` returns no error, `fetchAccount()` then returns exactly `y`
and the bucket again holds that single entry. A `saveAccount` that returns an
error leaves the store as it was, and `saveAccount` of a value longer than
`MaxValueSize` returns `ErrValueTooLarge`. -/
theorem saveAccount_fetchAccount (db : DB) (h : AccountInv db) (x y : Bytes) :
    ((saveAccount db x).1 = none →
      fetchAccount (saveAccount db x).2 = (some x, none) ∧
      accountEntries (saveAccount db x).2 = [(accountKey, Entry.value x)] ∧
      ((saveAccount (saveAccount db x).2 y).1 = none →
        fetchAccount (saveAccount (saveAccount db x).2 y).2 = (some y, none) ∧
        accountEntries (saveAccount (saveAccount db x).2 y).2 =
          [(accountKey, Entry.value y)])) ∧
    ((saveAccount db x).1 ≠ none → (saveAccount db x).2 = db) ∧
    (MaxValueSize < x.length → (saveAccount db x).1 = some DbError.ErrValueTooLarge) := by
  refine ⟨?_, ?_, ?_⟩
  · intro hx
    obtain ⟨h1, h2⟩ := saveAccount_of_no_error db x h hx
    refine ⟨h1, h2, ?_⟩
    intro hy
    exact saveAccount_of_no_error _ y (accountInv_saveAccount db x h) hy
  · intro hx
    obtain ⟨b, hb, -⟩ := h
    rcases saveAccount_cases db b x hb with ⟨e, he⟩ | he
    · rw [he]
    · rw [he] at hx
      exact absurd rfl hx
  · intro hx
    obtain ⟨b, hb, -⟩ := h
    rw [saveAccount_too_large db b x hb hx]

/-- C4 on a fresh store, with `x = [1, 2, 3]` and the empty `y`: both saves
return no error. -/
theorem saveAccount_fetchAccount_witness :
    AccountInv freshDB ∧ (saveAccount freshDB [1, 2, 3]).1 = none ∧
    (saveAccount (saveAccount freshDB [1, 2, 3]).2 []).1 = none ∧
    (fetchAccount (saveAccount freshDB [1, 2, 3]).2 = (some [1, 2, 3], none) ∧
      accountEntries (saveAccount freshDB [1, 2, 3]).2 =
        [(accountKey, Entry.value [1, 2, 3])]) ∧
    (fetchAccount (saveAccount (saveAccount freshDB [1, 2, 3]).2 []).2 = (some [], none) ∧
      accountEntries (saveAccount (saveAccount freshDB [1, 2, 3]).2 []).2 =
        [(accountKey, Entry.value [])]) :=
  ⟨accountInv_fresh, by decide, by decide,
    ⟨((saveAccount_fetchAccount freshDB accountInv_fresh [1, 2, 3] []).1 (by decide)).1,
      ((saveAccount_fetchAccount freshDB accountInv_fresh [1, 2, 3] []).1 (by decide)).2.1⟩,
    ((saveAccount_fetchAccount freshDB accountInv_fresh [1, 2, 3] []).1 (by decide)).2.2
      (by decide)⟩

/-- C4 fails as stated. On a fresh store `saveAccount` of a value of 2^31 - 1
bytes returns `ErrValueTooLarge` and stores nothing: `fetchAccount()` then
returns `nil`, not the value. -/
theorem saveAccount_too_large_not_fetched :
    saveAccount freshDB (List.replicate 2147483647 0) =
      (some DbError.ErrValueTooLarge, freshDB) ∧
    fetchAccount (saveAccount freshDB (List.replicate 2147483647 0)).2 = (none, none) ∧
    fetchAccount (saveAccount freshDB (List.replicate 2147483647 0)).2 ≠
      (some (List.replicate 2147483647 0), none) := by
  have h1 : saveAccount freshDB (List.replicate 2147483647 0) =
      (some DbError.ErrValueTooLarge, freshDB) :=
    saveAccount_too_large freshDB emptyBucket _ (by decide)
      (by rw [List.length_replicate]; decide)
  have h2 : fetchAccount (saveAccount freshDB (List.replicate 2147483647 0)).2 =
      (none, none) := by
    rw [h1]
    decide
  refine ⟨h1, h2, ?_⟩
  rw [h2]
  exact fun hc => Option.noConfusion (Prod.mk.inj hc).1

/-! ## Payment requests -/

theorem Put_key_too_large {β : Type} (b : BucketOf β) (key value : Bytes)
    (h1 : key.length ≠ 0) (h2 : MaxKeySize < key.length) :
    b.Put key value = Except.error DbError.ErrKeyTooLarge := by
  simp only [BucketOf.Put, h1, if_false, gt_iff_lt, h2, if_true]

theorem Put_key_required {β : Type} (b : BucketOf β) (value : Bytes) :
    b.Put [] value = Except.error DbError.ErrKeyRequired := by
  simp [BucketOf.Put]

theorem payReqInv_fresh : PayReqInv freshDB :=
  ⟨emptyBucket, by decide, by simp [emptyBucket]⟩

theorem payReqInv_congr (db db' : DB)
    (h : db'.Bucket incmoingPayReqBucket = db.Bucket incmoingPayReqBucket)
    (hi : PayReqInv db) : PayReqInv db' := by
  obtain ⟨b, hb, rest⟩ := hi
  exact ⟨b, h.trans hb, rest⟩

theorem savePaymentRequest_cases (db : DB) (b : Bucket) (h r : Bytes)
    (hb : db.Bucket incmoingPayReqBucket = some b) :
    (∃ e, savePaymentRequest db h r = (some e, db)) ∨
    savePaymentRequest db h r = (none, db.setBucket incmoingPayReqBucket (putValue b h r)) := by
  rw [savePaymentRequest, saveItem_eq _ _ _ _ b hb]
  cases hp : b.Put h r with
  | error e => exact Or.inl ⟨e, rfl⟩
  | ok b' =>
    rw [Put_ok_form b b' h r hp]
    exact Or.inr rfl

theorem payReqInv_savePaymentRequest (db : DB) (h r : Bytes) (hi : PayReqInv db) :
    PayReqInv (savePaymentRequest db h r).2 := by
  obtain ⟨b, hb, hflat⟩ := hi
  rcases savePaymentRequest_cases db b h r hb with ⟨e, he⟩ | he
  · rw [he]
    exact ⟨b, hb, hflat⟩
  · rw [he]
    refine ⟨_, Bucket_setBucket_same _ _ _, ?_⟩
    intro k nb hm
    rcases mem_kvPut _ _ _ _ hm with hm | hm
    · simp at hm
    · exact hflat k nb hm

theorem savePaymentRequest_other (db : DB) (h r h2 : Bytes) (hne : h2 ≠ h) :
    fetchPaymentRequest (savePaymentRequest db h r).2 h2 = fetchPaymentRequest db h2 := by
  cases hb : db.Bucket incmoingPayReqBucket with
  | none =>
    rw [savePaymentRequest, saveItem_nil _ _ _ _ hb]
  | some b =>
    rcases savePaymentRequest_cases db b h r hb with ⟨e, he⟩ | he
    · rw [he]
    · rw [he, fetchPaymentRequest, fetchPaymentRequest,
        fetchItem_eq _ _ _ _ (Bucket_setBucket_same _ _ _), fetchItem_eq _ _ _ b hb,
        Get_putValue_ne _ _ _ _ hne]

theorem fetchPaymentRequest_frame (db db' : DB) (h2 : Bytes)
    (h : db'.Bucket incmoingPayReqBucket = db.Bucket incmoingPayReqBucket) :
    fetchPaymentRequest db' h2 = fetchPaymentRequest db h2 := by
  simp only [fetchPaymentRequest, fetchItem, dbView, h]

theorem fetchPaymentRequest_fresh (h2 : Bytes) :
    fetchPaymentRequest freshDB h2 = (none, none) := by
  rw [fetchPaymentRequest, fetchItem_eq freshDB _ _ emptyBucket (by decide)]
  rfl

theorem fetchPaymentRequest_step (J : JsonCodec) (db : DB) (op : Op) (h2 : Bytes)
    (hs : StoreInv db) (hop : savesHash h2 op = false)
    (hnone : fetchPaymentRequest db h2 = (none, none)) :
    fetchPaymentRequest (step J db op) h2 = (none, none) := by
  obtain ⟨wt, wi, hsync⟩ := hs.1
  cases op with
  | addAccountPayment p idx t =>
    exact (fetchPaymentRequest_frame _ _ _
      (addAccountPayment_frame db p idx t wt wi hsync _ (by decide))).trans hnone
  | saveAccount x =>
    exact (fetchPaymentRequest_frame _ _ _ (saveItem_frame _ _ _ _ _ (by decide))).trans hnone
  | savePaymentRequest hh r =>
    have hne : h2 ≠ hh := by
      intro e
      simp [savesHash, e] at hop
    exact (savePaymentRequest_other db hh r h2 hne).trans hnone
  | saveSwapAddressInfo r =>
    exact (fetchPaymentRequest_frame _ _ _
      (saveSwapAddressInfo_frame J _ _ _ (by decide))).trans hnone
  | removeSwapAddress a =>
    exact (fetchPaymentRequest_frame _ _ _
      (removeSwapAddress_frame _ _ _ (by decide))).trans hnone
  | removeSwapAddressByPaymentHash ph =>
    exact (fetchPaymentRequest_frame _ _ _
      (removeSwapAddressByPaymentHash_frame J _ _ _ (by decide))).trans hnone
  | updateSwapAddressInfo a f =>
    exact (fetchPaymentRequest_frame _ _ _
      (updateSwapAddressInfo_frame J _ _ _ _ _ (by decide))).trans hnone
  | reopen => exact (fetchPaymentRequest_frame _ _ _ (openDB_frame db hs _)).trans hnone
  | reset => exact fetchPaymentRequest_fresh h2

theorem fetchPaymentRequest_run (J : JsonCodec) (h2 : Bytes) (ops : List Op) :
    ∀ db, StoreInv db → (∀ op ∈ ops, savesHash h2 op = false) →
      fetchPaymentRequest db h2 = (none, none) →
      fetchPaymentRequest (run J db ops) h2 = (none, none) := by
  induction ops with
  | nil => exact fun db _ _ h => h
  | cons op rest ih =>
    intro db hs hops hnone
    exact ih _ (storeInv_step J db op hs)
      (fun o ho => hops o (List.mem_cons_of_mem _ ho))
      (fetchPaymentRequest_step J db op h2 hs (hops op (List.mem_cons_self _ _)) hnone)

theorem payReqInv_of_reachable (J : JsonCodec) (db : DB) (h : Reachable J db) :
    PayReqInv db := by
  obtain ⟨ops, rfl⟩ := h
  have key : ∀ (ops : List Op) (db : DB), StoreInv db → PayReqInv db →
      PayReqInv (run J db ops) := by
    intro ops
    induction ops with
    | nil => exact fun db _ h => h
    | cons op rest ih =>
      intro db hs hi
      refine ih _ (storeInv_step J db op hs) ?_
      obtain ⟨wt, wi, hsync⟩ := hs.1
      cases op with
      | addAccountPayment p idx t =>
        exact payReqInv_congr _ _
          (addAccountPayment_frame db p idx t wt wi hsync _ (by decide)) hi
      | saveAccount x =>
        exact payReqInv_congr _ _ (saveItem_frame _ _ _ _ _ (by decide)) hi
      | savePaymentRequest hh r => exact payReqInv_savePaymentRequest db hh r hi
      | saveSwapAddressInfo r =>
        exact payReqInv_congr _ _ (saveSwapAddressInfo_frame J _ _ _ (by decide)) hi
      | removeSwapAddress a =>
        exact payReqInv_congr _ _ (removeSwapAddress_frame _ _ _ (by decide)) hi
      | removeSwapAddressByPaymentHash ph =>
        exact payReqInv_congr _ _ (removeSwapAddressByPaymentHash_frame J _ _ _ (by decide)) hi
      | updateSwapAddressInfo a f =>
        exact payReqInv_congr _ _ (updateSwapAddressInfo_frame J _ _ _ _ _ (by decide)) hi
      | reopen => exact payReqInv_congr _ _ (openDB_frame db hs _) hi
      | reset => exact payReqInv_fresh
  exact key ops _ storeInv_fresh payReqInv_fresh

theorem Put_error_of_limits {β : Type} (b : BucketOf β) (key value : Bytes)
    (h : key = [] ∨ MaxKeySize < key.length ∨ MaxValueSize < value.length) :
    ∃ e, b.Put key value = Except.error e := by
  simp only [BucketOf.Put]
  by_cases h1 : key.length = 0
  · exact ⟨_, if_pos h1⟩
  · rw [if_neg h1]
    by_cases h2 : key.length > MaxKeySize
    · exact ⟨_, if_pos h2⟩
    · rw [if_neg h2]
      by_cases h3 : value.length > MaxValueSize
      · exact ⟨_, if_pos h3⟩
      · rcases h with h | h | h
        · exact absurd (by rw [h]; rfl) h1
        · exact absurd h h2
        · exact absurd h h3

/-- C5, as amended. On every store whose payment-request bucket is as `db.go`
leaves it, for every hash `h` and payload `r`: when `savePaymentRequest(h, r)`
returns no error, `fetchPaymentRequest(h)` then returns `r` with no error; a
call that returns an error leaves the store as it was, and the call returns an
error when `h` is empty or longer than `MaxKeySize` or `r` is longer than
`MaxValueSize`; the call does not change what `fetchPaymentRequest` returns
for any other hash; and after any history of calls on a fresh store in which
`h2` was never saved, `fetchPaymentRequest(h2)` returns `nil` with no error. -/
theorem savePaymentRequest_fetchPaymentRequest (J : JsonCodec) (db : DB) (h r : Bytes)
    (hdb : PayReqInv db) :
    ((savePaymentRequest db h r).1 = none →
      fetchPaymentRequest (savePaymentRequest db h r).2 h = (some r, none)) ∧
    ((savePaymentRequest db h r).1 ≠ none → (savePaymentRequest db h r).2 = db) ∧
    (h = [] ∨ MaxKeySize < h.length ∨ MaxValueSize < r.length →
      (savePaymentRequest db h r).1 ≠ none) ∧
    (∀ h2, h2 ≠ h →
      fetchPaymentRequest (savePaymentRequest db h r).2 h2 = fetchPaymentRequest db h2) ∧
    (∀ (ops : List Op) (h2 : Bytes), (∀ op ∈ ops, savesHash h2 op = false) →
      fetchPaymentRequest (run J freshDB ops) h2 = (none, none)) := by
  obtain ⟨b, hb, hflat⟩ := hdb
  refine ⟨?_, ?_, ?_, fun h2 hne => savePaymentRequest_other db h r h2 hne, ?_⟩
  · intro hok
    rcases savePaymentRequest_cases db b h r hb with ⟨e, he⟩ | he
    · rw [he] at hok
      exact Option.noConfusion hok
    · rw [he, fetchPaymentRequest, fetchItem_eq _ _ _ _ (Bucket_setBucket_same _ _ _),
        Get_putValue_same]
  · intro herr
    rcases savePaymentRequest_cases db b h r hb with ⟨e, he⟩ | he
    · rw [he]
    · rw [he] at herr
      exact absurd rfl herr
  · intro hlim
    obtain ⟨e, he⟩ := Put_error_of_limits b h r hlim
    rw [savePaymentRequest, saveItem_eq _ _ _ _ b hb, he]
    exact fun hc => Option.noConfusion hc
  · intro ops h2 hops
    exact fetchPaymentRequest_run J h2 ops freshDB storeInv_fresh hops
      (fetchPaymentRequest_fresh h2)

/-- C5 on the store reached by saving a request under `"h1"`: saving under
`"h1"` again (the call returns no error) and reading it, reading the other
hash `"h2"`, and reading `"h2"` after a history that never saved it. -/
theorem savePaymentRequest_fetchPaymentRequest_witness :
    PayReqInv (savePaymentRequest freshDB [104, 49] [7]).2 ∧
    (savePaymentRequest (savePaymentRequest freshDB [104, 49] [7]).2 [104, 49] [8, 9]).1 =
      none ∧
    fetchPaymentRequest
        (savePaymentRequest (savePaymentRequest freshDB [104, 49] [7]).2 [104, 49] [8, 9]).2
        [104, 49] = (some [8, 9], none) ∧
    fetchPaymentRequest
        (savePaymentRequest (savePaymentRequest freshDB [104, 49] [7]).2 [104, 49] [8, 9]).2
        [104, 50] =
      fetchPaymentRequest (savePaymentRequest freshDB [104, 49] [7]).2 [104, 50] ∧
    fetchPaymentRequest
        (run ⟨fun _ => none, fun _ => none⟩ freshDB
          [Op.savePaymentRequest [104, 49] [7], Op.saveAccount [1]]) [104, 50] =
      (none, none) :=
  ⟨payReqInv_savePaymentRequest freshDB _ _ payReqInv_fresh, by decide,
    (savePaymentRequest_fetchPaymentRequest ⟨fun _ => none, fun _ => none⟩
      (savePaymentRequest freshDB [104, 49] [7]).2 [104, 49] [8, 9]
      (payReqInv_savePaymentRequest freshDB _ _ payReqInv_fresh)).1 (by decide),
    (savePaymentRequest_fetchPaymentRequest ⟨fun _ => none, fun _ => none⟩
      (savePaymentRequest freshDB [104, 49] [7]).2 [104, 49] [8, 9]
      (payReqInv_savePaymentRequest freshDB _ _ payReqInv_fresh)).2.2.2.1 [104, 50]
      (by decide),
    (savePaymentRequest_fetchPaymentRequest ⟨fun _ => none, fun _ => none⟩
      (savePaymentRequest freshDB [104, 49] [7]).2 [104, 49] [8, 9]
      (payReqInv_savePaymentRequest freshDB _ _ payReqInv_fresh)).2.2.2.2
      [Op.savePaymentRequest [104, 49] [7], Op.saveAccount [1]] [104, 50]
      (by simp [savesHash])⟩

/-- C5 fails as stated. On a fresh store `savePaymentRequest` with a non-empty
hash of 32769 bytes returns `ErrKeyTooLarge` and stores nothing, and with a
payload of 2^31 - 1 bytes it returns `ErrValueTooLarge` and stores nothing: in
both cases `fetchPaymentRequest` of that hash returns `nil`, not the payload. -/
theorem savePaymentRequest_too_large_not_fetched :
    List.replicate 32769 (0 : Byte) ≠ [] ∧
    savePaymentRequest freshDB (List.replicate 32769 0) [7] =
      (some DbError.ErrKeyTooLarge, freshDB) ∧
    fetchPaymentRequest (savePaymentRequest freshDB (List.replicate 32769 0) [7]).2
      (List.replicate 32769 0) = (none, none) ∧
    savePaymentRequest freshDB [104, 49] (List.replicate 2147483647 0) =
      (some DbError.ErrValueTooLarge, freshDB) ∧
    fetchPaymentRequest
      (savePaymentRequest freshDB [104, 49] (List.replicate 2147483647 0)).2 [104, 49] =
      (none, none) := by
  have hlen : (List.replicate 32769 (0 : Byte)).length = 32769 := List.length_replicate _ _
  have h1 : savePaymentRequest freshDB (List.replicate 32769 0) [7] =
      (some DbError.ErrKeyTooLarge, freshDB) := by
    rw [savePaymentRequest, saveItem_eq freshDB _ _ _ emptyBucket (by decide),
      Put_key_too_large _ _ _ (by rw [hlen]; decide) (by rw [hlen]; decide)]
  have h2 : savePaymentRequest freshDB [104, 49] (List.replicate 2147483647 0) =
      (some DbError.ErrValueTooLarge, freshDB) := by
    rw [savePaymentRequest, saveItem_eq freshDB _ _ _ emptyBucket (by decide)]
    have : (emptyBucket : Bucket).Put [104, 49] (List.replicate 2147483647 0) =
        Except.error DbError.ErrValueTooLarge := by
      have hl : (List.replicate 2147483647 (0 : Byte)).length = 2147483647 :=
        List.length_replicate _ _
      simp only [BucketOf.Put, hl]
      decide
    rw [this]
  refine ⟨?_, h1, ?_, h2, ?_⟩
  · intro e
    have := congrArg List.length e
    rw [hlen] at this
    exact absurd this (by decide)
  · rw [h1]
    exact fetchPaymentRequest_fresh _
  · rw [h2]
    exact fetchPaymentRequest_fresh _

/-! ## A concrete codec -/

theorem decodeField_encodeField (f tail : Bytes) :
    decodeField (encodeField f ++ tail) = some (f, tail) := by
  induction f with
  | nil =>
    cases tail with
    | nil => simp [encodeField, decodeField]
    | cons y ys => simp [encodeField, decodeField]
  | cons x rest ih =>
    show (if (1 : Byte) = 0 then some ([], x :: (encodeField rest ++ tail))
      else
        match decodeField (encodeField rest ++ tail) with
        | some (f, tail) => some (x :: f, tail)
        | none => none) = some (x :: rest, tail)
    rw [ih, if_neg (by decide)]

theorem plainCodec_roundtrip (r : swapAddressInfo) (bytes : Bytes)
    (h : plainCodec.Marshal r = some bytes) : plainCodec.Unmarshal bytes = some r := by
  simp only [plainCodec, Option.some.injEq] at h
  subst h
  simp only [plainCodec, decodeField_encodeField]
  have := decodeField_encodeField r.Rest []
  rw [List.append_nil] at this
  rw [this]

theorem plainCodec_empty : plainCodec.Unmarshal [] = none := rfl

/-! ## The swap-address registry -/

theorem cursor_cons_value {β : Type} (k v : Bytes) (l : List (Bytes × Entry β)) (s : Uint64) :
    (BucketOf.cursor ⟨(k, Entry.value v) :: l, s⟩) = (k, some v) :: BucketOf.cursor ⟨l, s⟩ := rfl

theorem cursor_cons_bucket {β : Type} (k : Bytes) (nb : β) (l : List (Bytes × Entry β))
    (s : Uint64) :
    (BucketOf.cursor ⟨(k, Entry.bucket nb) :: l, s⟩) = (k, none) :: BucketOf.cursor ⟨l, s⟩ := rfl

/-- The scan of `fetchSwapAddresses` when every visited entry decodes. -/
theorem fetch_forEach_ok (J : JsonCodec) (p : swapAddressInfo → Bool)
    (l : List (Bytes × Entry SubBucket)) (s : Uint64) :
    ∀ acc : List swapAddressInfo, (∀ e ∈ l, (decodeEntry J e).isSome) →
      ForEach (fetchSwapAddressesFn J p) (BucketOf.cursor ⟨l, s⟩) acc =
        (acc ++ (l.filterMap (decodeEntry J)).filter p, none) := by
  induction l with
  | nil => intro acc _; simp [BucketOf.cursor, ForEach]
  | cons e rest ih =>
    intro acc h
    obtain ⟨k, e⟩ := e
    have he := h (k, e) (List.mem_cons_self _ _)
    have hrest : ∀ e ∈ rest, (decodeEntry J e).isSome :=
      fun e' he' => h e' (List.mem_cons_of_mem _ he')
    cases e with
    | value v =>
      rw [cursor_cons_value]
      simp only [decodeEntry] at he
      obtain ⟨r, hr⟩ := Option.isSome_iff_exists.mp he
      simp only [ForEach, fetchSwapAddressesFn, bytesOf, Option.getD_some, hr]
      by_cases hp : p r
      · simp only [hp, if_true]
        rw [ih _ hrest]
        simp [List.filterMap_cons, decodeEntry, hr, List.filter_cons, hp]
      · simp only [hp, Bool.false_eq_true, if_false]
        rw [ih _ hrest]
        simp [List.filterMap_cons, decodeEntry, hr, List.filter_cons, hp]
    | bucket nb =>
      rw [cursor_cons_bucket]
      simp only [decodeEntry] at he
      obtain ⟨r, hr⟩ := Option.isSome_iff_exists.mp he
      simp only [ForEach, fetchSwapAddressesFn, bytesOf, Option.getD_none, hr]
      by_cases hp : p r
      · simp only [hp, if_true]
        rw [ih _ hrest]
        simp [List.filterMap_cons, decodeEntry, hr, List.filter_cons, hp]
      · simp only [hp, Bool.false_eq_true, if_false]
        rw [ih _ hrest]
        simp [List.filterMap_cons, decodeEntry, hr, List.filter_cons, hp]

theorem fetchSwapAddresses_eq (J : JsonCodec) (db : DB) (p : swapAddressInfo → Bool) (b : Bucket)
    (hb : db.Bucket addressesBucket = some b) :
    fetchSwapAddresses J db p = ((ForEach (fetchSwapAddressesFn J p) b.cursor []).1, none) := by
  simp [fetchSwapAddresses, dbView, hb, deref]

theorem decodeEntry_isSome_of_wf (J : JsonCodec) (b : Bucket) (h : RegistryWF J b) :
    ∀ e ∈ b.entries, (decodeEntry J e).isSome := by
  intro e he
  obtain ⟨k, e⟩ := e
  cases e with
  | value v =>
    obtain ⟨r, hr, _⟩ := h.2.2 k v he
    simp [decodeEntry, hr]
  | bucket nb => exact absurd he (h.2.1 k nb)

theorem fetchAllSwapAddresses_of_wf (J : JsonCodec) (db : DB) (b : Bucket)
    (hb : db.Bucket addressesBucket = some b) (h : RegistryWF J b) :
    fetchAllSwapAddresses J db = (b.entries.filterMap (decodeEntry J), none) := by
  rw [fetchAllSwapAddresses, fetchSwapAddresses_eq J db _ b hb]
  obtain ⟨l, s⟩ := b
  rw [fetch_forEach_ok J _ l s [] (decodeEntry_isSome_of_wf J ⟨l, s⟩ h)]
  simp

theorem kvGet_append {α : Type} (k : Bytes) (pre l : List (Bytes × α))
    (h : ∀ e ∈ pre, e.1 ≠ k) : kvGet k (pre ++ l) = kvGet k l := by
  induction pre with
  | nil => rfl
  | cons e rest ih =>
    obtain ⟨k₁, v₁⟩ := e
    have h1 : k₁ ≠ k := h (k₁, v₁) (List.mem_cons_self _ _)
    show kvGet k ((k₁, v₁) :: (rest ++ l)) = _
    simp only [kvGet, h1, if_false]
    exact ih fun e he => h e (List.mem_cons_of_mem _ he)

theorem kvDel_append {α : Type} (k : Bytes) (pre l : List (Bytes × α))
    (h : ∀ e ∈ pre, e.1 ≠ k) : kvDel k (pre ++ l) = pre ++ kvDel k l := by
  induction pre with
  | nil => rfl
  | cons e rest ih =>
    obtain ⟨k₁, v₁⟩ := e
    have h1 : k₁ ≠ k := h (k₁, v₁) (List.mem_cons_self _ _)
    show kvDel k ((k₁, v₁) :: (rest ++ l)) = _
    simp only [kvDel, h1, if_false, List.cons_append]
    rw [ih fun e he => h e (List.mem_cons_of_mem _ he)]

theorem keys_ne_of_sorted {α : Type} (pre rest : List (Bytes × α)) (k : Bytes) (v : α)
    (h : KeysSorted (pre ++ (k, v) :: rest)) : ∀ e ∈ pre, e.1 ≠ k := by
  intro e he
  rw [KeysSorted, List.pairwise_append] at h
  exact bytesLess_ne _ _ (h.2.2 e he (k, v) (List.mem_cons_self _ _))

theorem keysSorted_drop_middle {α : Type} (pre rest : List (Bytes × α)) (e : Bytes × α)
    (h : KeysSorted (pre ++ e :: rest)) : KeysSorted (pre ++ rest) := by
  rw [KeysSorted, List.pairwise_append] at h ⊢
  exact ⟨h.1, (List.pairwise_cons.mp h.2.1).2,
    fun a ha b hb => h.2.2 a ha b (List.mem_cons_of_mem _ hb)⟩

/-- The scan of `removeSwapAddressByPaymentHash` over entries that all decode:
every visited entry whose record has the hash is deleted, the scan goes on to
the end, and no error is returned. -/
theorem remove_forEach_ok (J : JsonCodec) (pHash : Bytes) (s : Uint64)
    (rest : List (Bytes × Entry SubBucket)) :
    ∀ (pre : List (Bytes × Entry SubBucket)) (found : Bool),
      KeysSorted (pre ++ rest) →
      (∀ e ∈ rest, ∃ v r, e.2 = Entry.value v ∧ J.Unmarshal v = some r) →
      ForEach (removeByPaymentHashFn J pHash) (BucketOf.cursor ⟨rest, s⟩)
          (found, ⟨pre ++ rest, s⟩) =
        ((found || rest.any (hasPaymentHash J pHash),
          ⟨pre ++ rest.filter (fun e => !hasPaymentHash J pHash e), s⟩), none) := by
  induction rest with
  | nil => intro pre found _ _; simp [BucketOf.cursor, ForEach]
  | cons e rest ih =>
    intro pre found hs hd
    obtain ⟨k, e⟩ := e
    obtain ⟨v, r, hv, hr⟩ := hd (k, e) (List.mem_cons_self _ _)
    simp only at hv
    subst hv
    have hrest : ∀ e ∈ rest, ∃ v r, e.2 = Entry.value v ∧ J.Unmarshal v = some r :=
      fun e' he' => hd e' (List.mem_cons_of_mem _ he')
    have hne := keys_ne_of_sorted pre rest k (Entry.value v) hs
    rw [cursor_cons_value]
    by_cases hh : r.PaymentHash = pHash
    · have hm : hasPaymentHash J pHash (k, Entry.value v) = true := by
        simp [hasPaymentHash, decodeEntry, hr, hh]
      have hdel : (⟨pre ++ (k, Entry.value v) :: rest, s⟩ : Bucket).Delete k =
          Except.ok ⟨pre ++ rest, s⟩ := by
        simp only [BucketOf.Delete, kvGet_append k pre _ hne, kvGet, if_true,
          kvDel_append k pre _ hne, kvDel]
      simp only [ForEach, removeByPaymentHashFn, deserializeSwapAddressInfo, bytesOf,
        Option.getD_some, hr, hh, if_true, hdel]
      rw [ih pre true (keysSorted_drop_middle pre rest _ hs) hrest]
      simp [List.any_cons, hm, List.filter_cons]
    · have hm : hasPaymentHash J pHash (k, Entry.value v) = false := by
        simp [hasPaymentHash, decodeEntry, hr, hh]
      simp only [ForEach, removeByPaymentHashFn, deserializeSwapAddressInfo, bytesOf,
        Option.getD_some, hr, hh, if_false]
      have e1 : pre ++ (k, Entry.value v) :: rest = (pre ++ [(k, Entry.value v)]) ++ rest := by
        simp
      rw [e1, ih (pre ++ [(k, Entry.value v)]) found (by rw [← e1]; exact hs) hrest]
      simp [List.any_cons, hm, List.filter_cons]

theorem removeSwapAddressByPaymentHash_of_wf (J : JsonCodec) (db : DB) (pHash : Bytes)
    (b : Bucket) (hb : db.Bucket addressesBucket = some b) (h : RegistryWF J b) :
    removeSwapAddressByPaymentHash J db pHash =
      (b.entries.any (hasPaymentHash J pHash), none,
        db.setBucket addressesBucket
          ⟨b.entries.filter (fun e => !hasPaymentHash J pHash e), b.sequence⟩) := by
  rw [removeSwapAddressByPaymentHash_eq J db pHash b hb]
  obtain ⟨l, s⟩ := b
  have hd : ∀ e ∈ l, ∃ v r, e.2 = Entry.value v ∧ J.Unmarshal v = some r := by
    intro e he
    obtain ⟨k, e⟩ := e
    cases e with
    | value v =>
      obtain ⟨r, hr, _⟩ := h.2.2 k v he
      exact ⟨v, r, rfl, hr⟩
    | bucket nb => exact absurd he (h.2.1 k nb)
  have := remove_forEach_ok J pHash s l [] false (by simpa using h.1) hd
  simp only [List.nil_append, Bool.false_or] at this
  rw [this]

theorem registryWF_filter (J : JsonCodec) (b : Bucket) (p : Bytes × Entry SubBucket → Bool)
    (h : RegistryWF J b) : RegistryWF J ⟨b.entries.filter p, b.sequence⟩ := by
  refine ⟨List.Pairwise.sublist (List.filter_sublist _) h.1, ?_, ?_⟩
  · exact fun k nb hm => h.2.1 k nb (List.mem_of_mem_filter hm)
  · exact fun k v hm => h.2.2 k v (List.mem_of_mem_filter hm)

/-! ## Saving and removing a swap address -/

theorem registryInv_fresh (J : JsonCodec) : RegistryInv J freshDB :=
  ⟨emptyBucket, by decide, by simp [emptyBucket, KeysSorted], by simp [emptyBucket],
    by simp [emptyBucket]⟩

theorem saveSwapAddressInfo_cases (J : JsonCodec) (db : DB) (r : swapAddressInfo) (b : Bucket)
    (hb : db.Bucket addressesBucket = some b) :
    (∃ e, saveSwapAddressInfo J db r = (some e, db)) ∨
    (∃ bytes, J.Marshal r = some bytes ∧ r.Address ≠ [] ∧
      saveSwapAddressInfo J db r =
        (none, db.setBucket addressesBucket (putValue b r.Address bytes))) := by
  simp only [saveSwapAddressInfo, serializeSwapAddressInfo]
  cases hm : J.Marshal r with
  | none => exact Or.inl ⟨_, rfl⟩
  | some bytes =>
    simp only
    rw [saveItem_eq _ _ _ _ b hb]
    cases hp : b.Put r.Address bytes with
    | error e => exact Or.inl ⟨e, rfl⟩
    | ok b' =>
      rw [Put_ok_form b b' _ _ hp]
      refine Or.inr ⟨bytes, rfl, ?_, rfl⟩
      intro he
      rw [he, Put_key_required] at hp
      exact absurd hp (by simp)

theorem registryWF_putValue (J : JsonCodec) (b : Bucket) (r : swapAddressInfo) (bytes : Bytes)
    (h : RegistryWF J b) (hr : J.Unmarshal bytes = some r) :
    RegistryWF J (putValue b r.Address bytes) := by
  refine ⟨keysSorted_kvPut _ _ _ h.1, ?_, ?_⟩
  · intro k nb hm
    rcases mem_kvPut _ _ _ _ hm with hm | hm
    · simp at hm
    · exact h.2.1 k nb hm
  · intro k v hm
    rcases mem_kvPut _ _ _ _ hm with hm | hm
    · simp only [Prod.mk.injEq, Entry.value.injEq] at hm
      exact ⟨r, by rw [hm.2]; exact hr, hm.1.symm⟩
    · exact h.2.2 k v hm

theorem registryInv_saveSwapAddressInfo (J : JsonCodec) (db : DB) (r : swapAddressInfo)
    (h : RegistryInv J db)
    (hrt : ∀ bytes, J.Marshal r = some bytes → J.Unmarshal bytes = some r) :
    RegistryInv J (saveSwapAddressInfo J db r).2 := by
  obtain ⟨b, hb, hwf⟩ := h
  rcases saveSwapAddressInfo_cases J db r b hb with ⟨e, he⟩ | ⟨bytes, hm, _, he⟩
  · rw [he]
    exact ⟨b, hb, hwf⟩
  · rw [he]
    exact ⟨_, Bucket_setBucket_same _ _ _, registryWF_putValue J b r bytes hwf (hrt bytes hm)⟩

/-- In a well-formed registry the records with address `a` are exactly the one
stored under the key `a`. -/
theorem filter_address (J : JsonCodec) (a v : Bytes) (r : swapAddressInfo)
    (l : List (Bytes × Entry SubBucket)) (hs : KeysSorted l)
    (hflat : ∀ k nb, (k, Entry.bucket nb) ∉ l)
    (hd : ∀ k v, (k, Entry.value v) ∈ l → ∃ r, J.Unmarshal v = some r ∧ r.Address = k)
    (hg : kvGet a l = some (Entry.value v)) (hr : J.Unmarshal v = some r) :
    (l.filterMap (decodeEntry J)).filter (fun x => x.Address = a) = [r] := by
  induction l with
  | nil => simp [kvGet] at hg
  | cons e rest ih =>
    obtain ⟨k, e⟩ := e
    have hs' := hs
    rw [KeysSorted, List.pairwise_cons] at hs
    cases e with
    | bucket nb => exact absurd (List.mem_cons_self _ _) (hflat k nb)
    | value w =>
      obtain ⟨r', hr', ha'⟩ := hd k w (List.mem_cons_self _ _)
      by_cases hk : k = a
      · subst hk
        simp only [kvGet, if_true, Option.some.injEq, Entry.value.injEq] at hg
        subst hg
        rw [hr] at hr'
        simp only [Option.some.injEq] at hr'
        subst hr'
        have hnil : (rest.filterMap (decodeEntry J)).filter (fun x => x.Address = k) = [] := by
          rw [List.filter_eq_nil_iff]
          intro x hx
          obtain ⟨e, he, hxe⟩ := List.mem_filterMap.mp hx
          obtain ⟨k₂, e₂⟩ := e
          cases e₂ with
          | bucket nb => exact absurd (List.mem_cons_of_mem _ he) (hflat k₂ nb)
          | value w₂ =>
            obtain ⟨r₂, hr₂, ha₂⟩ := hd k₂ w₂ (List.mem_cons_of_mem _ he)
            simp only [decodeEntry, hr₂, Option.some.injEq] at hxe
            subst hxe
            have := bytesLess_ne _ _ (hs.1 _ he)
            simp only at this
            simp only [decide_eq_true_eq]
            rw [ha₂]
            exact fun e => this e.symm
        simp [List.filterMap_cons, decodeEntry, hr, List.filter_cons, ha', hnil]
      · simp only [kvGet, hk, if_false] at hg
        have := ih hs.2 (fun k nb hm => hflat k nb (List.mem_cons_of_mem _ hm))
          (fun k v hm => hd k v (List.mem_cons_of_mem _ hm)) hg
        have hne : ¬ r'.Address = a := by rw [ha']; exact hk
        simp [List.filterMap_cons, decodeEntry, hr', List.filter_cons, hne, this]

theorem hasPaymentHash_value (J : JsonCodec) (k v : Bytes) (r : swapAddressInfo)
    (hr : J.Unmarshal v = some r) :
    hasPaymentHash J r.PaymentHash (k, Entry.value v) = true := by
  simp [hasPaymentHash, decodeEntry, hr]

/-- C6, as amended. For every record `r` (address `a`, payment hash `h`) that
decodes from its own serialization and every store with a well-formed
registry: after a successful `saveSwapAddressInfo(r)` (store `db1`),
`fetchAllSwapAddresses()` returns no error and exactly one record whose
`Address` is `a`, namely `r`; `removeSwapAddressByPaymentHash(h)` then returns
`(found = true, no error)`; in the store `db2` it leaves,
`fetchAllSwapAddresses()` returns no error and no record with `Address` `a`;
calling `removeSwapAddressByPaymentHash(h)` again returns `(found = false, no
error)`. -/
theorem saveSwapAddressInfo_then_remove (J : JsonCodec) (db db1 : DB) (r : swapAddressInfo)
    (hdb : RegistryInv J db)
    (hrt : ∀ bytes, J.Marshal r = some bytes → J.Unmarshal bytes = some r)
    (hsave : saveSwapAddressInfo J db r = (none, db1)) :
    (fetchAllSwapAddresses J db1).2 = none ∧
    (fetchAllSwapAddresses J db1).1.filter (fun x => x.Address = r.Address) = [r] ∧
    (removeSwapAddressByPaymentHash J db1 r.PaymentHash).1 = true ∧
    (removeSwapAddressByPaymentHash J db1 r.PaymentHash).2.1 = none ∧
    (fetchAllSwapAddresses J (removeSwapAddressByPaymentHash J db1 r.PaymentHash).2.2).2 =
      none ∧
    (∀ x ∈ (fetchAllSwapAddresses J
        (removeSwapAddressByPaymentHash J db1 r.PaymentHash).2.2).1, x.Address ≠ r.Address) ∧
    (removeSwapAddressByPaymentHash J
      (removeSwapAddressByPaymentHash J db1 r.PaymentHash).2.2 r.PaymentHash).1 = false ∧
    (removeSwapAddressByPaymentHash J
      (removeSwapAddressByPaymentHash J db1 r.PaymentHash).2.2 r.PaymentHash).2.1 = none := by
  obtain ⟨b, hb, hwf⟩ := hdb
  rcases saveSwapAddressInfo_cases J db r b hb with ⟨e, he⟩ | ⟨bytes, hm, _, he⟩
  · rw [he] at hsave
    simp at hsave
  rw [he] at hsave
  simp only [Prod.mk.injEq, true_and] at hsave
  subst hsave
  have hr := hrt bytes hm
  have hb1 : (db.setBucket addressesBucket (putValue b r.Address bytes)).Bucket addressesBucket =
      some (putValue b r.Address bytes) := Bucket_setBucket_same _ _ _
  have hwf1 := registryWF_putValue J b r bytes hwf hr
  have hg1 : kvGet r.Address (putValue b r.Address bytes).entries =
      some (Entry.value bytes) := kvGet_kvPut_same _ _ _
  have hmem1 : (r.Address, Entry.value bytes) ∈ (putValue b r.Address bytes).entries :=
    mem_of_kvGet _ _ _ hg1
  rw [fetchAllSwapAddresses_of_wf J _ _ hb1 hwf1,
    removeSwapAddressByPaymentHash_of_wf J _ _ _ hb1 hwf1]
  simp only
  have hwf2 := registryWF_filter J (putValue b r.Address bytes)
    (fun e => !hasPaymentHash J r.PaymentHash e) hwf1
  rw [fetchAllSwapAddresses_of_wf J _ _ (Bucket_setBucket_same _ _ _) hwf2,
    removeSwapAddressByPaymentHash_of_wf J _ _ _ (Bucket_setBucket_same _ _ _) hwf2]
  simp only
  refine ⟨trivial, filter_address J _ bytes r _ hwf1.1 hwf1.2.1 hwf1.2.2 hg1 hr, ?_, trivial,
    trivial, ?_, ?_, trivial⟩
  · exact List.any_eq_true.mpr ⟨_, hmem1, hasPaymentHash_value J _ _ r hr⟩
  · intro x hx hxa
    obtain ⟨e, he, hxe⟩ := List.mem_filterMap.mp hx
    obtain ⟨hmem, hnot⟩ := List.mem_filter.mp he
    obtain ⟨k, e⟩ := e
    cases e with
    | bucket nb => exact absurd hmem (hwf1.2.1 k nb)
    | value w =>
      obtain ⟨r', hr', ha'⟩ := hwf1.2.2 k w hmem
      simp only [decodeEntry, hr', Option.some.injEq] at hxe
      subst hxe
      rw [ha'] at hxa
      subst hxa
      have := kvGet_of_mem _ _ _ hwf1.1 hmem
      rw [hg1] at this
      simp only [Option.some.injEq, Entry.value.injEq] at this
      subst this
      rw [hr] at hr'
      simp only [Option.some.injEq] at hr'
      subst hr'
      rw [hasPaymentHash_value J _ _ r hr] at hnot
      simp at hnot
  · rw [Bool.eq_false_iff]
    intro hany
    obtain ⟨e, he, hhas⟩ := List.any_eq_true.mp hany
    obtain ⟨_, hnot⟩ := List.mem_filter.mp he
    rw [hhas] at hnot
    simp at hnot

/-- C6 with `plainCodec`, on the store holding a record under `"b"`, for the
record with address `"a"` and payment hash `[1]`. -/
theorem saveSwapAddressInfo_then_remove_witness :
    RegistryInv plainCodec (saveSwapAddressInfo plainCodec freshDB ⟨[98], [2], []⟩).2 ∧
    (∀ bytes, plainCodec.Marshal ⟨[97], [1], []⟩ = some bytes →
      plainCodec.Unmarshal bytes = some ⟨[97], [1], []⟩) ∧
    saveSwapAddressInfo plainCodec (saveSwapAddressInfo plainCodec freshDB ⟨[98], [2], []⟩).2
      ⟨[97], [1], []⟩ =
      (none, (saveSwapAddressInfo plainCodec
        (saveSwapAddressInfo plainCodec freshDB ⟨[98], [2], []⟩).2 ⟨[97], [1], []⟩).2) ∧
    (fetchAllSwapAddresses plainCodec (saveSwapAddressInfo plainCodec
        (saveSwapAddressInfo plainCodec freshDB ⟨[98], [2], []⟩).2 ⟨[97], [1], []⟩).2).1.filter
      (fun x => x.Address = [97]) = [⟨[97], [1], []⟩] ∧
    (removeSwapAddressByPaymentHash plainCodec (saveSwapAddressInfo plainCodec
        (saveSwapAddressInfo plainCodec freshDB ⟨[98], [2], []⟩).2 ⟨[97], [1], []⟩).2 [1]).1 =
      true :=
  ⟨registryInv_saveSwapAddressInfo plainCodec freshDB _ (registryInv_fresh plainCodec)
      (plainCodec_roundtrip _),
    plainCodec_roundtrip _, by decide,
    (saveSwapAddressInfo_then_remove plainCodec
      (saveSwapAddressInfo plainCodec freshDB ⟨[98], [2], []⟩).2 _ ⟨[97], [1], []⟩
      (registryInv_saveSwapAddressInfo plainCodec freshDB _ (registryInv_fresh plainCodec)
        (plainCodec_roundtrip _))
      (plainCodec_roundtrip _) (by decide)).2.1,
    (saveSwapAddressInfo_then_remove plainCodec
      (saveSwapAddressInfo plainCodec freshDB ⟨[98], [2], []⟩).2 _ ⟨[97], [1], []⟩
      (registryInv_saveSwapAddressInfo plainCodec freshDB _ (registryInv_fresh plainCodec)
        (plainCodec_roundtrip _))
      (plainCodec_roundtrip _) (by decide)).2.2.1⟩

/-- C6 fails as stated. For the record with the empty address (payment hash
`[1]`) on a fresh store, `saveSwapAddressInfo` returns `ErrKeyRequired` and
stores nothing: `fetchAllSwapAddresses()` then holds no record with that
address, and `removeSwapAddressByPaymentHash([1])` returns `found = false`.
Whatever the codec, this save does not succeed. -/
theorem saveSwapAddressInfo_empty_address :
    saveSwapAddressInfo plainCodec freshDB ⟨[], [1], []⟩ =
      (some DbError.ErrKeyRequired, freshDB) ∧
    (fetchAllSwapAddresses plainCodec
        (saveSwapAddressInfo plainCodec freshDB ⟨[], [1], []⟩).2).1.filter
      (fun x => x.Address = []) = [] ∧
    (removeSwapAddressByPaymentHash plainCodec
      (saveSwapAddressInfo plainCodec freshDB ⟨[], [1], []⟩).2 [1]).1 = false ∧
    ¬ ∃ J : JsonCodec, (saveSwapAddressInfo J freshDB ⟨[], [1], []⟩).1 = none := by
  refine ⟨by decide, by decide, by decide, ?_⟩
  rintro ⟨J, hJ⟩
  rcases saveSwapAddressInfo_cases J freshDB ⟨[], [1], []⟩ emptyBucket (by decide) with
    ⟨e, he⟩ | ⟨bytes, _, hne, _⟩
  · rw [he] at hJ
    simp at hJ
  · exact hne rfl

/-! ## Scan errors and removal by payment hash -/

/-- C7 fails on the code. On a store whose registry holds a value that does
not deserialize, `fetchSwapAddresses` returns a `nil` error for every
predicate, and so does `fetchAllSwapAddresses`: the error of the scan is
dropped. `removeSwapAddressByPaymentHash`, which returns the result of its
scan, reports the error on the same store. -/
theorem fetchSwapAddresses_drops_error (p : swapAddressInfo → Bool) :
    plainCodec.Unmarshal [120] = none ∧
    fetchSwapAddresses plainCodec undecodableDB p = ([], none) ∧
    fetchAllSwapAddresses plainCodec undecodableDB = ([], none) ∧
    removeSwapAddressByPaymentHash plainCodec undecodableDB [1] =
      (false, some DbError.jsonError, undecodableDB) := by
  refine ⟨by decide, ?_, by decide, by decide⟩
  rw [fetchSwapAddresses_eq plainCodec undecodableDB p
    ⟨[([97], Entry.value [120])], 0⟩ (by decide)]
  rfl

/-- Whatever the registry holds, `fetchSwapAddresses` returns a `nil` error. -/
theorem fetchSwapAddresses_error_nil (J : JsonCodec) (db : DB) (p : swapAddressInfo → Bool)
    (b : Bucket) (hb : db.Bucket addressesBucket = some b) :
    (fetchSwapAddresses J db p).2 = none := by
  rw [fetchSwapAddresses_eq J db p b hb]

theorem registryEntries_setBucket (db : DB) (b : Bucket) :
    registryEntries (db.setBucket addressesBucket b) = b.entries := by
  simp only [registryEntries, Bucket_setBucket_same]

/-- C8, as amended. On every store with a well-formed registry,
`removeSwapAddressByPaymentHash(h)` returns no error, reports whether some
record has payment hash `h`, and removes every such record: the registry
afterwards is the registry before without the entries whose record has payment
hash `h`, all other entries unchanged and in the same order. -/
theorem removeSwapAddressByPaymentHash_removes_all (J : JsonCodec) (db : DB) (pHash : Bytes)
    (hdb : RegistryInv J db) :
    (removeSwapAddressByPaymentHash J db pHash).2.1 = none ∧
    (removeSwapAddressByPaymentHash J db pHash).1 =
      (registryEntries db).any (hasPaymentHash J pHash) ∧
    registryEntries (removeSwapAddressByPaymentHash J db pHash).2.2 =
      (registryEntries db).filter (fun e => !hasPaymentHash J pHash e) ∧
    (∀ e ∈ registryEntries (removeSwapAddressByPaymentHash J db pHash).2.2,
      hasPaymentHash J pHash e = false) := by
  obtain ⟨b, hb, hwf⟩ := hdb
  rw [removeSwapAddressByPaymentHash_of_wf J db pHash b hb hwf]
  simp only [registryEntries_setBucket]
  have hre : registryEntries db = b.entries := by simp only [registryEntries, hb]
  rw [hre]
  refine ⟨trivial, rfl, rfl, ?_⟩
  intro e he
  have := (List.mem_filter.mp he).2
  simpa using this

/-- C8 on the store with records `"a"`, `"b"` (payment hash `[1]`) and `"c"`
(payment hash `[2]`). -/
theorem removeSwapAddressByPaymentHash_removes_all_witness :
    RegistryInv plainCodec duplicateHashDB ∧
    ((removeSwapAddressByPaymentHash plainCodec duplicateHashDB [1]).2.1 = none ∧
    (removeSwapAddressByPaymentHash plainCodec duplicateHashDB [1]).1 =
      (registryEntries duplicateHashDB).any (hasPaymentHash plainCodec [1]) ∧
    registryEntries (removeSwapAddressByPaymentHash plainCodec duplicateHashDB [1]).2.2 =
      (registryEntries duplicateHashDB).filter (fun e => !hasPaymentHash plainCodec [1] e) ∧
    (∀ e ∈ registryEntries (removeSwapAddressByPaymentHash plainCodec duplicateHashDB [1]).2.2,
      hasPaymentHash plainCodec [1] e = false)) :=
  ⟨registryInv_saveSwapAddressInfo plainCodec _ _
      (registryInv_saveSwapAddressInfo plainCodec _ _
        (registryInv_saveSwapAddressInfo plainCodec freshDB _ (registryInv_fresh plainCodec)
          (plainCodec_roundtrip _)) (plainCodec_roundtrip _)) (plainCodec_roundtrip _),
    removeSwapAddressByPaymentHash_removes_all plainCodec duplicateHashDB [1]
      (registryInv_saveSwapAddressInfo plainCodec _ _
        (registryInv_saveSwapAddressInfo plainCodec _ _
          (registryInv_saveSwapAddressInfo plainCodec freshDB _ (registryInv_fresh plainCodec)
            (plainCodec_roundtrip _)) (plainCodec_roundtrip _)) (plainCodec_roundtrip _))⟩

/-- C8 fails as stated. With two records of payment hash `[1]` in the registry
(and one of payment hash `[2]`), a successful
`removeSwapAddressByPaymentHash([1])` deletes both: only the record `"c"` is
left. -/
theorem removeSwapAddressByPaymentHash_not_first_only :
    fetchAllSwapAddresses plainCodec duplicateHashDB =
      ([⟨[97], [1], []⟩, ⟨[98], [1], []⟩, ⟨[99], [2], []⟩], none) ∧
    (removeSwapAddressByPaymentHash plainCodec duplicateHashDB [1]).1 = true ∧
    (removeSwapAddressByPaymentHash plainCodec duplicateHashDB [1]).2.1 = none ∧
    fetchAllSwapAddresses plainCodec
        (removeSwapAddressByPaymentHash plainCodec duplicateHashDB [1]).2.2 =
      ([⟨[99], [2], []⟩], none) := by
  decide

/-! ## Updating a swap address -/

/-- C9. When `json.Unmarshal` rejects the empty input, then for every store
with a swap-address bucket, every address `a` with no entry in it and every
mutate function `f` (with whatever variables `env` it captures):
`updateSwapAddressInfo(a, f)` returns the JSON error, `f` is not applied (`env`
is as before), and the store is unchanged, so no entry appears under `a`. -/
theorem updateSwapAddressInfo_absent {σ : Type} (J : JsonCodec) (db : DB) (b : Bucket)
    (a : Bytes) (f : swapAddressInfo → σ → swapAddressInfo × σ) (env : σ)
    (hJ : J.Unmarshal [] = none)
    (hb : db.Bucket addressesBucket = some b)
    (ha : kvGet a b.entries = none) :
    updateSwapAddressInfo J db a f env = (env, some DbError.jsonError, db) ∧
    kvGet a (registryEntries (updateSwapAddressInfo J db a f env).2.2) = none := by
  have hget : b.Get a = none := by simp [BucketOf.Get, ha]
  have h1 : updateSwapAddressInfo J db a f env = (env, some DbError.jsonError, db) := by
    rw [updateSwapAddressInfo_eq J db a f env b hb, hget]
    simp only [bytesOf, Option.getD_none, hJ]
  refine ⟨h1, ?_⟩
  rw [h1]
  simp only [registryEntries, hb, ha]

/-- C9 with `plainCodec` on the store holding a record under `"b"`, for the
absent address `"a"` and a mutate function that counts its calls. -/
theorem updateSwapAddressInfo_absent_witness :
    plainCodec.Unmarshal [] = none ∧
    (saveSwapAddressInfo plainCodec freshDB ⟨[98], [2], []⟩).2.Bucket addressesBucket =
      some ⟨[([98], Entry.value [1, 98, 0, 1, 2, 0, 0])], 0⟩ ∧
    kvGet [97] (⟨[([98], Entry.value [1, 98, 0, 1, 2, 0, 0])], 0⟩ : Bucket).entries = none ∧
    (updateSwapAddressInfo plainCodec (saveSwapAddressInfo plainCodec freshDB ⟨[98], [2], []⟩).2
        [97] (fun r (n : Nat) => (r, n + 1)) 0 =
      (0, some DbError.jsonError, (saveSwapAddressInfo plainCodec freshDB ⟨[98], [2], []⟩).2) ∧
    kvGet [97] (registryEntries
      (updateSwapAddressInfo plainCodec (saveSwapAddressInfo plainCodec freshDB ⟨[98], [2], []⟩).2
        [97] (fun r (n : Nat) => (r, n + 1)) 0).2.2) = none) :=
  ⟨rfl, by decide, by decide,
    updateSwapAddressInfo_absent plainCodec
      (saveSwapAddressInfo plainCodec freshDB ⟨[98], [2], []⟩).2
      ⟨[([98], Entry.value [1, 98, 0, 1, 2, 0, 0])], 0⟩ [97] (fun r (n : Nat) => (r, n + 1)) 0
      rfl (by decide) (by decide)⟩

theorem keys_kvPut_of_mem {α : Type} (k : Bytes) (v v₀ : α) (l : List (Bytes × α))
    (hs : KeysSorted l) (hg : kvGet k l = some v₀) :
    (kvPut k v l).map Prod.fst = l.map Prod.fst := by
  induction l with
  | nil => simp [kvGet] at hg
  | cons e rest ih =>
    obtain ⟨k₁, v₁⟩ := e
    rw [KeysSorted, List.pairwise_cons] at hs
    simp only [kvPut]
    split_ifs with h1 h2
    · simp [h1]
    · simp only [kvGet, h1, if_false] at hg
      have := hs.1 _ (mem_of_kvGet _ _ _ hg)
      simp only at this
      rw [bytesLess_asymm _ _ h2] at this
      exact absurd this (by decide)
    · simp only [kvGet, h1, if_false] at hg
      simp [ih hs.2 hg]

/-- C10. For every store with a well-formed registry, every address `a` that
has an entry and every mutate function `f`: after a successful
`updateSwapAddressInfo(a, f)` the value stored under `a` is the serialization
of the record `f` makes from the record decoded from the previous value under
`a`; the keys of the registry are the same, in the same order; and every key
other than `a` holds what it held. -/
theorem updateSwapAddressInfo_frame_effect {σ : Type} (J : JsonCodec) (db : DB) (b : Bucket)
    (a v : Bytes) (f : swapAddressInfo → σ → swapAddressInfo × σ) (env : σ)
    (hb : db.Bucket addressesBucket = some b) (hwf : RegistryWF J b)
    (ha : kvGet a b.entries = some (Entry.value v))
    (hok : (updateSwapAddressInfo J db a f env).2.1 = none) :
    ∃ r bytes, J.Unmarshal v = some r ∧ J.Marshal (f r env).1 = some bytes ∧
      kvGet a (registryEntries (updateSwapAddressInfo J db a f env).2.2) =
        some (Entry.value bytes) ∧
      (registryEntries (updateSwapAddressInfo J db a f env).2.2).map Prod.fst =
        (registryEntries db).map Prod.fst ∧
      ∀ k, k ≠ a →
        kvGet k (registryEntries (updateSwapAddressInfo J db a f env).2.2) =
          kvGet k (registryEntries db) := by
  have hget : b.Get a = some v := by simp [BucketOf.Get, ha]
  have hre : registryEntries db = b.entries := by simp only [registryEntries, hb]
  rw [updateSwapAddressInfo_eq J db a f env b hb, hget] at hok ⊢
  simp only [bytesOf, Option.getD_some] at hok ⊢
  cases hr : J.Unmarshal v with
  | none => rw [hr] at hok; simp at hok
  | some r =>
    rw [hr] at hok
    simp only at hok ⊢
    cases hm : J.Marshal (f r env).1 with
    | none => rw [hm] at hok; simp at hok
    | some bytes =>
      rw [hm] at hok
      simp only at hok ⊢
      cases hp : b.Put a bytes with
      | error e => rw [hp] at hok; simp at hok
      | ok b' =>
        rw [Put_ok_form b b' a bytes hp]
        simp only [registryEntries_setBucket, hre]
        exact ⟨r, bytes, rfl, hm, kvGet_kvPut_same _ _ _,
          keys_kvPut_of_mem a _ _ b.entries hwf.1 ha,
          fun k hk => kvGet_kvPut_ne _ _ _ _ hk⟩

/-- C10 with `plainCodec` on the store holding records under `"a"` and `"b"`,
for the mutate function that sets the payment hash of `"a"` to `[9]`. -/
theorem updateSwapAddressInfo_frame_effect_witness :
    (saveSwapAddressInfo plainCodec
        (saveSwapAddressInfo plainCodec freshDB ⟨[97], [1], []⟩).2
        ⟨[98], [2], []⟩).2.Bucket addressesBucket =
      some ⟨[([97], Entry.value [1, 97, 0, 1, 1, 0, 0]),
        ([98], Entry.value [1, 98, 0, 1, 2, 0, 0])], 0⟩ ∧
    RegistryWF plainCodec ⟨[([97], Entry.value [1, 97, 0, 1, 1, 0, 0]),
        ([98], Entry.value [1, 98, 0, 1, 2, 0, 0])], 0⟩ ∧
    (updateSwapAddressInfo plainCodec
      (saveSwapAddressInfo plainCodec
        (saveSwapAddressInfo plainCodec freshDB ⟨[97], [1], []⟩).2 ⟨[98], [2], []⟩).2
      [97] (fun r (u : Unit) => (⟨r.Address, [9], r.Rest⟩, u)) ()).2.1 = none ∧
    ∃ r bytes, plainCodec.Unmarshal [1, 97, 0, 1, 1, 0, 0] = some r ∧
      plainCodec.Marshal ((fun r (u : Unit) => ((⟨r.Address, [9], r.Rest⟩ : swapAddressInfo), u))
        r ()).1 = some bytes ∧
      kvGet [97] (registryEntries (updateSwapAddressInfo plainCodec
        (saveSwapAddressInfo plainCodec
          (saveSwapAddressInfo plainCodec freshDB ⟨[97], [1], []⟩).2 ⟨[98], [2], []⟩).2
        [97] (fun r (u : Unit) => (⟨r.Address, [9], r.Rest⟩, u)) ()).2.2) =
        some (Entry.value bytes) ∧
      (registryEntries (updateSwapAddressInfo plainCodec
        (saveSwapAddressInfo plainCodec
          (saveSwapAddressInfo plainCodec freshDB ⟨[97], [1], []⟩).2 ⟨[98], [2], []⟩).2
        [97] (fun r (u : Unit) => (⟨r.Address, [9], r.Rest⟩, u)) ()).2.2).map Prod.fst =
        (registryEntries (saveSwapAddressInfo plainCodec
          (saveSwapAddressInfo plainCodec freshDB ⟨[97], [1], []⟩).2
          ⟨[98], [2], []⟩).2).map Prod.fst ∧
      ∀ k, k ≠ [97] →
        kvGet k (registryEntries (updateSwapAddressInfo plainCodec
          (saveSwapAddressInfo plainCodec
            (saveSwapAddressInfo plainCodec freshDB ⟨[97], [1], []⟩).2 ⟨[98], [2], []⟩).2
          [97] (fun r (u : Unit) => (⟨r.Address, [9], r.Rest⟩, u)) ()).2.2) =
          kvGet k (registryEntries (saveSwapAddressInfo plainCodec
            (saveSwapAddressInfo plainCodec freshDB ⟨[97], [1], []⟩).2 ⟨[98], [2], []⟩).2) :=
  have hwf : RegistryWF plainCodec ⟨[([97], Entry.value [1, 97, 0, 1, 1, 0, 0]),
      ([98], Entry.value [1, 98, 0, 1, 2, 0, 0])], 0⟩ := by
    refine ⟨by simp [KeysSorted]; decide, by simp, ?_⟩
    intro k v hm
    simp only [List.mem_cons, Prod.mk.injEq, Entry.value.injEq, List.mem_singleton,
      List.not_mem_nil, or_false] at hm
    rcases hm with ⟨rfl, rfl⟩ | ⟨rfl, rfl⟩
    · exact ⟨⟨[97], [1], []⟩, by decide, rfl⟩
    · exact ⟨⟨[98], [2], []⟩, by decide, rfl⟩
  ⟨by decide, hwf, by decide,
    updateSwapAddressInfo_frame_effect plainCodec _
      ⟨[([97], Entry.value [1, 97, 0, 1, 1, 0, 0]),
        ([98], Entry.value [1, 98, 0, 1, 2, 0, 0])], 0⟩
      [97] [1, 97, 0, 1, 1, 0, 0] (fun r (u : Unit) => (⟨r.Address, [9], r.Rest⟩, u)) ()
      (by decide) hwf (by decide) (by decide)⟩

/-! ## The integer encoding -/

theorem byteOf_eq (n : Nat) (b : Byte) (h : n % 256 = b.val) : byteOf n = b :=
  Fin.ext h

theorem itob_btoi_of_length (b : Bytes) (h : b.length = 8) :
    ∃ u, btoi b = some u ∧ itob u = b := by
  match b, h with
  | [b0, b1, b2, b3, b4, b5, b6, b7], _ =>
    refine ⟨uint64Of (((((((b0.val * 256 + b1.val) * 256 + b2.val) * 256 + b3.val) * 256 +
      b4.val) * 256 + b5.val) * 256 + b6.val) * 256 + b7.val), by simp [btoi], ?_⟩
    have h0 := b0.isLt
    have h1 := b1.isLt
    have h2 := b2.isLt
    have h3 := b3.isLt
    have h4 := b4.isLt
    have h5 := b5.isLt
    have h6 := b6.isLt
    have h7 := b7.isLt
    simp only [itob, uint64Of, List.take, List.foldl, List.cons.injEq, and_true]
    refine ⟨?_, ?_, ?_, ?_, ?_, ?_, ?_, ?_⟩ <;> (apply byteOf_eq; omega)

/-- C20. For all `uint64` `v` and `w`: `itob(v)` has length 8,
`btoi(itob(v)) = v`, `v < w` exactly when `itob(v)` is smaller than `itob(w)`
in `bytes.Compare` order (the order of the keys of a bucket), and every slice
`b` of 8 bytes is decoded by `btoi` to a value that `itob` encodes as `b`. -/
theorem itob_btoi_roundtrip_order (v w : Uint64) :
    (itob v).length = 8 ∧ btoi (itob v) = some v ∧
    (v < w ↔ bytesLess (itob v) (itob w) = true) ∧
    ∀ b : Bytes, b.length = 8 → ∃ u, btoi b = some u ∧ itob u = b :=
  ⟨itob_length v, btoi_itob v, by rw [itob_lt_iff, Fin.lt_def], itob_btoi_of_length⟩

/-! ## Removing a swap address by its key -/

theorem Bucket_setBucket_self_frame {β : Type} (b : BucketOf β) (name name' : Bytes) (nb : β)
    (h : b.Bucket name = some nb) : (b.setBucket name nb).Bucket name' = b.Bucket name' := by
  by_cases hn : name' = name
  · rw [hn, Bucket_setBucket_same, h]
  · exact Bucket_setBucket_ne _ _ _ _ hn

theorem kvDel_of_absent {α : Type} (k : Bytes) (l : List (Bytes × α)) (h : kvGet k l = none) :
    kvDel k l = l := by
  induction l with
  | nil => rfl
  | cons e rest ih =>
    obtain ⟨k₁, v₁⟩ := e
    simp only [kvGet] at h
    split_ifs at h with h1
    simp only [kvDel, h1, if_false, ih h]

theorem mem_kvDel_of_ne {α : Type} (k : Bytes) (l : List (Bytes × α)) (x : Bytes × α)
    (h : x ∈ l) (hne : x.1 ≠ k) : x ∈ kvDel k l := by
  induction l with
  | nil => simp at h
  | cons e rest ih =>
    obtain ⟨k₁, v₁⟩ := e
    simp only [kvDel]
    split_ifs with h1
    · rcases List.mem_cons.mp h with h | h
      · rw [h] at hne
        exact absurd h1 hne
      · exact h
    · rcases List.mem_cons.mp h with h | h
      · exact h ▸ List.mem_cons_self _ _
      · exact List.mem_cons_of_mem _ (ih h)

theorem Delete_absent {β : Type} (b : BucketOf β) (k : Bytes) (h : kvGet k b.entries = none) :
    b.Delete k = Except.ok b := by
  simp only [BucketOf.Delete, h]

theorem Delete_value {β : Type} (b : BucketOf β) (k v : Bytes)
    (h : kvGet k b.entries = some (Entry.value v)) :
    b.Delete k = Except.ok ⟨kvDel k b.entries, b.sequence⟩ := by
  simp only [BucketOf.Delete, h]

/-- C12. On every store with a swap-address bucket whose keys are in order and
that holds no nested bucket: for an address `a` with no entry,
`removeSwapAddress(a)` returns no error and leaves the registry and every
other bucket as they were; for an address `a` with an entry, it returns no
error, the entry of `a` is gone, the registry is the one before without that
entry, every other key holds what it held, and every other bucket is as it
was. -/
theorem removeSwapAddress_effect (db : DB) (b : Bucket) (a : Bytes)
    (hb : db.Bucket addressesBucket = some b) (hs : KeysSorted b.entries)
    (hflat : ∀ k nb, (k, Entry.bucket nb) ∉ b.entries) :
    (removeSwapAddress db a).1 = none ∧
    (∀ name, name ≠ addressesBucket →
      (removeSwapAddress db a).2.Bucket name = db.Bucket name) ∧
    (kvGet a b.entries = none →
      registryEntries (removeSwapAddress db a).2 = registryEntries db ∧
      ∀ name, (removeSwapAddress db a).2.Bucket name = db.Bucket name) ∧
    (∀ e, kvGet a b.entries = some e →
      kvGet a (registryEntries (removeSwapAddress db a).2) = none ∧
      registryEntries (removeSwapAddress db a).2 = kvDel a (registryEntries db) ∧
      (∀ x, x ∈ registryEntries (removeSwapAddress db a).2 ↔
        x ∈ registryEntries db ∧ x.1 ≠ a) ∧
      ∀ k, k ≠ a →
        kvGet k (registryEntries (removeSwapAddress db a).2) =
          kvGet k (registryEntries db)) := by
  have hre : registryEntries db = b.entries := by simp only [registryEntries, hb]
  have hframe : ∀ name, name ≠ addressesBucket →
      (removeSwapAddress db a).2.Bucket name = db.Bucket name :=
    fun name hn => removeSwapAddress_frame db a name hn
  cases hg : kvGet a b.entries with
  | none =>
    have h1 : removeSwapAddress db a = (none, db.setBucket addressesBucket b) := by
      rw [removeSwapAddress_eq db a b hb, Delete_absent b a hg]
    refine ⟨by rw [h1], hframe, ?_, fun e he => by simp at he⟩
    intro _
    rw [h1]
    exact ⟨by rw [registryEntries_setBucket, hre],
      fun name => Bucket_setBucket_self_frame db _ name b hb⟩
  | some e =>
    cases e with
    | bucket nb => exact absurd (mem_of_kvGet _ _ _ hg) (hflat a nb)
    | value v =>
      have h1 : removeSwapAddress db a =
          (none, db.setBucket addressesBucket ⟨kvDel a b.entries, b.sequence⟩) := by
        rw [removeSwapAddress_eq db a b hb, Delete_value b a v hg]
      refine ⟨by rw [h1], hframe, fun h => by simp at h, ?_⟩
      intro e _
      rw [h1, registryEntries_setBucket, hre]
      refine ⟨kvGet_kvDel_same a _ hs, rfl, ?_, fun k hk => kvGet_kvDel_ne a k _ hk⟩
      intro x
      constructor
      · intro hx
        refine ⟨mem_kvDel a _ x hx, ?_⟩
        exact (kvGet_none_iff a _).mp (kvGet_kvDel_same a _ hs) x hx
      · exact fun hx => mem_kvDel_of_ne a _ x hx.1 hx.2

/-- C12 with `plainCodec` on the store holding records under `"a"` and `"b"`:
removing the absent `"c"` changes nothing, removing `"a"` leaves `"b"`. -/
theorem removeSwapAddress_effect_witness :
    ((saveSwapAddressInfo plainCodec
        (saveSwapAddressInfo plainCodec freshDB ⟨[97], [1], []⟩).2
        ⟨[98], [2], []⟩).2.Bucket addressesBucket =
      some ⟨[([97], Entry.value [1, 97, 0, 1, 1, 0, 0]),
        ([98], Entry.value [1, 98, 0, 1, 2, 0, 0])], 0⟩ ∧
    KeysSorted (⟨[([97], Entry.value [1, 97, 0, 1, 1, 0, 0]),
        ([98], Entry.value [1, 98, 0, 1, 2, 0, 0])], 0⟩ : Bucket).entries ∧
    (∀ k nb, (k, Entry.bucket nb) ∉ (⟨[([97], Entry.value [1, 97, 0, 1, 1, 0, 0]),
        ([98], Entry.value [1, 98, 0, 1, 2, 0, 0])], 0⟩ : Bucket).entries)) ∧
    (removeSwapAddress (saveSwapAddressInfo plainCodec
        (saveSwapAddressInfo plainCodec freshDB ⟨[97], [1], []⟩).2 ⟨[98], [2], []⟩).2
      [99]).1 = none ∧
    registryEntries (removeSwapAddress (saveSwapAddressInfo plainCodec
        (saveSwapAddressInfo plainCodec freshDB ⟨[97], [1], []⟩).2 ⟨[98], [2], []⟩).2
      [99]).2 =
      registryEntries (saveSwapAddressInfo plainCodec
        (saveSwapAddressInfo plainCodec freshDB ⟨[97], [1], []⟩).2 ⟨[98], [2], []⟩).2 ∧
    registryEntries (removeSwapAddress (saveSwapAddressInfo plainCodec
        (saveSwapAddressInfo plainCodec freshDB ⟨[97], [1], []⟩).2 ⟨[98], [2], []⟩).2
      [97]).2 = [([98], Entry.value [1, 98, 0, 1, 2, 0, 0])] :=
  have hb : (saveSwapAddressInfo plainCodec
        (saveSwapAddressInfo plainCodec freshDB ⟨[97], [1], []⟩).2
        ⟨[98], [2], []⟩).2.Bucket addressesBucket =
      some ⟨[([97], Entry.value [1, 97, 0, 1, 1, 0, 0]),
        ([98], Entry.value [1, 98, 0, 1, 2, 0, 0])], 0⟩ := by decide
  have hs : KeysSorted (⟨[([97], Entry.value [1, 97, 0, 1, 1, 0, 0]),
        ([98], Entry.value [1, 98, 0, 1, 2, 0, 0])], 0⟩ : Bucket).entries := by
    simp [KeysSorted]; decide
  have hflat : ∀ k nb, (k, Entry.bucket nb) ∉ (⟨[([97], Entry.value [1, 97, 0, 1, 1, 0, 0]),
        ([98], Entry.value [1, 98, 0, 1, 2, 0, 0])], 0⟩ : Bucket).entries := by simp
  ⟨⟨hb, hs, hflat⟩,
    (removeSwapAddress_effect _ _ [99] hb hs hflat).1,
    ((removeSwapAddress_effect _ _ [99] hb hs hflat).2.2.1 (by decide)).1,
    by decide⟩

/-! ## Zero candidates -/

theorem not_lt_zero_uint64 (w : Uint64) : ¬ w < 0 := by
  simp [Fin.lt_def]

theorem storedWatermark_after (db : DB) (b : Bucket) (sb : SubBucket) (wt wi : Uint64)
    (p : Bytes) (idx t : Uint64) (key : Bytes)
    (hb : db.Bucket paymentsBucket = some b) (hsb : b.Bucket paymentsSyncInfoBucket = some sb)
    (hbk : ∀ k nb, (k, Entry.bucket nb) ∈ b.entries → k.length ≠ 8)
    (hwt : readWatermark sb lastSentPaymentTimeKey = Except.ok wt)
    (hwi : readWatermark sb lastSettledIndexKey = Except.ok wi)
    (hp : p.length ≤ MaxValueSize) :
    storedWatermark (addAccountPayment db p idx t).2 key = (syncAfter sb wt wi idx t).Get key := by
  have hk : ∀ k : Bytes, k.length = 8 → b.Bucket k = none :=
    fun k hk => Bucket_eq_none_of b k hbk hk
  rw [addAccountPayment_of_tx_ok _ _ _ _ _
    (addAccountPaymentTx_ok db b sb wt wi p idx t hb hsb hk hwt hwi hp)]
  simp only [storedWatermark, Bucket_setBucket_same]

/-- C13. On every store as `db.go` leaves it, `addAccountPayment(p, 0, t)`
leaves the stored `lastSettledIndex` entry as it was (absent stays absent) and
`fetchPaymentsSyncInfo` returns the same `lastSettledIndex` before and after;
`addAccountPayment(p, idx, 0)` leaves the stored `lastSentPaymentTime` entry as
it was and `fetchPaymentsSyncInfo` returns the same `lastTime` before and
after. -/
theorem zero_candidate_no_op (db : DB) (h : StoreInv db) (p : Bytes) (idx t : Uint64) :
    (storedWatermark (addAccountPayment db p 0 t).2 lastSettledIndexKey =
        storedWatermark db lastSettledIndexKey ∧
      (fetchPaymentsSyncInfo (addAccountPayment db p 0 t).2).map Prod.snd =
        (fetchPaymentsSyncInfo db).map Prod.snd) ∧
    (storedWatermark (addAccountPayment db p idx 0).2 lastSentPaymentTimeKey =
        storedWatermark db lastSentPaymentTimeKey ∧
      (fetchPaymentsSyncInfo (addAccountPayment db p idx 0).2).map Prod.fst =
        (fetchPaymentsSyncInfo db).map Prod.fst) := by
  obtain ⟨wt, wi, hsync⟩ := h.1
  have hf := fetchPaymentsSyncInfo_of_syncInv db wt wi hsync
  by_cases hp : p.length ≤ MaxValueSize
  · have s1 := (syncInv_step db wt wi p 0 t hsync hp).2
    have s2 := (syncInv_step db wt wi p idx 0 hsync hp).2
    rw [if_neg (not_lt_zero_uint64 wi)] at s1
    rw [if_neg (not_lt_zero_uint64 wt)] at s2
    have f1 := fetchPaymentsSyncInfo_of_syncInv _ _ _ s1
    have f2 := fetchPaymentsSyncInfo_of_syncInv _ _ _ s2
    obtain ⟨b, sb, hb, hsb, hbk, hwt, hwi⟩ := hsync
    have hst : ∀ key, storedWatermark db key = sb.Get key := by
      intro key
      simp only [storedWatermark, hb, hsb]
    rw [storedWatermark_after db b sb wt wi p 0 t _ hb hsb hbk hwt hwi hp,
      storedWatermark_after db b sb wt wi p idx 0 _ hb hsb hbk hwt hwi hp,
      Get_syncAfter_index sb wt wi 0 t (not_lt_zero_uint64 wi),
      Get_syncAfter_time sb wt wi idx 0 (not_lt_zero_uint64 wt), hst, hst, f1, f2, hf]
    simp only [Except.map, and_self]
  · rw [syncInv_fail db wt wi p 0 t hsync (by omega),
      syncInv_fail db wt wi p idx 0 hsync (by omega)]
    exact ⟨⟨rfl, rfl⟩, rfl, rfl⟩

/-- C13 on the store reached by `addAccountPayment([65], 5, 100)`: a payment
with index 0 and time 200, and a payment with index 9 and time 0. -/
theorem zero_candidate_no_op_witness :
    StoreInv (addAccountPayment freshDB [65] 5 100).2 ∧
    ((storedWatermark (addAccountPayment (addAccountPayment freshDB [65] 5 100).2 [66] 0 200).2
          lastSettledIndexKey =
        storedWatermark (addAccountPayment freshDB [65] 5 100).2 lastSettledIndexKey ∧
      (fetchPaymentsSyncInfo
          (addAccountPayment (addAccountPayment freshDB [65] 5 100).2 [66] 0 200).2).map
          Prod.snd =
        (fetchPaymentsSyncInfo (addAccountPayment freshDB [65] 5 100).2).map Prod.snd) ∧
    (storedWatermark (addAccountPayment (addAccountPayment freshDB [65] 5 100).2 [66] 9 0).2
          lastSentPaymentTimeKey =
        storedWatermark (addAccountPayment freshDB [65] 5 100).2 lastSentPaymentTimeKey ∧
      (fetchPaymentsSyncInfo
          (addAccountPayment (addAccountPayment freshDB [65] 5 100).2 [66] 9 0).2).map
          Prod.fst =
        (fetchPaymentsSyncInfo (addAccountPayment freshDB [65] 5 100).2).map Prod.fst)) ∧
    fetchPaymentsSyncInfo
      (addAccountPayment (addAccountPayment freshDB [65] 5 100).2 [66] 0 200).2 =
      Except.ok (200, 5) ∧
    fetchPaymentsSyncInfo
      (addAccountPayment (addAccountPayment freshDB [65] 5 100).2 [66] 9 0).2 =
      Except.ok (100, 9) :=
  ⟨storeInv_step plainCodec freshDB (Op.addAccountPayment [65] 5 100) storeInv_fresh,
    zero_candidate_no_op _
      (storeInv_step plainCodec freshDB (Op.addAccountPayment [65] 5 100) storeInv_fresh)
      [66] 9 200,
    by decide, by decide⟩

/-! ## Atomicity of removal by payment hash -/

theorem dbUpdate_error {σ : Type} (db : DB) (fn : DB → σ × Except DbError DB)
    (h : (dbUpdate db fn).2.1 ≠ none) : (dbUpdate db fn).2.2 = db := by
  simp only [dbUpdate] at h ⊢
  revert h
  rcases fn db with ⟨c, e | tx⟩
  · exact fun _ => rfl
  · exact fun h => absurd rfl h

/-- C14. For every store and hash `h`: when
`removeSwapAddressByPaymentHash(h)` returns a non-nil error, the store after
the call is the store before it, so no deletion made earlier in the scan is
kept. -/
theorem removeSwapAddressByPaymentHash_atomic (J : JsonCodec) (db : DB) (pHash : Bytes)
    (herr : (removeSwapAddressByPaymentHash J db pHash).2.1 ≠ none) :
    (removeSwapAddressByPaymentHash J db pHash).2.2 = db ∧
    registryEntries (removeSwapAddressByPaymentHash J db pHash).2.2 = registryEntries db := by
  have h := dbUpdate_error db _ herr
  exact ⟨h, congrArg registryEntries h⟩

/-- C14 with `plainCodec` on the store whose registry holds the matching record
`"a"` and then the undecodable value under `"b"`: the scan deletes `"a"`,
fails on `"b"`, and the record `"a"` is still there. -/
theorem removeSwapAddressByPaymentHash_atomic_witness :
    (removeSwapAddressByPaymentHash plainCodec partlyUndecodableDB [1]).2.1 ≠ none ∧
    ((removeSwapAddressByPaymentHash plainCodec partlyUndecodableDB [1]).2.2 =
        partlyUndecodableDB ∧
      registryEntries (removeSwapAddressByPaymentHash plainCodec partlyUndecodableDB [1]).2.2 =
        registryEntries partlyUndecodableDB) ∧
    removeSwapAddressByPaymentHash plainCodec partlyUndecodableDB [1] =
      (true, some DbError.jsonError, partlyUndecodableDB) ∧
    (ForEach (removeByPaymentHashFn plainCodec [1])
      (⟨[([97], Entry.value [1, 97, 0, 1, 1, 0, 0]), ([98], Entry.value [120])], 0⟩ :
        Bucket).cursor
      (false, ⟨[([97], Entry.value [1, 97, 0, 1, 1, 0, 0]), ([98], Entry.value [120])], 0⟩)).1 =
      (true, ⟨[([98], Entry.value [120])], 0⟩) :=
  ⟨by decide, removeSwapAddressByPaymentHash_atomic plainCodec partlyUndecodableDB [1]
    (by decide), by decide, by decide⟩

/-! ## Fetching swap addresses -/

theorem filterMap_of_isSome {α γ : Type} (f : α → Option γ) (l : List α)
    (h : ∀ e ∈ l, (f e).isSome) : (l.filterMap f).map some = l.map f := by
  induction l with
  | nil => rfl
  | cons e rest ih =>
    obtain ⟨r, hr⟩ := Option.isSome_iff_exists.mp (h e (List.mem_cons_self _ _))
    simp only [List.filterMap_cons, hr, List.map_cons]
    rw [ih fun e' he' => h e' (List.mem_cons_of_mem _ he')]

/-- C17. For every store whose registry values all deserialize and every
predicate `p`: `fetchSwapAddresses(p)` returns, with no error, what the spec
describes (the decoded record of each entry, in key order, kept when `p`
holds); `fetchAllSwapAddresses()` is `fetchSwapAddresses` of the always-true
predicate and returns one decoded record per registry entry, in key order; and
`fetchSwapAddresses(p)` is `fetchAllSwapAddresses()` filtered by `p`. -/
theorem fetchSwapAddresses_refines (J : JsonCodec) (db : DB) (b : Bucket)
    (p : swapAddressInfo → Bool)
    (hb : db.Bucket addressesBucket = some b)
    (hdec : ∀ e ∈ b.entries, (decodeEntry J e).isSome) :
    fetchSwapAddresses J db p = (specFetchSwapAddresses J b.entries p, none) ∧
    fetchAllSwapAddresses J db = fetchSwapAddresses J db (fun _ => true) ∧
    (fetchAllSwapAddresses J db).2 = none ∧
    (fetchAllSwapAddresses J db).1.map some = b.entries.map (decodeEntry J) ∧
    (fetchAllSwapAddresses J db).1.length = b.entries.length ∧
    (fetchSwapAddresses J db p).1 = (fetchAllSwapAddresses J db).1.filter p := by
  have key : ∀ q : swapAddressInfo → Bool,
      fetchSwapAddresses J db q = (specFetchSwapAddresses J b.entries q, none) := by
    intro q
    rw [fetchSwapAddresses_eq J db q b hb]
    obtain ⟨l, s⟩ := b
    rw [fetch_forEach_ok J q l s [] hdec]
    simp [specFetchSwapAddresses]
  have hall : fetchAllSwapAddresses J db = (b.entries.filterMap (decodeEntry J), none) := by
    rw [fetchAllSwapAddresses, key]
    simp [specFetchSwapAddresses]
  have hmap := filterMap_of_isSome (decodeEntry J) b.entries hdec
  refine ⟨key p, rfl, by rw [hall], by rw [hall]; exact hmap, ?_, ?_⟩
  · rw [hall]
    have := congrArg List.length hmap
    simpa using this
  · rw [key p, hall]
    rfl

/-- C17 with `plainCodec` on the store with records `"a"`, `"b"` (payment hash
`[1]`) and `"c"` (payment hash `[2]`), for the predicate "payment hash is
`[1]`". -/
theorem fetchSwapAddresses_refines_witness :
    (duplicateHashDB.Bucket addressesBucket =
        some ⟨[([97], Entry.value [1, 97, 0, 1, 1, 0, 0]),
          ([98], Entry.value [1, 98, 0, 1, 1, 0, 0]),
          ([99], Entry.value [1, 99, 0, 1, 2, 0, 0])], 0⟩ ∧
      ∀ e ∈ (⟨[([97], Entry.value [1, 97, 0, 1, 1, 0, 0]),
          ([98], Entry.value [1, 98, 0, 1, 1, 0, 0]),
          ([99], Entry.value [1, 99, 0, 1, 2, 0, 0])], 0⟩ : Bucket).entries,
        (decodeEntry plainCodec e).isSome) ∧
    fetchSwapAddresses plainCodec duplicateHashDB (fun r => r.PaymentHash = [1]) =
      ([⟨[97], [1], []⟩, ⟨[98], [1], []⟩], none) ∧
    (fetchSwapAddresses plainCodec duplicateHashDB (fun r => r.PaymentHash = [1])).1 =
      (fetchAllSwapAddresses plainCodec duplicateHashDB).1.filter
        (fun r => r.PaymentHash = [1]) :=
  have hb : duplicateHashDB.Bucket addressesBucket =
      some ⟨[([97], Entry.value [1, 97, 0, 1, 1, 0, 0]),
        ([98], Entry.value [1, 98, 0, 1, 1, 0, 0]),
        ([99], Entry.value [1, 99, 0, 1, 2, 0, 0])], 0⟩ := by decide
  have hdec : ∀ e ∈ (⟨[([97], Entry.value [1, 97, 0, 1, 1, 0, 0]),
        ([98], Entry.value [1, 98, 0, 1, 1, 0, 0]),
        ([99], Entry.value [1, 99, 0, 1, 2, 0, 0])], 0⟩ : Bucket).entries,
      (decodeEntry plainCodec e).isSome := by decide
  ⟨⟨hb, hdec⟩,
    ((fetchSwapAddresses_refines plainCodec duplicateHashDB _
      (fun r => r.PaymentHash = [1]) hb hdec).1).trans (by decide),
    (fetchSwapAddresses_refines plainCodec duplicateHashDB _
      (fun r => r.PaymentHash = [1]) hb hdec).2.2.2.2.2⟩

/-! ## Removal by payment hash: what found means -/

/-- The scan of `removeSwapAddressByPaymentHash` when it returns no error:
every visited entry decoded, every entry with the hash was deleted, the others
are as they were. -/
theorem remove_forEach_none (J : JsonCodec) (pHash : Bytes) (s : Uint64)
    (rest : List (Bytes × Entry SubBucket)) :
    ∀ (pre : List (Bytes × Entry SubBucket)) (found : Bool) (st : Bool × Bucket),
      KeysSorted (pre ++ rest) →
      ForEach (removeByPaymentHashFn J pHash) (BucketOf.cursor ⟨rest, s⟩)
          (found, ⟨pre ++ rest, s⟩) = (st, none) →
      (∀ e ∈ rest, (decodeEntry J e).isSome) ∧
      st = (found || rest.any (hasPaymentHash J pHash),
        ⟨pre ++ rest.filter (fun e => !hasPaymentHash J pHash e), s⟩) := by
  induction rest with
  | nil =>
    intro pre found st _ h
    simp only [BucketOf.cursor, List.map_nil, ForEach, Prod.mk.injEq, and_true] at h
    simp [← h]
  | cons e rest ih =>
    intro pre found st hs h
    obtain ⟨k, e⟩ := e
    have e1 : pre ++ (k, e) :: rest = (pre ++ [(k, e)]) ++ rest := by simp
    cases e with
    | value v =>
      rw [cursor_cons_value] at h
      have hne := keys_ne_of_sorted pre rest k (Entry.value v) hs
      cases hr : J.Unmarshal v with
      | none =>
        simp [ForEach, removeByPaymentHashFn, deserializeSwapAddressInfo, bytesOf, hr] at h
      | some r =>
        by_cases hh : r.PaymentHash = pHash
        · have hm : hasPaymentHash J pHash (k, Entry.value v) = true := by
            simp [hasPaymentHash, decodeEntry, hr, hh]
          have hdel : (⟨pre ++ (k, Entry.value v) :: rest, s⟩ : Bucket).Delete k =
              Except.ok ⟨pre ++ rest, s⟩ := by
            simp only [BucketOf.Delete, kvGet_append k pre _ hne, kvGet, if_true,
              kvDel_append k pre _ hne, kvDel]
          simp only [ForEach, removeByPaymentHashFn, deserializeSwapAddressInfo, bytesOf,
            Option.getD_some, hr, hh, if_true, hdel] at h
          obtain ⟨h1, h2⟩ := ih pre true st (keysSorted_drop_middle pre rest _ hs) h
          refine ⟨?_, ?_⟩
          · intro e he
            rcases List.mem_cons.mp he with he | he
            · rw [he]; simp [decodeEntry, hr]
            · exact h1 e he
          · rw [h2]
            simp [List.any_cons, hm, List.filter_cons]
        · have hm : hasPaymentHash J pHash (k, Entry.value v) = false := by
            simp [hasPaymentHash, decodeEntry, hr, hh]
          simp only [ForEach, removeByPaymentHashFn, deserializeSwapAddressInfo, bytesOf,
            Option.getD_some, hr, hh, if_false] at h
          rw [e1] at h
          obtain ⟨h1, h2⟩ := ih (pre ++ [(k, Entry.value v)]) found st
            (by rw [← e1]; exact hs) h
          refine ⟨?_, ?_⟩
          · intro e he
            rcases List.mem_cons.mp he with he | he
            · rw [he]; simp [decodeEntry, hr]
            · exact h1 e he
          · rw [h2]
            simp [List.any_cons, hm, List.filter_cons]
    | bucket nb =>
      rw [cursor_cons_bucket] at h
      have hne := keys_ne_of_sorted pre rest k (Entry.bucket nb) hs
      cases hr : J.Unmarshal [] with
      | none =>
        simp [ForEach, removeByPaymentHashFn, deserializeSwapAddressInfo, bytesOf, hr] at h
      | some r =>
        by_cases hh : r.PaymentHash = pHash
        · have hdel : (⟨pre ++ (k, Entry.bucket nb) :: rest, s⟩ : Bucket).Delete k =
              Except.error DbError.ErrIncompatibleValue := by
            simp only [BucketOf.Delete, kvGet_append k pre _ hne, kvGet, if_true]
          simp [ForEach, removeByPaymentHashFn, deserializeSwapAddressInfo, bytesOf, hr, hh,
            hdel] at h
        · have hm : hasPaymentHash J pHash (k, Entry.bucket nb) = false := by
            simp [hasPaymentHash, decodeEntry, hr, hh]
          simp only [ForEach, removeByPaymentHashFn, deserializeSwapAddressInfo, bytesOf,
            Option.getD_none, hr, hh, if_false] at h
          rw [e1] at h
          obtain ⟨h1, h2⟩ := ih (pre ++ [(k, Entry.bucket nb)]) found st
            (by rw [← e1]; exact hs) h
          refine ⟨?_, ?_⟩
          · intro e he
            rcases List.mem_cons.mp he with he | he
            · rw [he]; simp [decodeEntry, hr]
            · exact h1 e he
          · rw [h2]
            simp [List.any_cons, hm, List.filter_cons]

theorem removeSwapAddressByPaymentHash_no_error (J : JsonCodec) (db : DB) (pHash : Bytes)
    (b : Bucket) (hb : db.Bucket addressesBucket = some b) (hs : KeysSorted b.entries)
    (herr : (removeSwapAddressByPaymentHash J db pHash).2.1 = none) :
    (∀ e ∈ b.entries, (decodeEntry J e).isSome) ∧
    removeSwapAddressByPaymentHash J db pHash =
      (b.entries.any (hasPaymentHash J pHash), none,
        db.setBucket addressesBucket
          ⟨b.entries.filter (fun e => !hasPaymentHash J pHash e), b.sequence⟩) := by
  rw [removeSwapAddressByPaymentHash_eq J db pHash b hb] at herr ⊢
  obtain ⟨l, s⟩ := b
  cases hfe : ForEach (removeByPaymentHashFn J pHash) (BucketOf.cursor ⟨l, s⟩)
      (false, ⟨l, s⟩) with
  | mk st err =>
    rw [hfe] at herr
    cases err with
    | some e => simp at herr
    | none =>
      obtain ⟨h1, h2⟩ := remove_forEach_none J pHash s l [] false st (by simpa using hs)
        (by simpa using hfe)
      refine ⟨h1, ?_⟩
      simp only [h2, List.nil_append, Bool.false_or]

theorem filter_eq_self_of_any_false {α : Type} (l : List α) (p : α → Bool)
    (h : l.any p = false) : l.filter (fun e => !p e) = l := by
  rw [List.filter_eq_self]
  intro e he
  have := List.any_eq_false.mp h e he
  simpa using this

/-- C18, as amended. On every store whose registry has its keys in order, for
every hash `h`: when `removeSwapAddressByPaymentHash(h)` returns `found = true`
with no error, some record with payment hash `h` was in the registry before
the call and its entry is not in the registry after it; when it returns
`found = false` with no error, the registry and every other bucket are
unchanged and every entry held a record with another payment hash. -/
theorem removeSwapAddressByPaymentHash_found (J : JsonCodec) (db : DB) (pHash : Bytes)
    (b : Bucket) (hb : db.Bucket addressesBucket = some b) (hs : KeysSorted b.entries)
    (herr : (removeSwapAddressByPaymentHash J db pHash).2.1 = none) :
    ((removeSwapAddressByPaymentHash J db pHash).1 = true →
      ∃ e r, e ∈ registryEntries db ∧ decodeEntry J e = some r ∧ r.PaymentHash = pHash ∧
        e ∉ registryEntries (removeSwapAddressByPaymentHash J db pHash).2.2 ∧
        kvGet e.1 (registryEntries (removeSwapAddressByPaymentHash J db pHash).2.2) = none) ∧
    ((removeSwapAddressByPaymentHash J db pHash).1 = false →
      registryEntries (removeSwapAddressByPaymentHash J db pHash).2.2 = registryEntries db ∧
      (∀ name, (removeSwapAddressByPaymentHash J db pHash).2.2.Bucket name = db.Bucket name) ∧
      ∀ e ∈ registryEntries db, ∃ r, decodeEntry J e = some r ∧ r.PaymentHash ≠ pHash) := by
  obtain ⟨hdec, heq⟩ := removeSwapAddressByPaymentHash_no_error J db pHash b hb hs herr
  have hre : registryEntries db = b.entries := by simp only [registryEntries, hb]
  rw [heq, hre]
  simp only [registryEntries_setBucket]
  constructor
  · intro hfound
    obtain ⟨e, he, hhas⟩ := List.any_eq_true.mp hfound
    obtain ⟨r, hr⟩ := Option.isSome_iff_exists.mp (hdec e he)
    have hhash : r.PaymentHash = pHash := by
      simpa [hasPaymentHash, hr] using hhas
    have hnot : e ∉ b.entries.filter (fun e => !hasPaymentHash J pHash e) := by
      intro hm
      have := (List.mem_filter.mp hm).2
      rw [hhas] at this
      simp at this
    refine ⟨e, r, he, hr, hhash, hnot, ?_⟩
    rw [kvGet_none_iff]
    intro x hx hxe
    obtain ⟨hxm, hxn⟩ := List.mem_filter.mp hx
    have h1 := kvGet_of_mem x.1 x.2 b.entries hs hxm
    have h2 := kvGet_of_mem e.1 e.2 b.entries hs he
    rw [hxe, h2] at h1
    have : x = e := Prod.ext hxe (Option.some.inj h1).symm
    rw [this, hhas] at hxn
    simp at hxn
  · intro hfound
    have hfil := filter_eq_self_of_any_false b.entries _ hfound
    refine ⟨hfil, ?_, ?_⟩
    · intro name
      have hbe : (⟨b.entries.filter (fun e => !hasPaymentHash J pHash e), b.sequence⟩ :
          Bucket) = b := by
        rw [hfil]
      rw [hbe]
      exact Bucket_setBucket_self_frame db _ name b hb
    · intro e he
      obtain ⟨r, hr⟩ := Option.isSome_iff_exists.mp (hdec e he)
      refine ⟨r, hr, ?_⟩
      have := List.any_eq_false.mp hfound e he
      intro hh
      apply this
      simp [hasPaymentHash, hr, hh]

/-- C18 with `plainCodec` on the store with records `"a"`, `"b"` (payment hash
`[1]`) and `"c"` (payment hash `[2]`): removing by `[1]` finds a record, and
removing by `[7]` finds none and changes nothing. -/
theorem removeSwapAddressByPaymentHash_found_witness :
    (duplicateHashDB.Bucket addressesBucket =
        some ⟨[([97], Entry.value [1, 97, 0, 1, 1, 0, 0]),
          ([98], Entry.value [1, 98, 0, 1, 1, 0, 0]),
          ([99], Entry.value [1, 99, 0, 1, 2, 0, 0])], 0⟩ ∧
      KeysSorted (⟨[([97], Entry.value [1, 97, 0, 1, 1, 0, 0]),
          ([98], Entry.value [1, 98, 0, 1, 1, 0, 0]),
          ([99], Entry.value [1, 99, 0, 1, 2, 0, 0])], 0⟩ : Bucket).entries ∧
      (removeSwapAddressByPaymentHash plainCodec duplicateHashDB [1]).2.1 = none ∧
      (removeSwapAddressByPaymentHash plainCodec duplicateHashDB [7]).2.1 = none) ∧
    (∃ e r, e ∈ registryEntries duplicateHashDB ∧ decodeEntry plainCodec e = some r ∧
        r.PaymentHash = [1] ∧
        e ∉ registryEntries (removeSwapAddressByPaymentHash plainCodec duplicateHashDB [1]).2.2 ∧
        kvGet e.1 (registryEntries
          (removeSwapAddressByPaymentHash plainCodec duplicateHashDB [1]).2.2) = none) ∧
    registryEntries (removeSwapAddressByPaymentHash plainCodec duplicateHashDB [7]).2.2 =
      registryEntries duplicateHashDB :=
  have hb : duplicateHashDB.Bucket addressesBucket =
      some ⟨[([97], Entry.value [1, 97, 0, 1, 1, 0, 0]),
        ([98], Entry.value [1, 98, 0, 1, 1, 0, 0]),
        ([99], Entry.value [1, 99, 0, 1, 2, 0, 0])], 0⟩ := by decide
  have hs : KeysSorted (⟨[([97], Entry.value [1, 97, 0, 1, 1, 0, 0]),
        ([98], Entry.value [1, 98, 0, 1, 1, 0, 0]),
        ([99], Entry.value [1, 99, 0, 1, 2, 0, 0])], 0⟩ : Bucket).entries := by
    simp [KeysSorted]; decide
  ⟨⟨hb, hs, by decide, by decide⟩,
    (removeSwapAddressByPaymentHash_found plainCodec duplicateHashDB [1] _ hb hs
      (by decide)).1 (by decide),
    ((removeSwapAddressByPaymentHash_found plainCodec duplicateHashDB [7] _ hb hs
      (by decide)).2 (by decide)).1⟩

/-- C18 fails as stated. On the store whose registry holds the record `"a"`
with payment hash `[1]` and then an undecodable value,
`removeSwapAddressByPaymentHash([1])` returns `found = true` (with the JSON
error), and every record with payment hash `[1]` that was in the registry is
still there after the call. -/
theorem removeSwapAddressByPaymentHash_found_with_error :
    (removeSwapAddressByPaymentHash plainCodec partlyUndecodableDB [1]).1 = true ∧
    (removeSwapAddressByPaymentHash plainCodec partlyUndecodableDB [1]).2.1 =
      some DbError.jsonError ∧
    ([97], Entry.value [1, 97, 0, 1, 1, 0, 0]) ∈ registryEntries partlyUndecodableDB ∧
    hasPaymentHash plainCodec [1] ([97], Entry.value [1, 97, 0, 1, 1, 0, 0]) = true ∧
    ∀ e ∈ registryEntries partlyUndecodableDB, hasPaymentHash plainCodec [1] e = true →
      e ∈ registryEntries
        (removeSwapAddressByPaymentHash plainCodec partlyUndecodableDB [1]).2.2 := by
  decide

/-! ## Watermark entries are 8 bytes long -/

theorem storedWatermark_congr (db db' : DB)
    (h : db'.Bucket paymentsBucket = db.Bucket paymentsBucket) (key : Bytes) :
    storedWatermark db' key = storedWatermark db key := by
  simp only [storedWatermark, h]

theorem watermarksSized_congr (db db' : DB)
    (h : db'.Bucket paymentsBucket = db.Bucket paymentsBucket) (hs : WatermarksSized db) :
    WatermarksSized db' := by
  intro key v hv
  rw [storedWatermark_congr db db' h] at hv
  exact hs key v hv

theorem Get_putValue_sized (sb : SubBucket) (k : Bytes) (u : Uint64)
    (h : ∀ key v, sb.Get key = some v → v.length = 8) :
    ∀ key v, (putValue sb k (itob u)).Get key = some v → v.length = 8 := by
  intro key v hv
  by_cases hk : key = k
  · rw [hk, Get_putValue_same] at hv
    rw [← Option.some.inj hv]
    exact itob_length u
  · rw [Get_putValue_ne _ _ _ _ hk] at hv
    exact h key v hv

theorem Get_syncAfter_sized (sb : SubBucket) (wt wi idx t : Uint64)
    (h : ∀ key v, sb.Get key = some v → v.length = 8) :
    ∀ key v, (syncAfter sb wt wi idx t).Get key = some v → v.length = 8 := by
  simp only [syncAfter]
  split_ifs
  · exact Get_putValue_sized _ _ _ (Get_putValue_sized _ _ _ h)
  · exact Get_putValue_sized _ _ _ h
  · exact Get_putValue_sized _ _ _ h
  · exact h

theorem watermarksSized_fresh : WatermarksSized freshDB := by
  intro key v hv
  have : storedWatermark freshDB key = none := rfl
  rw [this] at hv
  exact Option.noConfusion hv

theorem watermarksSized_addAccountPayment (db : DB) (hs : StoreInv db) (h : WatermarksSized db)
    (p : Bytes) (idx t : Uint64) : WatermarksSized (addAccountPayment db p idx t).2 := by
  obtain ⟨wt, wi, hsync⟩ := hs.1
  by_cases hp : p.length ≤ MaxValueSize
  · obtain ⟨b, sb, hb, hsb, hbk, hwt, hwi⟩ := hsync
    intro key v hv
    rw [storedWatermark_after db b sb wt wi p idx t key hb hsb hbk hwt hwi hp] at hv
    refine Get_syncAfter_sized sb wt wi idx t ?_ key v hv
    intro key v hv
    apply h key v
    simp only [storedWatermark, hb, hsb]
    exact hv
  · rw [syncInv_fail db wt wi p idx t hsync (by omega)]
    exact h

theorem watermarksSized_step (J : JsonCodec) (db : DB) (op : Op) (hs : StoreInv db)
    (h : WatermarksSized db) : WatermarksSized (step J db op) := by
  cases op with
  | addAccountPayment p idx t => exact watermarksSized_addAccountPayment db hs h p idx t
  | saveAccount x =>
    exact watermarksSized_congr _ _ (saveItem_frame db accountBucket accountKey x _ (by decide)) h
  | savePaymentRequest hh r =>
    exact watermarksSized_congr _ _ (saveItem_frame db incmoingPayReqBucket hh r _ (by decide)) h
  | saveSwapAddressInfo r =>
    exact watermarksSized_congr _ _ (saveSwapAddressInfo_frame J db r _ (by decide)) h
  | removeSwapAddress a =>
    exact watermarksSized_congr _ _ (removeSwapAddress_frame db a _ (by decide)) h
  | removeSwapAddressByPaymentHash ph =>
    exact watermarksSized_congr _ _ (removeSwapAddressByPaymentHash_frame J db ph _ (by decide)) h
  | updateSwapAddressInfo a f =>
    exact watermarksSized_congr _ _
      (updateSwapAddressInfo_frame J db a (fun r (u : Unit) => (f r, u)) () _ (by decide)) h
  | reopen => exact watermarksSized_congr _ _ (openDB_frame db hs _) h
  | reset => exact watermarksSized_fresh

theorem watermarksSized_run (J : JsonCodec) (ops : List Op) :
    ∀ db, StoreInv db → WatermarksSized db → WatermarksSized (run J db ops) := by
  induction ops with
  | nil => exact fun db _ h => h
  | cons op rest ih =>
    exact fun db hs h => ih _ (storeInv_step J db op hs) (watermarksSized_step J db op hs h)

theorem watermark_entry_cases (db : DB) (h : WatermarksSized db) (key : Bytes) :
    storedWatermark db key = none ∨
      ∃ v u, storedWatermark db key = some v ∧ v.length = 8 ∧ btoi v = some u := by
  cases hv : storedWatermark db key with
  | none => exact Or.inl rfl
  | some v =>
    obtain ⟨u, hu, -⟩ := itob_btoi_of_length v (h key v hv)
    exact Or.inr ⟨v, u, rfl, h key v hv, hu⟩

/-- C19. In every store reachable from a freshly opened empty store through
the calls of `db.go`, the `paymentsSyncInfo` bucket exists and each of the
entries `lastSentPaymentTime` and `lastSettledIndex` is either absent or
exactly 8 bytes long, and `btoi` decodes it; so `fetchPaymentsSyncInfo`
returns a result (no panic) and no call of `addAccountPayment` ends in an
out-of-range read. -/
theorem watermark_entries_sized (J : JsonCodec) (db : DB) (h : Reachable J db) :
    (∃ b sb, db.Bucket paymentsBucket = some b ∧ b.Bucket paymentsSyncInfoBucket = some sb ∧
      storedWatermark db lastSentPaymentTimeKey = sb.Get lastSentPaymentTimeKey ∧
      storedWatermark db lastSettledIndexKey = sb.Get lastSettledIndexKey) ∧
    (storedWatermark db lastSentPaymentTimeKey = none ∨
      ∃ v u, storedWatermark db lastSentPaymentTimeKey = some v ∧ v.length = 8 ∧
        btoi v = some u) ∧
    (storedWatermark db lastSettledIndexKey = none ∨
      ∃ v u, storedWatermark db lastSettledIndexKey = some v ∧ v.length = 8 ∧
        btoi v = some u) ∧
    (∃ r, fetchPaymentsSyncInfo db = Except.ok r) ∧
    ∀ p idx t, (addAccountPayment db p idx t).1 ≠ some DbError.indexRangePanic := by
  have hs := storeInv_of_reachable J db h
  have hz : WatermarksSized db := by
    obtain ⟨ops, rfl⟩ := h
    exact watermarksSized_run J ops _ storeInv_fresh watermarksSized_fresh
  obtain ⟨wt, wi, hsync⟩ := hs.1
  refine ⟨?_, watermark_entry_cases db hz _, watermark_entry_cases db hz _,
    ⟨_, fetchPaymentsSyncInfo_of_syncInv db wt wi hsync⟩, ?_⟩
  · obtain ⟨b, sb, hb, hsb, -⟩ := hsync
    exact ⟨b, sb, hb, hsb, by simp only [storedWatermark, hb, hsb],
      by simp only [storedWatermark, hb, hsb]⟩
  · intro p idx t
    by_cases hp : p.length ≤ MaxValueSize
    · rw [(syncInv_step db wt wi p idx t hsync hp).1]
      exact fun h => Option.noConfusion h
    · rw [syncInv_fail db wt wi p idx t hsync (by omega)]
      exact fun h => DbError.noConfusion (Option.some.inj h)

/-- C19 at the store reached by `addAccountPayment([65], 5, 100)` and a
reopen: both entries are the 8-byte encodings of 100 and 5. -/
theorem watermark_entries_sized_witness :
    Reachable plainCodec (run plainCodec freshDB [Op.addAccountPayment [65] 5 100, Op.reopen]) ∧
    storedWatermark (run plainCodec freshDB [Op.addAccountPayment [65] 5 100, Op.reopen])
      lastSentPaymentTimeKey = some [0, 0, 0, 0, 0, 0, 0, 100] ∧
    storedWatermark (run plainCodec freshDB [Op.addAccountPayment [65] 5 100, Op.reopen])
      lastSettledIndexKey = some [0, 0, 0, 0, 0, 0, 0, 5] ∧
    ((storedWatermark (run plainCodec freshDB [Op.addAccountPayment [65] 5 100, Op.reopen])
        lastSentPaymentTimeKey = none ∨
      ∃ v u, storedWatermark (run plainCodec freshDB [Op.addAccountPayment [65] 5 100, Op.reopen])
        lastSentPaymentTimeKey = some v ∧ v.length = 8 ∧ btoi v = some u) ∧
    (storedWatermark (run plainCodec freshDB [Op.addAccountPayment [65] 5 100, Op.reopen])
        lastSettledIndexKey = none ∨
      ∃ v u, storedWatermark (run plainCodec freshDB [Op.addAccountPayment [65] 5 100, Op.reopen])
        lastSettledIndexKey = some v ∧ v.length = 8 ∧ btoi v = some u) ∧
    (∃ r, fetchPaymentsSyncInfo
      (run plainCodec freshDB [Op.addAccountPayment [65] 5 100, Op.reopen]) = Except.ok r) ∧
    ∀ p idx t, (addAccountPayment
      (run plainCodec freshDB [Op.addAccountPayment [65] 5 100, Op.reopen]) p idx t).1 ≠
        some DbError.indexRangePanic) :=
  ⟨⟨_, rfl⟩, by decide, by decide,
    (watermark_entries_sized plainCodec _ ⟨[Op.addAccountPayment [65] 5 100, Op.reopen], rfl⟩).2⟩

/-! ## Payment keys are gapless and records immutable -/

section

variable {β : Type}

theorem valuesOf_cons_value (k v : Bytes) (l : List (Bytes × Entry β)) :
    valuesOf ((k, Entry.value v) :: l) = (k, v) :: valuesOf l := by
  simp [valuesOf]

theorem valuesOf_cons_bucket (k : Bytes) (nb : β) (l : List (Bytes × Entry β)) :
    valuesOf ((k, Entry.bucket nb) :: l) = valuesOf l := by
  simp [valuesOf]

theorem mem_valuesOf (k v : Bytes) (l : List (Bytes × Entry β)) :
    (k, v) ∈ valuesOf l ↔ (k, Entry.value v) ∈ l := by
  induction l with
  | nil => simp [valuesOf]
  | cons e rest ih =>
    obtain ⟨k', e⟩ := e
    cases e with
    | value v' =>
      rw [valuesOf_cons_value, List.mem_cons, List.mem_cons, ih]
      simp
    | bucket nb =>
      rw [valuesOf_cons_bucket, List.mem_cons, ih]
      simp

theorem valuesOf_eq_nil (l : List (Bytes × Entry β))
    (h : ∀ k v, (k, Entry.value v) ∉ l) : valuesOf l = [] := by
  induction l with
  | nil => rfl
  | cons e rest ih =>
    obtain ⟨k, e⟩ := e
    cases e with
    | value v => exact absurd (List.mem_cons_self _ _) (h k v)
    | bucket nb =>
      rw [valuesOf_cons_bucket]
      exact ih fun k v hm => h k v (List.mem_cons_of_mem _ hm)

theorem valuesOf_kvPut_bucket (name : Bytes) (nb : β) (l : List (Bytes × Entry β))
    (h : ∀ v, (name, Entry.value v) ∉ l) :
    valuesOf (kvPut name (Entry.bucket nb) l) = valuesOf l := by
  induction l with
  | nil => rfl
  | cons e rest ih =>
    obtain ⟨k, e⟩ := e
    simp only [kvPut]
    split_ifs with h1 h2
    · subst h1
      cases e with
      | value v => exact absurd (List.mem_cons_self _ _) (h v)
      | bucket nb' => simp [valuesOf_cons_bucket]
    · rw [valuesOf_cons_bucket]
    · have := ih fun v hm => h v (List.mem_cons_of_mem _ hm)
      cases e with
      | value v => simp [valuesOf_cons_value, this]
      | bucket nb' => simp [valuesOf_cons_bucket, this]

theorem valuesOf_kvPut_last (key p : Bytes) (l : List (Bytes × Entry β)) (hs : KeysSorted l)
    (hlt : ∀ k v, (k, Entry.value v) ∈ l → bytesLess k key = true)
    (hne : ∀ e ∈ l, e.1 ≠ key) :
    valuesOf (kvPut key (Entry.value p) l) = valuesOf l ++ [(key, p)] := by
  induction l with
  | nil => rfl
  | cons e rest ih =>
    obtain ⟨k, e⟩ := e
    have hs' := hs
    rw [KeysSorted, List.pairwise_cons] at hs
    simp only [kvPut]
    split_ifs with h1 h2
    · exact absurd h1 (hne _ (List.mem_cons_self _ _))
    · have hnil : valuesOf ((k, e) :: rest) = [] := by
        apply valuesOf_eq_nil
        intro k' v' hm
        have h3 := hlt k' v' hm
        have h4 : bytesLess key k' = true := by
          rcases List.mem_cons.mp hm with hm | hm
          · simp only [Prod.mk.injEq] at hm
            rw [hm.1]; exact h2
          · exact bytesLess_trans _ _ _ h2 (hs.1 _ hm)
        rw [bytesLess_asymm _ _ h4] at h3
        exact absurd h3 (by decide)
      rw [valuesOf_cons_value, hnil]
      rfl
    · have := ih hs.2 (fun k' v' hm => hlt k' v' (List.mem_cons_of_mem _ hm))
        (fun e he => hne e (List.mem_cons_of_mem _ he))
      cases e with
      | value v => simp [valuesOf_cons_value, this]
      | bucket nb' => simp [valuesOf_cons_bucket, this]

theorem Get_of_mem_valuesOf (b : BucketOf β) (k v : Bytes) (hs : KeysSorted b.entries)
    (h : (k, v) ∈ valuesOf b.entries) : b.Get k = some v := by
  rw [mem_valuesOf] at h
  simp only [BucketOf.Get, kvGet_of_mem k _ b.entries hs h]

end

theorem keyed_append (ps : List Bytes) (p : Bytes) :
    ∀ n, keyed n (ps ++ [p]) = keyed n ps ++ [(itob (uint64Of (n + ps.length + 1)), p)] := by
  induction ps with
  | nil => intro n; simp [keyed]
  | cons q rest ih =>
    intro n
    have e : n + 1 + rest.length + 1 = n + (rest.length + 1) + 1 := by omega
    show (itob (uint64Of (n + 1)), q) :: keyed (n + 1) (rest ++ [p]) =
      (itob (uint64Of (n + 1)), q) ::
        (keyed (n + 1) rest ++ [(itob (uint64Of (n + (rest.length + 1) + 1)), p)])
    rw [ih, e]

theorem mem_keyed (ps : List Bytes) (k v : Bytes) :
    ∀ n, (k, v) ∈ keyed n ps → ∃ i, n < i ∧ i ≤ n + ps.length ∧ k = itob (uint64Of i) := by
  induction ps with
  | nil => intro n h; simp [keyed] at h
  | cons q rest ih =>
    intro n h
    simp only [keyed, List.mem_cons, Prod.mk.injEq] at h
    rcases h with h | h
    · exact ⟨n + 1, by omega, by simp, h.1⟩
    · obtain ⟨i, h1, h2, h3⟩ := ih _ h
      exact ⟨i, by omega, by simp only [List.length_cons]; omega, h3⟩

theorem keyed_mem_get (ps : List Bytes) :
    ∀ (n i : Nat) (hi : i < ps.length),
      (itob (uint64Of (n + i + 1)), ps.get ⟨i, hi⟩) ∈ keyed n ps := by
  induction ps with
  | nil => intro n i hi; simp at hi
  | cons q rest ih =>
    intro n i hi
    cases i with
    | zero => simp [keyed]
    | succ j =>
      simp only [keyed, List.mem_cons]
      right
      have := ih (n + 1) j (by simpa using hi)
      rw [show n + 1 + j + 1 = n + (j + 1) + 1 by omega] at this
      simpa using this

theorem uint64Of_val (n : Nat) : (uint64Of n).val = n % 18446744073709551616 := rfl

theorem gaplessInv_fresh : GaplessInv freshDB [] :=
  ⟨ledgerInv_fresh, by decide⟩

theorem gaplessInv_step (db : DB) (ps : List Bytes) (p : Bytes) (idx t : Uint64)
    (h : GaplessInv db ps) (hn : ps.length + 1 < 18446744073709551616)
    (hp : p.length ≤ MaxValueSize) :
    (addAccountPayment db p idx t).1 = none ∧
      GaplessInv (addAccountPayment db p idx t).2 (ps ++ [p]) := by
  obtain ⟨hl, hent⟩ := h
  obtain ⟨he, hl'⟩ := ledgerInv_step db ps.length ps p idx t hl hn hp
  refine ⟨he, ?_, ?_⟩
  · rw [List.length_append, List.length_singleton]
    exact hl'
  · obtain ⟨b, sb, wt, wi, hb, hsb, hwt, hwi, hseq, hsort, hval, hbk, hrec⟩ := hl
    have hk : ∀ k : Bytes, k.length = 8 → b.Bucket k = none :=
      fun k hk => Bucket_eq_none_of b k hbk hk
    have htx := addAccountPaymentTx_ok db b sb wt wi p idx t hb hsb hk hwt hwi hp
    rw [addAccountPayment_of_tx_ok _ _ _ _ _ htx]
    have hseq1 : (b.sequence + 1).val = ps.length + 1 := by
      rw [Fin.val_add, hseq]
      exact Nat.mod_eq_of_lt hn
    have hkey : b.sequence + 1 = uint64Of (0 + ps.length + 1) := by
      apply Fin.ext
      rw [hseq1, uint64Of_val, Nat.zero_add, Nat.mod_eq_of_lt hn]
    have hkeyne : paymentsSyncInfoBucket ≠ itob (b.sequence + 1) := by
      intro e
      have := congrArg List.length e
      simp [itob_length, paymentsSyncInfoBucket] at this
    simp only [paymentEntries, hb] at hent
    simp only [paymentEntries, Bucket_setBucket_same]
    show valuesOf (kvPut paymentsSyncInfoBucket _ (kvPut (itob (b.sequence + 1)) _ b.entries)) = _
    rw [valuesOf_kvPut_bucket, valuesOf_kvPut_last _ _ _ hsort, hent, keyed_append, hkey]
    · intro k v hm
      obtain ⟨i, hi, hki⟩ := hval k v hm
      rw [hki, itob_lt_iff]
      omega
    · intro e he heq
      obtain ⟨k, e⟩ := e
      simp only at heq
      subst heq
      cases e with
      | value v =>
        obtain ⟨i, hi, hki⟩ := hval _ v he
        have := itob_injective _ _ hki
        rw [← this] at hi
        omega
      | bucket nb => exact hbk _ nb he (itob_length _)
    · intro v hm
      rcases mem_kvPut _ _ _ _ hm with hm | hm
      · simp only [Prod.mk.injEq] at hm
        exact hkeyne hm.1
      · obtain ⟨i, hi, hki⟩ := hval _ v hm
        have := congrArg List.length hki
        simp [itob_length, paymentsSyncInfoBucket] at this

theorem gaplessInv_run (calls : List PaymentCall) :
    ∀ (db : DB) (ps : List Bytes), GaplessInv db ps →
      ps.length + calls.length < 18446744073709551616 →
      GaplessInv (addAccountPayments db calls).1
        (ps ++ successfulPayments calls (addAccountPayments db calls).2) := by
  induction calls with
  | nil =>
    intro db ps h _
    simpa [addAccountPayments, successfulPayments] using h
  | cons c rest ih =>
    intro db ps h hn
    simp only [List.length_cons] at hn
    by_cases hp : c.accPayment.length ≤ MaxValueSize
    · obtain ⟨he, hinv⟩ := gaplessInv_step db ps c.accPayment c.receivedIndex c.sentTime h
        (by omega) hp
      have h2 := ih _ _ hinv (by simp only [List.length_append, List.length_singleton]; omega)
      simp only [addAccountPayments, he, successfulPayments]
      simpa using h2
    · have hf := ledgerInv_fail db ps.length ps c.accPayment c.receivedIndex c.sentTime h.1
        (by omega)
      have hinv : GaplessInv (addAccountPayment db c.accPayment c.receivedIndex c.sentTime).2
          ps := by rw [hf]; exact h
      have h2 := ih _ _ hinv (by omega)
      simp only [hf] at h2
      simp only [addAccountPayments, hf, successfulPayments]
      exact h2

theorem paymentAt_of_mem (db : DB) (ps : List Bytes) (h : GaplessInv db ps) (k v : Bytes)
    (hm : (k, v) ∈ paymentEntries db) : paymentAt db k = some v := by
  obtain ⟨⟨b, sb, wt, wi, hb, hsb, hwt, hwi, hseq, hsort, hval, hbk, hrec⟩, hent⟩ := h
  simp only [paymentEntries, hb] at hm
  simp only [paymentAt, hb]
  exact Get_of_mem_valuesOf b k v hsort hm

theorem paymentAt_addAccountPayment (db : DB) (ps : List Bytes) (h : GaplessInv db ps)
    (p : Bytes) (idx t : Uint64) (k v : Bytes) (hm : (k, v) ∈ paymentEntries db) :
    paymentAt (addAccountPayment db p idx t).2 k = some v := by
  have hat := paymentAt_of_mem db ps h k v hm
  obtain ⟨⟨b, sb, wt, wi, hb, hsb, hwt, hwi, hseq, hsort, hval, hbk, hrec⟩, hent⟩ := h
  by_cases hp : p.length ≤ MaxValueSize
  · have hk : ∀ k : Bytes, k.length = 8 → b.Bucket k = none :=
      fun k hk => Bucket_eq_none_of b k hbk hk
    rw [addAccountPayment_of_tx_ok _ _ _ _ _
      (addAccountPaymentTx_ok db b sb wt wi p idx t hb hsb hk hwt hwi hp)]
    rw [hent] at hm
    obtain ⟨i, hi1, hi2, hki⟩ := mem_keyed ps k v 0 hm
    have hlt := b.sequence.isLt
    have hk1 : k ≠ paymentsSyncInfoBucket := by
      intro e
      have := congrArg List.length e
      rw [hki] at this
      simp [itob_length, paymentsSyncInfoBucket] at this
    have hk2 : k ≠ itob (b.sequence + 1) := by
      intro e
      rw [hki] at e
      have := congrArg Fin.val (itob_injective _ _ e)
      rw [uint64Of_val, Fin.val_add, hseq] at this
      simp only [Fin.val_one] at this
      omega
    simp only [paymentAt, hb] at hat
    simp only [paymentAt, Bucket_setBucket_same]
    rw [Get_setBucket_ne _ _ _ _ hk1, Get_putValue_ne _ _ _ _ hk2]
    exact hat
  · rw [ledgerInv_fail db _ ps p idx t
      ⟨b, sb, wt, wi, hb, hsb, hwt, hwi, hseq, hsort, hval, hbk, hrec⟩ (by omega)]
    exact hat

/-- C16. After any sequence of `addAccountPayment` calls on a freshly opened
empty store (fewer than 2^64 of them, the range of bolt's `uint64` counter),
with `n` of them successful: the non-nested entries of the payments bucket
are, in key order, exactly `(itob 1, p1), ..., (itob n, pn)` where `pi` is the
payment of the `i`-th successful call (a failed call uses up no key); the
record of the `i`-th successful call is the value under `itob i`; and a
further `addAccountPayment` call, whatever its arguments and outcome, leaves
the value under every key already assigned as it was. -/
theorem payment_keys_gapless (calls : List PaymentCall)
    (h : calls.length < 18446744073709551616) :
    paymentEntries (addAccountPayments freshDB calls).1 =
        keyed 0 (successfulPayments calls (addAccountPayments freshDB calls).2) ∧
      (successfulPayments calls (addAccountPayments freshDB calls).2).length =
        (addAccountPayments freshDB calls).2.count none ∧
      (∀ (i : Nat) (hi : i < (successfulPayments calls
          (addAccountPayments freshDB calls).2).length),
        paymentAt (addAccountPayments freshDB calls).1 (itob (uint64Of (i + 1))) =
          some ((successfulPayments calls (addAccountPayments freshDB calls).2).get ⟨i, hi⟩)) ∧
      ∀ (p : Bytes) (idx t : Uint64) (k v : Bytes),
        (k, v) ∈ paymentEntries (addAccountPayments freshDB calls).1 →
        paymentAt (addAccountPayment (addAccountPayments freshDB calls).1 p idx t).2 k =
          some v := by
  have hinv := gaplessInv_run calls freshDB [] gaplessInv_fresh (by simpa using h)
  rw [List.nil_append] at hinv
  refine ⟨hinv.2, successfulPayments_length calls _ (addAccountPayments_length calls freshDB),
    ?_, ?_⟩
  · intro i hi
    apply paymentAt_of_mem _ _ hinv
    rw [hinv.2]
    have := keyed_mem_get _ 0 i hi
    rwa [Nat.zero_add] at this
  · intro p idx t k v hm
    exact paymentAt_addAccountPayment _ _ hinv p idx t k v hm

/-- C16 at two calls, the second with an empty payment: the records are under
`itob 1` and `itob 2`. -/
theorem payment_keys_gapless_witness :
    ([⟨[1, 2], 5, 100⟩, ⟨[], 3, 50⟩] : List PaymentCall).length < 18446744073709551616 ∧
    paymentEntries (addAccountPayments freshDB [⟨[1, 2], 5, 100⟩, ⟨[], 3, 50⟩]).1 =
      [([0, 0, 0, 0, 0, 0, 0, 1], [1, 2]), ([0, 0, 0, 0, 0, 0, 0, 2], [])] ∧
    (paymentEntries (addAccountPayments freshDB [⟨[1, 2], 5, 100⟩, ⟨[], 3, 50⟩]).1 =
        keyed 0 (successfulPayments [⟨[1, 2], 5, 100⟩, ⟨[], 3, 50⟩]
          (addAccountPayments freshDB [⟨[1, 2], 5, 100⟩, ⟨[], 3, 50⟩]).2) ∧
      (successfulPayments [⟨[1, 2], 5, 100⟩, ⟨[], 3, 50⟩]
          (addAccountPayments freshDB [⟨[1, 2], 5, 100⟩, ⟨[], 3, 50⟩]).2).length =
        (addAccountPayments freshDB [⟨[1, 2], 5, 100⟩, ⟨[], 3, 50⟩]).2.count none ∧
      (∀ (i : Nat) (hi : i < (successfulPayments [⟨[1, 2], 5, 100⟩, ⟨[], 3, 50⟩]
          (addAccountPayments freshDB [⟨[1, 2], 5, 100⟩, ⟨[], 3, 50⟩]).2).length),
        paymentAt (addAccountPayments freshDB [⟨[1, 2], 5, 100⟩, ⟨[], 3, 50⟩]).1
            (itob (uint64Of (i + 1))) =
          some ((successfulPayments [⟨[1, 2], 5, 100⟩, ⟨[], 3, 50⟩]
            (addAccountPayments freshDB [⟨[1, 2], 5, 100⟩, ⟨[], 3, 50⟩]).2).get ⟨i, hi⟩)) ∧
      ∀ (p : Bytes) (idx t : Uint64) (k v : Bytes),
        (k, v) ∈ paymentEntries (addAccountPayments freshDB [⟨[1, 2], 5, 100⟩, ⟨[], 3, 50⟩]).1 →
        paymentAt (addAccountPayment
          (addAccountPayments freshDB [⟨[1, 2], 5, 100⟩, ⟨[], 3, 50⟩]).1 p idx t).2 k =
          some v) :=
  ⟨by decide, by decide, payment_keys_gapless _ (by decide)⟩

/-! ## Opening the store is idempotent and keeps the data -/

section

variable {β : Type}

theorem Get_setBucket_same (b : BucketOf β) (name : Bytes) (nb : β) :
    (b.setBucket name nb).Get name = none := by
  simp [BucketOf.setBucket, BucketOf.Get, kvGet_kvPut_same]

theorem CreateBucketIfNotExists_eq (b : BucketOf β) (name : Bytes) (fresh : β)
    (hn : name.length ≠ 0) (hg : b.Get name = none) :
    b.CreateBucketIfNotExists name fresh =
      Except.ok ((b.Bucket name).getD fresh, ensureBucket b name fresh) := by
  simp only [BucketOf.CreateBucketIfNotExists, if_neg hn, ensureBucket, BucketOf.Bucket,
    BucketOf.Get] at hg ⊢
  cases h : kvGet name b.entries with
  | none => rfl
  | some e =>
    cases e with
    | value v => rw [h] at hg; simp at hg
    | bucket nb => rfl

theorem Bucket_ensureBucket_same (b : BucketOf β) (name : Bytes) (fresh : β) :
    (ensureBucket b name fresh).Bucket name = some ((b.Bucket name).getD fresh) := by
  simp only [ensureBucket]
  cases h : b.Bucket name with
  | none => exact Bucket_setBucket_same _ _ _
  | some nb => exact h

theorem Bucket_ensureBucket_ne (b : BucketOf β) (name name' : Bytes) (fresh : β)
    (h : name' ≠ name) : (ensureBucket b name fresh).Bucket name' = b.Bucket name' := by
  simp only [ensureBucket]
  cases b.Bucket name with
  | none => exact Bucket_setBucket_ne _ _ _ _ h
  | some nb => rfl

theorem Bucket_ensureBucket_of_some (b : BucketOf β) (name name' : Bytes) (fresh x : β)
    (h : b.Bucket name' = some x) : (ensureBucket b name fresh).Bucket name' = some x := by
  by_cases hn : name' = name
  · subst hn
    rw [Bucket_ensureBucket_same, h]
    rfl
  · rw [Bucket_ensureBucket_ne _ _ _ _ hn, h]

theorem ensureBucket_of_some (b : BucketOf β) (name : Bytes) (fresh x : β)
    (h : b.Bucket name = some x) : ensureBucket b name fresh = b := by
  simp only [ensureBucket, h]

theorem Get_ensureBucket (b : BucketOf β) (name key : Bytes) (fresh : β)
    (hg : b.Get name = none) : (ensureBucket b name fresh).Get key = b.Get key := by
  simp only [ensureBucket]
  cases b.Bucket name with
  | some nb => rfl
  | none =>
    by_cases hk : key = name
    · rw [hk, hg]
      exact Get_setBucket_same _ _ _
    · exact Get_setBucket_ne _ _ _ _ hk

theorem keysSorted_setBucket (b : BucketOf β) (name : Bytes) (nb : β)
    (hs : KeysSorted b.entries) : KeysSorted (b.setBucket name nb).entries :=
  keysSorted_kvPut _ _ _ hs

theorem keysSorted_ensureBucket (b : BucketOf β) (name : Bytes) (fresh : β)
    (hs : KeysSorted b.entries) : KeysSorted (ensureBucket b name fresh).entries := by
  simp only [ensureBucket]
  cases b.Bucket name with
  | some nb => exact hs
  | none => exact keysSorted_setBucket _ _ _ hs

theorem noValues_setBucket (b : BucketOf β) (name : Bytes) (nb : β)
    (h : ∀ k v, (k, Entry.value v) ∉ b.entries) :
    ∀ k v, (k, Entry.value v) ∉ (b.setBucket name nb).entries := by
  intro k v hm
  rcases mem_kvPut _ _ _ _ hm with hm | hm
  · simp at hm
  · exact h k v hm

theorem noValues_ensureBucket (b : BucketOf β) (name : Bytes) (fresh : β)
    (h : ∀ k v, (k, Entry.value v) ∉ b.entries) :
    ∀ k v, (k, Entry.value v) ∉ (ensureBucket b name fresh).entries := by
  simp only [ensureBucket]
  cases b.Bucket name with
  | some nb => exact h
  | none => exact noValues_setBucket _ _ _ h

theorem Get_none_of_noValues (b : BucketOf β) (h : ∀ k v, (k, Entry.value v) ∉ b.entries)
    (key : Bytes) : b.Get key = none := by
  simp only [BucketOf.Get]
  split
  · rename_i v hg
    exact absurd (mem_of_kvGet _ _ _ hg) (h key v)
  · rfl

theorem kvPut_of_kvGet {α : Type} (k : Bytes) (v : α) (l : List (Bytes × α))
    (hs : KeysSorted l) (h : kvGet k l = some v) : kvPut k v l = l := by
  induction l with
  | nil => simp [kvGet] at h
  | cons e rest ih =>
    obtain ⟨k', v'⟩ := e
    rw [KeysSorted, List.pairwise_cons] at hs
    simp only [kvGet] at h
    simp only [kvPut]
    split_ifs at h ⊢ with h1 h2
    · rw [← h1, Option.some.inj h]
    · have hm := mem_of_kvGet _ _ _ h
      have := hs.1 _ hm
      simp only at this
      rw [bytesLess_asymm _ _ this] at h2
      exact absurd h2 (by decide)
    · rw [ih hs.2 h]

theorem setBucket_self (b : BucketOf β) (name : Bytes) (nb : β) (hs : KeysSorted b.entries)
    (h : b.Bucket name = some nb) : b.setBucket name nb = b := by
  obtain ⟨l, s⟩ := b
  simp only [BucketOf.Bucket] at h
  have hg : kvGet name l = some (Entry.bucket nb) := by
    split at h
    · rename_i nb' hg
      rw [hg, Option.some.inj h]
    · exact Option.noConfusion h
  simp only [BucketOf.setBucket, kvPut_of_kvGet name _ l hs hg]

end

/-- The store `openDB` leaves, bucket by bucket. -/
theorem openDBTx_of_openable (db : DB) (h : OpenableStore db) :
    openDBTx db = Except.ok (openedStore db) := by
  obtain ⟨hs, hv, hp⟩ := h
  have v1 := noValues_ensureBucket db incmoingPayReqBucket emptyBucket hv
  have v2 := noValues_ensureBucket _ paymentsBucket emptyBucket v1
  have v3 := noValues_setBucket _ paymentsBucket
    (ensureBucket ((db.Bucket paymentsBucket).getD emptyBucket) paymentsSyncInfoBucket
      emptyBucket) v2
  have v4 := noValues_ensureBucket _ accountBucket emptyBucket v3
  have c1 := CreateBucketIfNotExists_eq db incmoingPayReqBucket emptyBucket (by decide)
    (Get_none_of_noValues db hv _)
  have c2 := CreateBucketIfNotExists_eq (ensureBucket db incmoingPayReqBucket emptyBucket)
    paymentsBucket emptyBucket (by decide) (Get_none_of_noValues _ v1 _)
  have e2 : (ensureBucket db incmoingPayReqBucket emptyBucket).Bucket paymentsBucket =
      db.Bucket paymentsBucket := Bucket_ensureBucket_ne _ _ _ _ (by decide)
  rw [e2] at c2
  have hg : ((db.Bucket paymentsBucket).getD emptyBucket).Get paymentsSyncInfoBucket = none := by
    cases hb : db.Bucket paymentsBucket with
    | none => rfl
    | some b => exact hp b hb
  have c3 := CreateBucketIfNotExists_eq ((db.Bucket paymentsBucket).getD emptyBucket)
    paymentsSyncInfoBucket emptyBucket (by decide) hg
  have c4 := CreateBucketIfNotExists_eq _ accountBucket emptyBucket (by decide)
    (Get_none_of_noValues _ v3 _)
  have c5 := CreateBucketIfNotExists_eq _ addressesBucket emptyBucket (by decide)
    (Get_none_of_noValues _ v4 _)
  simp only [openDBTx, c1, c2, c3, ok_bind, c4, c5]
  rfl

theorem Bucket_openedStore_other (db : DB) (name : Bytes) (n1 : name ≠ addressesBucket)
    (n2 : name ≠ accountBucket) (n3 : name ≠ paymentsBucket) :
    (openedStore db).Bucket name =
      (ensureBucket db incmoingPayReqBucket emptyBucket).Bucket name := by
  simp only [openedStore]
  rw [Bucket_ensureBucket_ne _ _ _ _ n1, Bucket_ensureBucket_ne _ _ _ _ n2,
    Bucket_setBucket_ne _ _ _ _ n3, Bucket_ensureBucket_ne _ _ _ _ n3]

theorem Bucket_openedStore_payments (db : DB) :
    (openedStore db).Bucket paymentsBucket =
      some (ensureBucket ((db.Bucket paymentsBucket).getD emptyBucket) paymentsSyncInfoBucket
        emptyBucket) := by
  simp only [openedStore]
  rw [Bucket_ensureBucket_ne _ _ _ _ (by decide), Bucket_ensureBucket_ne _ _ _ _ (by decide),
    Bucket_setBucket_same]

theorem Bucket_openedStore_account (db : DB) :
    (openedStore db).Bucket accountBucket =
      some ((db.Bucket accountBucket).getD emptyBucket) := by
  simp only [openedStore]
  rw [Bucket_ensureBucket_ne _ _ _ _ (by decide), Bucket_ensureBucket_same,
    Bucket_setBucket_ne _ _ _ _ (by decide), Bucket_ensureBucket_ne _ _ _ _ (by decide),
    Bucket_ensureBucket_ne _ _ _ _ (by decide)]

theorem Bucket_openedStore_addresses (db : DB) :
    (openedStore db).Bucket addressesBucket =
      some ((db.Bucket addressesBucket).getD emptyBucket) := by
  simp only [openedStore]
  rw [Bucket_ensureBucket_same, Bucket_ensureBucket_ne _ _ _ _ (by decide),
    Bucket_setBucket_ne _ _ _ _ (by decide), Bucket_ensureBucket_ne _ _ _ _ (by decide),
    Bucket_ensureBucket_ne _ _ _ _ (by decide)]

theorem Bucket_openedStore_payReq (db : DB) :
    (openedStore db).Bucket incmoingPayReqBucket =
      some ((db.Bucket incmoingPayReqBucket).getD emptyBucket) := by
  rw [Bucket_openedStore_other _ _ (by decide) (by decide) (by decide),
    Bucket_ensureBucket_same]

theorem keysSorted_openedStore (db : DB) (hs : KeysSorted db.entries) :
    KeysSorted (openedStore db).entries :=
  keysSorted_ensureBucket _ _ _ (keysSorted_ensureBucket _ _ _ (keysSorted_setBucket _ _ _
    (keysSorted_ensureBucket _ _ _ (keysSorted_ensureBucket _ _ _ hs))))

theorem openDBTx_fixed (db : DB) (b1 b b2 b3 : Bucket) (sb : SubBucket)
    (hs : KeysSorted db.entries)
    (h1 : db.Bucket incmoingPayReqBucket = some b1) (hb : db.Bucket paymentsBucket = some b)
    (hsb : b.Bucket paymentsSyncInfoBucket = some sb)
    (h2 : db.Bucket accountBucket = some b2) (h3 : db.Bucket addressesBucket = some b3) :
    openDBTx db = Except.ok db := by
  have c1 : db.CreateBucketIfNotExists incmoingPayReqBucket emptyBucket = Except.ok (b1, db) := by
    simp only [BucketOf.Bucket] at h1
    simp only [BucketOf.CreateBucketIfNotExists]
    split at h1 <;> simp_all [incmoingPayReqBucket]
  have c2 : db.CreateBucketIfNotExists paymentsBucket emptyBucket = Except.ok (b, db) := by
    simp only [BucketOf.Bucket] at hb
    simp only [BucketOf.CreateBucketIfNotExists]
    split at hb <;> simp_all [paymentsBucket]
  have c3 : b.CreateBucketIfNotExists paymentsSyncInfoBucket emptyBucket = Except.ok (sb, b) := by
    simp only [BucketOf.Bucket] at hsb
    simp only [BucketOf.CreateBucketIfNotExists]
    split at hsb <;> simp_all [paymentsSyncInfoBucket]
  have e : db.setBucket paymentsBucket b = db := setBucket_self db _ b hs hb
  have c4 : db.CreateBucketIfNotExists accountBucket emptyBucket = Except.ok (b2, db) := by
    simp only [BucketOf.Bucket] at h2
    simp only [BucketOf.CreateBucketIfNotExists]
    split at h2 <;> simp_all [accountBucket]
  have c5 : db.CreateBucketIfNotExists addressesBucket emptyBucket = Except.ok (b3, db) := by
    simp only [BucketOf.Bucket] at h3
    simp only [BucketOf.CreateBucketIfNotExists]
    split at h3 <;> simp_all [addressesBucket]
  simp only [openDBTx, c1, c2, c3, ok_bind, e, c4, c5]
  rfl

/-- C15. On every store file as bolt keeps it (root keys in order, only
buckets in the root, no plain value named `paymentsSyncInfo` in the payments
bucket; any of the buckets may be missing), `openDB` returns no error and
leaves a store in which `paymentRequests`, `payments` with its nested
`paymentsSyncInfo`, `account` and `swap_addresses` all exist; every bucket
that was there is still there with the same counter, the same value under
every key and the same nested buckets (and, `payments` apart, is the very same
bucket); and `openDB` on the result returns no error and the same store. -/
theorem openDB_idempotent_preserving (db : DB) (h : OpenableStore db) :
    (openDB db).1 = none ∧
    (∃ b1 b2 sb b3 b4, (openDB db).2.Bucket incmoingPayReqBucket = some b1 ∧
      (openDB db).2.Bucket paymentsBucket = some b2 ∧
      b2.Bucket paymentsSyncInfoBucket = some sb ∧
      (openDB db).2.Bucket accountBucket = some b3 ∧
      (openDB db).2.Bucket addressesBucket = some b4) ∧
    (∀ name b, db.Bucket name = some b →
      ∃ b', (openDB db).2.Bucket name = some b' ∧ b'.sequence = b.sequence ∧
        (∀ key, b'.Get key = b.Get key) ∧
        (∀ key sb, b.Bucket key = some sb → b'.Bucket key = some sb) ∧
        (name ≠ paymentsBucket → b' = b)) ∧
    openDB (openDB db).2 = (none, (openDB db).2) := by
  have htx := openDBTx_of_openable db h
  obtain ⟨hs, hv, hp⟩ := h
  have hopen : openDB db = (none, openedStore db) := by
    simp only [openDB, dbUpdate, htx]
  rw [hopen]
  simp only
  have hg : ((db.Bucket paymentsBucket).getD emptyBucket).Get paymentsSyncInfoBucket = none := by
    cases hb : db.Bucket paymentsBucket with
    | none => rfl
    | some b => exact hp b hb
  refine ⟨trivial, ⟨_, _, _, _, _, Bucket_openedStore_payReq db, Bucket_openedStore_payments db,
    Bucket_ensureBucket_same _ _ _, Bucket_openedStore_account db,
    Bucket_openedStore_addresses db⟩, ?_, ?_⟩
  · intro name b hb
    by_cases n3 : name = paymentsBucket
    · subst n3
      have ppay := Bucket_openedStore_payments db
      rw [hb] at ppay hg
      simp only [Option.getD_some] at ppay hg
      refine ⟨_, ppay, ?_, fun key => Get_ensureBucket b _ key _ hg,
        fun key sb hsb => Bucket_ensureBucket_of_some b _ key _ sb hsb,
        fun hne => absurd rfl hne⟩
      simp only [ensureBucket]
      cases b.Bucket paymentsSyncInfoBucket <;> rfl
    · refine ⟨b, ?_, rfl, fun _ => rfl, fun _ _ hsb => hsb, fun _ => rfl⟩
      by_cases n1 : name = addressesBucket
      · subst n1
        rw [Bucket_openedStore_addresses, hb]
        rfl
      · by_cases n2 : name = accountBucket
        · subst n2
          rw [Bucket_openedStore_account, hb]
          rfl
        · rw [Bucket_openedStore_other db name n1 n2 n3]
          exact Bucket_ensureBucket_of_some db _ name _ b hb
  · have hfix := openDBTx_fixed _ _ _ _ _ _ (keysSorted_openedStore db hs)
      (Bucket_openedStore_payReq db) (Bucket_openedStore_payments db)
      (Bucket_ensureBucket_same _ _ _) (Bucket_openedStore_account db)
      (Bucket_openedStore_addresses db)
    simp only [openDB, dbUpdate, hfix]

/-- C15 on a store file with a payments bucket (one record, no nested bucket
yet) and an account bucket only: the two missing buckets and the nested one
are created, the record and the account are kept. -/
theorem openDB_idempotent_preserving_witness :
    OpenableStore legacyDB ∧
    (openDB legacyDB).2 =
      ⟨[(accountBucket, Entry.bucket ⟨[(accountKey, Entry.value [7])], 0⟩),
        (incmoingPayReqBucket, Entry.bucket emptyBucket),
        (paymentsBucket, Entry.bucket ⟨[(itob 1, Entry.value [1, 2]),
          (paymentsSyncInfoBucket, Entry.bucket emptyBucket)], 1⟩),
        (addressesBucket, Entry.bucket emptyBucket)], 0⟩ ∧
    ((openDB legacyDB).1 = none ∧
    (∃ b1 b2 sb b3 b4, (openDB legacyDB).2.Bucket incmoingPayReqBucket = some b1 ∧
      (openDB legacyDB).2.Bucket paymentsBucket = some b2 ∧
      b2.Bucket paymentsSyncInfoBucket = some sb ∧
      (openDB legacyDB).2.Bucket accountBucket = some b3 ∧
      (openDB legacyDB).2.Bucket addressesBucket = some b4) ∧
    (∀ name b, legacyDB.Bucket name = some b →
      ∃ b', (openDB legacyDB).2.Bucket name = some b' ∧ b'.sequence = b.sequence ∧
        (∀ key, b'.Get key = b.Get key) ∧
        (∀ key sb, b.Bucket key = some sb → b'.Bucket key = some sb) ∧
        (name ≠ paymentsBucket → b' = b)) ∧
    openDB (openDB legacyDB).2 = (none, (openDB legacyDB).2)) :=
  have hw : OpenableStore legacyDB := by
    refine ⟨by simp [KeysSorted, legacyDB]; decide, ?_, ?_⟩
    · intro k v hm
      simp [legacyDB] at hm
    · intro b hb
      have : legacyDB.Bucket paymentsBucket =
          some ⟨[(itob 1, Entry.value [1, 2])], 1⟩ := by decide
      rw [this] at hb
      rw [← Option.some.inj hb]
      decide
  ⟨hw, by decide, openDB_idempotent_preserving legacyDB hw⟩

/-! ## The key of a registry entry and the Address of its record -/

theorem registryInv_congr (J : JsonCodec) (db db' : DB)
    (h : db'.Bucket addressesBucket = db.Bucket addressesBucket) (hi : RegistryInv J db) :
    RegistryInv J db' := by
  obtain ⟨b, hb, hwf⟩ := hi
  exact ⟨b, h.trans hb, hwf⟩

theorem registryWF_kvDel (J : JsonCodec) (b : Bucket) (a : Bytes) (h : RegistryWF J b) :
    RegistryWF J ⟨kvDel a b.entries, b.sequence⟩ :=
  ⟨keysSorted_kvDel _ _ h.1, fun k nb hm => h.2.1 k nb (mem_kvDel _ _ _ hm),
    fun k v hm => h.2.2 k v (mem_kvDel _ _ _ hm)⟩

theorem registryInv_removeSwapAddress (J : JsonCodec) (db : DB) (a : Bytes)
    (h : RegistryInv J db) : RegistryInv J (removeSwapAddress db a).2 := by
  obtain ⟨b, hb, hwf⟩ := h
  rw [removeSwapAddress_eq db a b hb]
  cases hg : kvGet a b.entries with
  | none =>
    rw [Delete_absent b a hg]
    exact ⟨b, Bucket_setBucket_same _ _ _, hwf⟩
  | some e =>
    cases e with
    | bucket nb => exact absurd (mem_of_kvGet _ _ _ hg) (hwf.2.1 a nb)
    | value v =>
      rw [Delete_value b a v hg]
      exact ⟨_, Bucket_setBucket_same _ _ _, registryWF_kvDel J b a hwf⟩

theorem registryInv_removeSwapAddressByPaymentHash (J : JsonCodec) (db : DB) (pHash : Bytes)
    (h : RegistryInv J db) : RegistryInv J (removeSwapAddressByPaymentHash J db pHash).2.2 := by
  obtain ⟨b, hb, hwf⟩ := h
  rw [removeSwapAddressByPaymentHash_of_wf J db pHash b hb hwf]
  exact ⟨_, Bucket_setBucket_same _ _ _, registryWF_filter J b _ hwf⟩

theorem Get_of_unmarshal (J : JsonCodec) (b : Bucket) (a : Bytes) (r : swapAddressInfo)
    (hnil : J.Unmarshal [] = none) (h : J.Unmarshal (bytesOf (b.Get a)) = some r) :
    ∃ v, (a, Entry.value v) ∈ b.entries ∧ J.Unmarshal v = some r := by
  simp only [BucketOf.Get] at h
  split at h
  · rename_i v hg
    exact ⟨v, mem_of_kvGet _ _ _ hg, h⟩
  · simp only [bytesOf, Option.getD_none, hnil] at h
    exact Option.noConfusion h

theorem registryInv_save_of_writes (J : JsonCodec) (db : DB) (r : swapAddressInfo)
    (h : RegistryInv J db) (hw : WritesAddress J r) :
    RegistryInv J (saveSwapAddressInfo J db r).2 := by
  obtain ⟨b, hb, hwf⟩ := h
  rcases saveSwapAddressInfo_cases J db r b hb with ⟨e, he⟩ | ⟨bytes, hm, _, he⟩
  · rw [he]
    exact ⟨b, hb, hwf⟩
  · rw [he]
    obtain ⟨r', hr', ha⟩ := hw bytes hm
    refine ⟨_, Bucket_setBucket_same _ _ _, ?_⟩
    have := registryWF_putValue J b r' bytes hwf hr'
    rwa [ha] at this

theorem registryInv_updateSwapAddressInfo (J : JsonCodec) (db : DB) (a : Bytes)
    (f : swapAddressInfo → swapAddressInfo) (hnil : J.Unmarshal [] = none)
    (hf : ∀ r, recordAt J db a = some r → (f r).Address = r.Address ∧ WritesAddress J (f r))
    (h : RegistryInv J db) :
    RegistryInv J (updateSwapAddressInfo J db a (fun r (u : Unit) => (f r, u)) ()).2.2 := by
  obtain ⟨b, hb, hwf⟩ := h
  rw [updateSwapAddressInfo_eq _ _ _ _ _ b hb]
  cases hu : J.Unmarshal (bytesOf (b.Get a)) with
  | none => exact ⟨b, hb, hwf⟩
  | some r =>
    simp only
    obtain ⟨v, hm, hv⟩ := Get_of_unmarshal J b a r hnil hu
    obtain ⟨r₀, hr₀, ha⟩ := hwf.2.2 a v hm
    have hra : r.Address = a := by
      rw [hv] at hr₀
      rw [Option.some.inj hr₀]
      exact ha
    have hrec : recordAt J db a = some r := by
      simp only [recordAt, hb]
      exact hu
    obtain ⟨hfa, hfw⟩ := hf r hrec
    cases hma : J.Marshal (f r) with
    | none => exact ⟨b, hb, hwf⟩
    | some bytes =>
      simp only
      cases hp : b.Put a bytes with
      | error e => exact ⟨b, hb, hwf⟩
      | ok b' =>
        refine ⟨b', Bucket_setBucket_same _ _ _, ?_⟩
        rw [Put_ok_form b b' _ _ hp]
        obtain ⟨r', hr', ha'⟩ := hfw bytes hma
        have := registryWF_putValue J b r' bytes hwf hr'
        rwa [ha', hfa, hra] at this

theorem registryInv_step (J : JsonCodec) (db : DB) (op : Op)
    (hnil : J.Unmarshal [] = none) (hk : AddressKept J db op)
    (hs : StoreInv db) (h : RegistryInv J db) : RegistryInv J (step J db op) := by
  cases op with
  | addAccountPayment p idx t =>
    obtain ⟨wt, wi, hsync⟩ := hs.1
    exact registryInv_congr J _ _ (addAccountPayment_frame db p idx t wt wi hsync _ (by decide)) h
  | saveAccount x =>
    exact registryInv_congr J _ _ (saveItem_frame db accountBucket accountKey x _ (by decide)) h
  | savePaymentRequest hh r =>
    exact registryInv_congr J _ _ (saveItem_frame db incmoingPayReqBucket hh r _ (by decide)) h
  | saveSwapAddressInfo r => exact registryInv_save_of_writes J db r h hk
  | removeSwapAddress a => exact registryInv_removeSwapAddress J db a h
  | removeSwapAddressByPaymentHash ph =>
    exact registryInv_removeSwapAddressByPaymentHash J db ph h
  | updateSwapAddressInfo a f => exact registryInv_updateSwapAddressInfo J db a f hnil hk h
  | reopen => exact registryInv_congr J _ _ (openDB_frame db hs _) h
  | reset => exact registryInv_fresh J

theorem registryInv_run (J : JsonCodec) (hnil : J.Unmarshal [] = none) (ops : List Op) :
    ∀ db, AddressKeptRun J db ops → StoreInv db → RegistryInv J db →
      RegistryInv J (run J db ops) := by
  induction ops with
  | nil => exact fun db _ _ h => h
  | cons op rest ih =>
    intro db hk hs h
    exact ih _ hk.2 (storeInv_step J db op hs) (registryInv_step J db op hnil hk.1 hs h)

/-- C11, as amended. When the JSON codec rejects the empty input, then in
every store reached from a freshly opened empty store by calls of `db.go` in
which every record given to `saveSwapAddressInfo` is read back by the codec
with its `Address`, and every mutate function of `updateSwapAddressInfo`
leaves the `Address` of the record it is handed as it was and returns a record
that is read back with its `Address`: the swap-address bucket exists, its keys
are in order, and every entry is a value that decodes to a record whose
`Address` is the key of the entry. -/
theorem registry_key_is_address (J : JsonCodec) (hnil : J.Unmarshal [] = none)
    (ops : List Op) (hk : AddressKeptRun J freshDB ops) :
    (∃ b, (run J freshDB ops).Bucket addressesBucket = some b) ∧
    KeysSorted (registryEntries (run J freshDB ops)) ∧
    ∀ k e, (k, e) ∈ registryEntries (run J freshDB ops) →
      ∃ v r, e = Entry.value v ∧ J.Unmarshal v = some r ∧ r.Address = k := by
  obtain ⟨b, hb, hwf⟩ := registryInv_run J hnil ops freshDB hk storeInv_fresh
    (registryInv_fresh J)
  simp only [registryEntries, hb]
  refine ⟨⟨b, rfl⟩, hwf.1, ?_⟩
  intro k e hm
  cases e with
  | bucket nb => exact absurd hm (hwf.2.1 k nb)
  | value v =>
    obtain ⟨r, hr, ha⟩ := hwf.2.2 k v hm
    exact ⟨v, r, rfl, hr, ha⟩

/-- C11 as amended, with `plainCodec`: save `"a"` and `"b"`, update `"a"` with
a function that sets the payment hash, remove by the payment hash of `"b"`. -/
theorem registry_key_is_address_witness :
    plainCodec.Unmarshal [] = none ∧
    AddressKeptRun plainCodec freshDB
      [Op.saveSwapAddressInfo ⟨[97], [1], []⟩, Op.saveSwapAddressInfo ⟨[98], [2], []⟩,
        Op.updateSwapAddressInfo [97] (fun r => ⟨r.Address, [3], r.Rest⟩),
        Op.removeSwapAddressByPaymentHash [2]] ∧
    registryEntries (run plainCodec freshDB
      [Op.saveSwapAddressInfo ⟨[97], [1], []⟩, Op.saveSwapAddressInfo ⟨[98], [2], []⟩,
        Op.updateSwapAddressInfo [97] (fun r => ⟨r.Address, [3], r.Rest⟩),
        Op.removeSwapAddressByPaymentHash [2]]) = [([97], Entry.value [1, 97, 0, 1, 3, 0, 0])] ∧
    ((∃ b, (run plainCodec freshDB
      [Op.saveSwapAddressInfo ⟨[97], [1], []⟩, Op.saveSwapAddressInfo ⟨[98], [2], []⟩,
        Op.updateSwapAddressInfo [97] (fun r => ⟨r.Address, [3], r.Rest⟩),
        Op.removeSwapAddressByPaymentHash [2]]).Bucket addressesBucket = some b) ∧
    KeysSorted (registryEntries (run plainCodec freshDB
      [Op.saveSwapAddressInfo ⟨[97], [1], []⟩, Op.saveSwapAddressInfo ⟨[98], [2], []⟩,
        Op.updateSwapAddressInfo [97] (fun r => ⟨r.Address, [3], r.Rest⟩),
        Op.removeSwapAddressByPaymentHash [2]])) ∧
    ∀ k e, (k, e) ∈ registryEntries (run plainCodec freshDB
      [Op.saveSwapAddressInfo ⟨[97], [1], []⟩, Op.saveSwapAddressInfo ⟨[98], [2], []⟩,
        Op.updateSwapAddressInfo [97] (fun r => ⟨r.Address, [3], r.Rest⟩),
        Op.removeSwapAddressByPaymentHash [2]]) →
      ∃ v r, e = Entry.value v ∧ plainCodec.Unmarshal v = some r ∧ r.Address = k) :=
  have hw : ∀ r, WritesAddress plainCodec r :=
    fun r bytes h => ⟨r, plainCodec_roundtrip r bytes h, rfl⟩
  have hk : AddressKeptRun plainCodec freshDB
      [Op.saveSwapAddressInfo ⟨[97], [1], []⟩, Op.saveSwapAddressInfo ⟨[98], [2], []⟩,
        Op.updateSwapAddressInfo [97] (fun r => ⟨r.Address, [3], r.Rest⟩),
        Op.removeSwapAddressByPaymentHash [2]] :=
    And.intro (hw _) (And.intro (hw _)
      (And.intro (fun r _ => And.intro rfl (hw _)) (And.intro trivial trivial)))
  ⟨plainCodec_empty, hk, by decide,
    registry_key_is_address plainCodec plainCodec_empty _ hk⟩

/-- C11 fails as stated. With `plainCodec`: after
`saveSwapAddressInfo` of the record with address `"a"` and
`updateSwapAddressInfo("a", f)` where `f` sets `Address` to `"b"`, the
registry holds one entry, under the key `"a"`, and the record decoded from its
value has `Address` `"b"`. -/
theorem updateSwapAddressInfo_changes_address :
    registryEntries (run plainCodec freshDB
      [Op.saveSwapAddressInfo ⟨[97], [1], []⟩,
        Op.updateSwapAddressInfo [97] (fun r => ⟨[98], r.PaymentHash, r.Rest⟩)]) =
      [([97], Entry.value [1, 98, 0, 1, 1, 0, 0])] ∧
    decodeEntry plainCodec ([97], Entry.value [1, 98, 0, 1, 1, 0, 0]) =
      some ⟨[98], [1], []⟩ ∧
    (⟨[98], [1], []⟩ : swapAddressInfo).Address ≠ [97] := by
  decide

/-! ## Stores that can be opened -/

theorem step_root (J : JsonCodec) (db : DB) (op : Op) (hs : StoreInv db) :
    RootStep db (step J db op) := by
  obtain ⟨⟨wt, wi, hsync⟩, ⟨b1, h1⟩, ⟨b2, h2⟩, ⟨b3, h3⟩⟩ := hs
  cases op with
  | addAccountPayment p idx t =>
    by_cases hp : p.length ≤ MaxValueSize
    · obtain ⟨b, sb, hb, hsb, hbk, hwt, hwi⟩ := hsync
      have hk : ∀ k : Bytes, k.length = 8 → b.Bucket k = none :=
        fun k hk => Bucket_eq_none_of b k hbk hk
      show RootStep db (addAccountPayment db p idx t).2
      rw [addAccountPayment_of_tx_ok _ _ _ _ _
        (addAccountPaymentTx_ok db b sb wt wi p idx t hb hsb hk hwt hwi hp)]
      exact Or.inr (Or.inr ⟨_, _, rfl⟩)
    · show RootStep db (addAccountPayment db p idx t).2
      rw [syncInv_fail db wt wi p idx t hsync (by omega)]
      exact Or.inl rfl
  | saveAccount x =>
    show RootStep db (saveItem db accountBucket accountKey x).2
    rw [saveItem_eq _ _ _ _ b2 h2]
    cases b2.Put accountKey x with
    | error e => exact Or.inl rfl
    | ok b' => exact Or.inr (Or.inr ⟨_, _, rfl⟩)
  | savePaymentRequest hh r =>
    show RootStep db (saveItem db incmoingPayReqBucket hh r).2
    rw [saveItem_eq _ _ _ _ b1 h1]
    cases b1.Put hh r with
    | error e => exact Or.inl rfl
    | ok b' => exact Or.inr (Or.inr ⟨_, _, rfl⟩)
  | saveSwapAddressInfo r =>
    show RootStep db (saveSwapAddressInfo J db r).2
    rcases saveSwapAddressInfo_cases J db r b3 h3 with ⟨e, he⟩ | ⟨bytes, _, _, he⟩
    · rw [he]; exact Or.inl rfl
    · rw [he]; exact Or.inr (Or.inr ⟨_, _, rfl⟩)
  | removeSwapAddress a =>
    show RootStep db (removeSwapAddress db a).2
    rw [removeSwapAddress_eq db a b3 h3]
    cases b3.Delete a with
    | error e => exact Or.inl rfl
    | ok b' => exact Or.inr (Or.inr ⟨_, _, rfl⟩)
  | removeSwapAddressByPaymentHash ph =>
    show RootStep db (removeSwapAddressByPaymentHash J db ph).2.2
    rw [removeSwapAddressByPaymentHash_eq J db ph b3 h3]
    rcases ForEach (removeByPaymentHashFn J ph) b3.cursor (false, b3) with ⟨s, _ | e⟩
    · exact Or.inr (Or.inr ⟨_, _, rfl⟩)
    · exact Or.inl rfl
  | updateSwapAddressInfo a f =>
    show RootStep db (updateSwapAddressInfo J db a (fun r (u : Unit) => (f r, u)) ()).2.2
    rw [updateSwapAddressInfo_eq _ _ _ _ _ b3 h3]
    cases J.Unmarshal (bytesOf (b3.Get a)) with
    | none => exact Or.inl rfl
    | some r =>
      simp only
      cases J.Marshal (f r) with
      | none => exact Or.inl rfl
      | some bytes =>
        simp only
        cases b3.Put a bytes with
        | error e => exact Or.inl rfl
        | ok b' => exact Or.inr (Or.inr ⟨_, _, rfl⟩)
  | reopen =>
    obtain ⟨b, hb, htx⟩ := openDBTx_eq db ⟨⟨wt, wi, hsync⟩, ⟨b1, h1⟩, ⟨b2, h2⟩, ⟨b3, h3⟩⟩
    show RootStep db (openDB db).2
    simp only [openDB, dbUpdate, htx]
    exact Or.inr (Or.inr ⟨_, _, rfl⟩)
  | reset => exact Or.inr (Or.inl rfl)

theorem freshDB_eq : freshDB =
    ⟨[(accountBucket, Entry.bucket emptyBucket), (incmoingPayReqBucket, Entry.bucket emptyBucket),
      (paymentsBucket,
        Entry.bucket ⟨[(paymentsSyncInfoBucket, Entry.bucket emptyBucket)], 0⟩),
      (addressesBucket, Entry.bucket emptyBucket)], 0⟩ := by
  decide

theorem paymentKeysSized_congr (db db' : DB)
    (h : db'.Bucket paymentsBucket = db.Bucket paymentsBucket) (hs : PaymentKeysSized db) :
    PaymentKeysSized db' := by
  intro b hb
  rw [h] at hb
  exact hs b hb

theorem paymentKeysSized_fresh : PaymentKeysSized freshDB := by
  intro b hb k v hm
  have : freshDB.Bucket paymentsBucket =
      some ⟨[(paymentsSyncInfoBucket, Entry.bucket emptyBucket)], 0⟩ := by decide
  rw [this] at hb
  rw [← Option.some.inj hb] at hm
  simp at hm

theorem paymentKeysSized_step (J : JsonCodec) (db : DB) (op : Op) (hs : StoreInv db)
    (h : PaymentKeysSized db) : PaymentKeysSized (step J db op) := by
  cases op with
  | addAccountPayment p idx t =>
    obtain ⟨wt, wi, hsync⟩ := hs.1
    show PaymentKeysSized (addAccountPayment db p idx t).2
    by_cases hp : p.length ≤ MaxValueSize
    · obtain ⟨b, sb, hb, hsb, hbk, hwt, hwi⟩ := hsync
      have hk : ∀ k : Bytes, k.length = 8 → b.Bucket k = none :=
        fun k hk => Bucket_eq_none_of b k hbk hk
      rw [addAccountPayment_of_tx_ok _ _ _ _ _
        (addAccountPaymentTx_ok db b sb wt wi p idx t hb hsb hk hwt hwi hp)]
      intro b' hb' k v hm
      rw [Bucket_setBucket_same] at hb'
      rw [← Option.some.inj hb'] at hm
      rcases mem_kvPut _ _ _ _ hm with hm | hm
      · simp at hm
      · rcases mem_kvPut _ _ _ _ hm with hm | hm
        · simp only [Prod.mk.injEq] at hm
          rw [hm.1]
          exact itob_length _
        · exact h b hb k v hm
    · rw [syncInv_fail db wt wi p idx t hsync (by omega)]
      exact h
  | saveAccount x =>
    exact paymentKeysSized_congr _ _ (saveItem_frame db accountBucket accountKey x _ (by decide)) h
  | savePaymentRequest hh r =>
    exact paymentKeysSized_congr _ _
      (saveItem_frame db incmoingPayReqBucket hh r _ (by decide)) h
  | saveSwapAddressInfo r =>
    exact paymentKeysSized_congr _ _ (saveSwapAddressInfo_frame J db r _ (by decide)) h
  | removeSwapAddress a =>
    exact paymentKeysSized_congr _ _ (removeSwapAddress_frame db a _ (by decide)) h
  | removeSwapAddressByPaymentHash ph =>
    exact paymentKeysSized_congr _ _
      (removeSwapAddressByPaymentHash_frame J db ph _ (by decide)) h
  | updateSwapAddressInfo a f =>
    exact paymentKeysSized_congr _ _
      (updateSwapAddressInfo_frame J db a (fun r (u : Unit) => (f r, u)) () _ (by decide)) h
  | reopen => exact paymentKeysSized_congr _ _ (openDB_frame db hs _) h
  | reset => exact paymentKeysSized_fresh

theorem openableStore_of_sized (db : DB) (hs : KeysSorted db.entries)
    (hv : ∀ k v, (k, Entry.value v) ∉ db.entries) (hz : PaymentKeysSized db) :
    OpenableStore db := by
  refine ⟨hs, hv, ?_⟩
  intro b hb
  simp only [BucketOf.Get]
  split
  · rename_i v hg
    have := hz b hb _ v (mem_of_kvGet _ _ _ hg)
    simp [paymentsSyncInfoBucket] at this
  · rfl

/-- The empty store file can be opened. -/
theorem openableStore_empty : OpenableStore emptyDB :=
  ⟨by simp [KeysSorted, emptyDB, emptyBucket], by simp [emptyDB, emptyBucket],
    fun b hb => by simp [emptyDB, emptyBucket, BucketOf.Bucket, kvGet] at hb⟩

theorem openable_run (J : JsonCodec) (ops : List Op) :
    ∀ db, StoreInv db → KeysSorted db.entries → (∀ k v, (k, Entry.value v) ∉ db.entries) →
      PaymentKeysSized db →
      KeysSorted (run J db ops).entries ∧ (∀ k v, (k, Entry.value v) ∉ (run J db ops).entries) ∧
        PaymentKeysSized (run J db ops) := by
  induction ops with
  | nil => exact fun db _ h1 h2 h3 => ⟨h1, h2, h3⟩
  | cons op rest ih =>
    intro db hs h1 h2 h3
    have hfs : KeysSorted freshDB.entries := by
      rw [freshDB_eq]
      simp only [KeysSorted]
      decide
    have hfv : ∀ k v, (k, Entry.value v) ∉ freshDB.entries := by
      rw [freshDB_eq]
      simp
    refine ih _ (storeInv_step J db op hs) ?_ ?_ (paymentKeysSized_step J db op hs h3)
    · rcases step_root J db op hs with e | e | ⟨name, b', e⟩
      · rw [e]; exact h1
      · rw [e]; exact hfs
      · rw [e]; exact keysSorted_setBucket _ _ _ h1
    · rcases step_root J db op hs with e | e | ⟨name, b', e⟩
      · rw [e]; exact h2
      · rw [e]; exact hfv
      · rw [e]; exact noValues_setBucket _ _ _ h2

/-- Every store the calls of `db.go` produce from a freshly opened empty store
is an `OpenableStore`. -/
theorem openableStore_of_reachable (J : JsonCodec) (db : DB) (h : Reachable J db) :
    OpenableStore db := by
  obtain ⟨ops, rfl⟩ := h
  have hfs : KeysSorted freshDB.entries := by
    rw [freshDB_eq]
    simp only [KeysSorted]
    decide
  have hfv : ∀ k v, (k, Entry.value v) ∉ freshDB.entries := by
    rw [freshDB_eq]
    simp
  obtain ⟨h1, h2, h3⟩ := openable_run J ops freshDB storeInv_fresh hfs hfv paymentKeysSized_fresh
  exact openableStore_of_sized _ h1 h2 h3

end Breez
